import Mathlib

/-!
# Verification of the KRL batched distance-computation engine

Shallow embedding of `src/third_party/krl/src/L2distance_simd.cpp` and
`src/third_party/krl/src/IPdistance_simd.cpp` (vendored KRL library of the
OpenViking repository), together with proofs of the frozen claims about it.

Modelling conventions:

* 32-bit floats are modelled by exact rationals `ℚ`.  All in-scope kernels are
  compiled under the `KRL_IMPRECISE_FUNCTION` pragma (associative math), and the
  specification only demands agreement with the naive reference up to
  reassociation tolerance, so the exact-arithmetic value is the semantic
  content of each kernel.
* A `const float *` is modelled as the infinite array it points into,
  `Ptr := ℕ → ℚ`; C pointer arithmetic `p + k` becomes `pshift p k`.
  Nullness of a pointer argument is carried by a separate `Bool` flag
  (`CPtr`), since only the null check ever distinguishes pointers.
* A NEON 128-bit register `float32x4_t` is a 4-lane vector `V4 := Fin 4 → ℚ`;
  each intrinsic used by the source becomes the corresponding pointwise
  operation.  Prefetch intrinsics (`prefetch_L1`/`prefetch_Lx`) and
  `likely`/`unlikely` hints have no semantic effect and are dropped.
* Stores into the caller's output buffer `dis` are recorded as an ordered list
  of write events `(slot, value)`, one event per output slot produced by a
  kernel call, so that the write-exactly-once decomposition properties are
  provable.  Entry points return `(status code, write events)`.
* C loops `for (; i + c <= N; i += step)` (equivalently `i <= N - c` or
  `i < N - c + 1` under the guards the source establishes before entering the
  loop, `size_t` arithmetic) are modelled by the fuel-indexed combinator
  `cfor c N step`; the fuel `N + 1` is strictly larger than the number of
  iterations whenever `1 ≤ step`.
-/

set_option maxHeartbeats 1000000

namespace KRL

/-! ## Pointers, registers, error codes -/

/-- A `const float *` viewed as the array it points into. -/
abbrev Ptr := ℕ → ℚ

/-- C pointer arithmetic `p + k`. -/
def pshift (p : Ptr) (k : ℕ) : Ptr := fun j => p (k + j)

@[simp] theorem pshift_apply (p : Ptr) (k j : ℕ) : pshift p k j = p (k + j) := rfl

theorem pshift_pshift (p : Ptr) (a b : ℕ) : pshift (pshift p a) b = pshift p (a + b) := by
  funext j; simp [pshift]; ring_nf

@[simp] theorem pshift_zero (p : Ptr) : pshift p 0 = p := by
  funext j; simp [pshift]

/-- A pointer argument of a public entry point: the underlying array together
with its nullness (the only property the validation layer inspects). -/
structure CPtr where
  isNull : Bool
  val : Ptr

/-- A NEON `float32x4_t` register: four 32-bit lanes. -/
abbrev V4 := Fin 4 → ℚ

/-- `vld1q_f32(p + off)`. -/
def vld1q_f32 (p : Ptr) (off : ℕ) : V4 := fun r => p (off + r.val)

/-- `vdupq_n_f32(a)`. -/
def vdupq_n_f32 (a : ℚ) : V4 := fun _ => a

def vsubq_f32 (a b : V4) : V4 := fun r => a r - b r

def vmulq_f32 (a b : V4) : V4 := fun r => a r * b r

/-- `vmlaq_f32(acc, a, b) = acc + a * b` per lane. -/
def vmlaq_f32 (acc a b : V4) : V4 := fun r => acc r + a r * b r

def vaddq_f32 (a b : V4) : V4 := fun r => a r + b r

/-- Horizontal sum of the four lanes. -/
def vaddvq_f32 (a : V4) : ℚ := a 0 + a 1 + a 2 + a 3

/-- `vdupq_n_f32(0.0)`. -/
def vzero : V4 := fun _ => 0

/-- Error codes from `platform_macros.h`. -/
def SUCCESS : Int := 0

def INVALPOINTER : Int := -1

def INVALPARAM : Int := -3

def UNSAFEMEM : Int := -5

/-! ## The C `for` loop combinator -/

/-- Fuel-indexed evaluation of the C loop `for (; i + c <= N; i += step)`,
returning the final loop index together with the final state.  The fuel is an
upper bound on the iteration count; `cfor` below instantiates it with `N + 1`,
which suffices whenever `1 ≤ step`. -/
def cforAux {σ : Type} (c N step : ℕ) (body : ℕ → σ → σ) : ℕ → ℕ → σ → ℕ × σ
  | 0, i, s => (i, s)
  | fuel + 1, i, s =>
    if i + c ≤ N then cforAux c N step body fuel (i + step) (body i s) else (i, s)

/-- The C loop `for (; i + c <= N; i += step)` starting at `i0` with state
`s0`. -/
def cfor {σ : Type} (c N step : ℕ) (body : ℕ → σ → σ) (i0 : ℕ) (s0 : σ) : ℕ × σ :=
  cforAux c N step body (N + 1) i0 s0

theorem cforAux_ind {σ : Type} {c N u : ℕ} {b : ℕ → σ → σ}
    (P : ℕ → σ → Prop)
    (hb : ∀ i s, i + c ≤ N → P i s → P (i + u) (b i s)) :
    ∀ fuel i s, P i s →
      P (cforAux c N u b fuel i s).1 (cforAux c N u b fuel i s).2 := by
  intro fuel
  induction fuel with
  | zero => intro i s h; simpa [cforAux] using h
  | succ n ih =>
    intro i s h
    by_cases hc : i + c ≤ N
    · simpa [cforAux, hc] using ih (i + u) (b i s) (hb i s hc h)
    · simp only [cforAux, hc, if_false]; exact h

theorem cforAux_exit {σ : Type} {c N u : ℕ} {b : ℕ → σ → σ} (hc : 1 ≤ c) :
    ∀ fuel i (s : σ), N + 1 ≤ i + fuel * u →
      ¬((cforAux c N u b fuel i s).1 + c ≤ N) := by
  intro fuel
  induction fuel with
  | zero => intro i s h; simp [cforAux]; omega
  | succ n ih =>
    intro i s h
    by_cases hcond : i + c ≤ N
    · have : N + 1 ≤ (i + u) + n * u := by
        have : (n + 1) * u = n * u + u := by ring
        omega
      simpa [cforAux, hcond] using ih (i + u) (b i s) this
    · simpa [cforAux, hcond] using hcond

/-- Invariant preservation for `cfor`. -/
theorem cfor_spec {σ : Type} {c N u : ℕ} {b : ℕ → σ → σ}
    (P : ℕ → σ → Prop) (i0 : ℕ) (s0 : σ)
    (h0 : P i0 s0)
    (hb : ∀ i s, i + c ≤ N → P i s → P (i + u) (b i s)) :
    P (cfor c N u b i0 s0).1 (cfor c N u b i0 s0).2 :=
  cforAux_ind P hb _ i0 s0 h0

/-- The loop condition is false on the final index. -/
theorem cfor_exit {σ : Type} {c N u : ℕ} {b : ℕ → σ → σ}
    (hc : 1 ≤ c) (hs : 1 ≤ u) (i0 : ℕ) (s0 : σ) :
    ¬((cfor c N u b i0 s0).1 + c ≤ N) := by
  refine cforAux_exit hc _ i0 s0 ?_
  have : N + 1 ≤ (N + 1) * u := Nat.le_mul_of_pos_right _ hs
  omega

/-- The final index does not move below the start. -/
theorem cfor_ge {σ : Type} {c N u : ℕ} {b : ℕ → σ → σ} (i0 : ℕ) (s0 : σ) :
    i0 ≤ (cfor c N u b i0 s0).1 := by
  have := cfor_spec (b := b) (c := c) (N := N) (u := u)
    (fun i _ => i0 ≤ i) i0 s0 le_rfl (by intro i s _ h; omega)
  exact this

/-- The final index stays under `N + u` (when the start does). -/
theorem cfor_lt {σ : Type} {c N u : ℕ} {b : ℕ → σ → σ}
    (hc : 1 ≤ c) (h0 : a < N + u) (s0 : σ) :
    (cfor c N u b a s0).1 < N + u := by
  have := cfor_spec (b := b) (c := c) (N := N) (u := u)
    (fun i _ => i < N + u) a s0 h0 (by intro i s hcond h; omega)
  exact this

/-- The final index stays at most `N` when the stride does not exceed the
slack. -/
theorem cfor_le {σ : Type} {c N u : ℕ} {b : ℕ → σ → σ}
    (hsc : u ≤ c) (h0 : a ≤ N) (s0 : σ) :
    (cfor c N u b a s0).1 ≤ N := by
  have := cfor_spec (b := b) (c := c) (N := N) (u := u)
    (fun i _ => i ≤ N) a s0 h0 (by intro i s hcond h; omega)
  exact this

/-- The final index is congruent to the start modulo the stride. -/
theorem cfor_mod {σ : Type} {c N u : ℕ} {b : ℕ → σ → σ} (i0 : ℕ) (s0 : σ) :
    ∃ t, (cfor c N u b i0 s0).1 = i0 + u * t := by
  have := cfor_spec (b := b) (c := c) (N := N) (u := u)
    (fun i _ => ∃ t, i = i0 + u * t) i0 s0 ⟨0, by ring⟩
    (by rintro i s _ ⟨t, rfl⟩; exact ⟨t + 1, by ring⟩)
  exact this

/-- A loop whose condition fails at entry does nothing. -/
theorem cfor_nop {σ : Type} {c N u : ℕ} {b : ℕ → σ → σ} {i0 : ℕ} (s0 : σ)
    (h : ¬(i0 + c ≤ N)) : cfor c N u b i0 s0 = (i0, s0) := by
  simp [cfor, cforAux, h]

theorem sum_Ico_expand (f : ℕ → ℚ) (i n : ℕ) :
    ∑ j in Finset.Ico i (i + n), f j = ∑ r in Finset.range n, f (i + r) := by
  rw [Finset.sum_Ico_eq_sum_range]
  simp

/-- Chunk accumulation: if each loop u at index `i` adds the terms
`f i, …, f (i + u - 1)` to the quantity `T`, the loop adds all terms
between the initial and final index. -/
theorem cfor_accum {σ : Type} {c N u : ℕ} {b : ℕ → σ → σ}
    (i0 : ℕ) (s0 : σ) (T : σ → ℚ) (f : ℕ → ℚ)
    (hb : ∀ i s, i + c ≤ N →
      T (b i s) = T s + ∑ j in Finset.Ico i (i + u), f j) :
    T (cfor c N u b i0 s0).2
      = T s0 + ∑ j in Finset.Ico i0 (cfor c N u b i0 s0).1, f j := by
  have := cfor_spec (b := b) (c := c) (N := N) (u := u)
    (fun i s => i0 ≤ i ∧ T s = T s0 + ∑ j in Finset.Ico i0 i, f j) i0 s0
    ⟨le_rfl, by simp⟩
    (by
      rintro i s hcond ⟨hle, hT⟩
      refine ⟨by omega, ?_⟩
      rw [hb i s hcond, hT,
        ← Finset.sum_Ico_consecutive f hle (Nat.le_add_right i u)]
      ring)
  exact this.2

@[simp] theorem fin4_val_zero : ((0 : Fin 4) : ℕ) = 0 := rfl

@[simp] theorem fin4_val_one : ((1 : Fin 4) : ℕ) = 1 := rfl

@[simp] theorem fin4_val_two : ((2 : Fin 4) : ℕ) = 2 := rfl

@[simp] theorem fin4_val_three : ((3 : Fin 4) : ℕ) = 3 := rfl

/-! ## Write events -/

/-- The write events of a kernel call that stores `n` results starting at
offset `pos` of the output buffer: slot `pos + k` receives result `k`. -/
def storeAt (pos n : ℕ) (out : ℕ → ℚ) : List (ℕ × ℚ) :=
  (List.range n).map (fun k => (pos + k, out k))

/-- The canonical write list for slots `[a, a + n)` of a buffer whose slot `j`
holds `v j`. -/
def canon (v : ℕ → ℚ) (a n : ℕ) : List (ℕ × ℚ) :=
  (List.range' a n).map (fun j => (j, v j))

@[simp] theorem canon_zero (v : ℕ → ℚ) (a : ℕ) : canon v a 0 = [] := rfl

theorem canon_append (v : ℕ → ℚ) (a m n : ℕ) :
    canon v a m ++ canon v (a + m) n = canon v a (m + n) := by
  unfold canon
  rw [← List.map_append, List.range'_append_1, Nat.add_comm n m]

theorem canon_one (v : ℕ → ℚ) (a : ℕ) : canon v a 1 = [(a, v a)] := rfl

theorem storeAt_canon (pos n : ℕ) (out : ℕ → ℚ) (v : ℕ → ℚ)
    (h : ∀ k, k < n → out k = v (pos + k)) :
    storeAt pos n out = canon v pos n := by
  unfold storeAt canon
  rw [List.range'_eq_map_range, List.map_map]
  refine List.map_congr_left ?_
  intro k hk
  simp only [Function.comp_apply]
  rw [h k (List.mem_range.mp hk)]

theorem canon_range (v : ℕ → ℚ) (n : ℕ) :
    canon v 0 n = (List.range n).map (fun j => (j, v j)) := by
  unfold canon
  rw [List.range_eq_range']

/-! ## Naive references -/

/-- Naive scalar sum-of-squared-differences reference. -/
def l2naive (x y : Ptr) (d : ℕ) : ℚ := ∑ j in Finset.range d, (x j - y j) ^ 2

/-- Naive scalar sum-of-products reference. -/
def ipnaive (x y : Ptr) (d : ℕ) : ℚ := ∑ j in Finset.range d, x j * y j

/-! ## Scalar tail loops

Every fixed-width kernel ends with a scalar loop `for (; i < d; i++)` adding
the remaining per-dimension terms onto per-vector accumulators.  `tailLoop`
models the family version (one accumulator per vector `k`), `tailLoopS` the
single-accumulator version. -/

def tailLoop (t : ℕ → ℕ → ℚ) (d i0 : ℕ) (dt0 : ℕ → ℚ) : ℕ → ℚ :=
  (cfor 1 d 1 (fun j dt => fun k => dt k + t k j) i0 dt0).2

def tailLoopS (t : ℕ → ℚ) (d i0 : ℕ) (r0 : ℚ) : ℚ :=
  (cfor 1 d 1 (fun j r => r + t j) i0 r0).2

theorem tailLoop_spec (t : ℕ → ℕ → ℚ) (d i0 : ℕ) (dt0 : ℕ → ℚ) (k : ℕ)
    (h : i0 ≤ d) :
    tailLoop t d i0 dt0 k = dt0 k + ∑ j in Finset.Ico i0 d, t k j := by
  unfold tailLoop
  have hex := cfor_exit (b := fun j dt => fun k => dt k + t k j)
    (c := 1) (N := d) (u := 1) le_rfl le_rfl i0 dt0
  have hle := cfor_le (b := fun j dt => fun k => dt k + t k j)
    (c := 1) (N := d) (u := 1) le_rfl h dt0
  have hacc := cfor_accum (c := 1) (N := d) (u := 1)
    (b := fun j dt => fun k => dt k + t k j) i0 dt0
    (fun dt => dt k) (t k)
    (by intro i s _; rw [sum_Ico_expand]; simp)
  obtain ⟨p, hp⟩ : ∃ p, cfor 1 d 1 (fun j dt => fun k => dt k + t k j) i0 dt0 = p :=
    ⟨_, rfl⟩
  rw [hp] at hex hle hacc ⊢
  simp only at hacc
  have hfin : p.1 = d := by omega
  rw [hfin] at hacc
  exact hacc

theorem tailLoopS_spec (t : ℕ → ℚ) (d i0 : ℕ) (r0 : ℚ) (h : i0 ≤ d) :
    tailLoopS t d i0 r0 = r0 + ∑ j in Finset.Ico i0 d, t j := by
  unfold tailLoopS
  have hex := cfor_exit (b := fun j r => r + t j)
    (c := 1) (N := d) (u := 1) le_rfl le_rfl i0 r0
  have hle := cfor_le (b := fun j r => r + t j)
    (c := 1) (N := d) (u := 1) le_rfl h r0
  have hacc := cfor_accum (c := 1) (N := d) (u := 1)
    (b := fun j r => r + t j) i0 r0 id t
    (by intro i s _; rw [sum_Ico_expand]; simp)
  obtain ⟨p, hp⟩ : ∃ p, cfor 1 d 1 (fun j r => r + t j) i0 r0 = p := ⟨_, rfl⟩
  rw [hp] at hex hle hacc ⊢
  simp only [id] at hacc
  have hfin : p.1 = d := by omega
  rw [hfin] at hacc
  exact hacc

/-! ## Bit-test helpers

The dispatchers decompose the batch count with bit tests `ny & 8`, `ny & 4`,
`ny & 2`, `ny & 1`, and the Transposed-Block Engine computes the remainder as
`ny & (blocksize - 1)`. -/

theorem and_pow2_ne (n i : ℕ) : n &&& 2 ^ i ≠ 0 ↔ n / 2 ^ i % 2 = 1 := by
  rw [Nat.and_two_pow, Nat.testBit_to_div_mod]
  by_cases h : n / 2 ^ i % 2 = 1 <;> simp [h, Nat.pow_eq_zero]

theorem and_one_ne (n : ℕ) : n &&& 1 ≠ 0 ↔ n % 2 = 1 := by
  have := and_pow2_ne n 0
  simpa using this

theorem and_two_ne (n : ℕ) : n &&& 2 ≠ 0 ↔ n / 2 % 2 = 1 := by
  have := and_pow2_ne n 1
  norm_num at this
  exact this

theorem and_four_ne (n : ℕ) : n &&& 4 ≠ 0 ↔ n / 4 % 2 = 1 := by
  have := and_pow2_ne n 2
  norm_num at this
  exact this

theorem and_eight_ne (n : ℕ) : n &&& 8 ≠ 0 ↔ n / 8 % 2 = 1 := by
  have := and_pow2_ne n 3
  norm_num at this
  exact this

theorem and_fifteen (n : ℕ) : n &&& 15 = n % 16 := by
  have := Nat.and_pow_two_sub_one_eq_mod n 4
  norm_num at this
  exact this

theorem and_thirtyone (n : ℕ) : n &&& 31 = n % 32 := by
  have := Nat.and_pow_two_sub_one_eq_mod n 5
  norm_num at this
  exact this

theorem and_sixtythree (n : ℕ) : n &&& 63 = n % 64 := by
  have := Nat.and_pow_two_sub_one_eq_mod n 6
  norm_num at this
  exact this

theorem sum_Ico_bot (f : ℕ → ℚ) {a b : ℕ} (h : a < b) :
    ∑ j in Finset.Ico a b, f j = f a + ∑ j in Finset.Ico (a + 1) b, f j := by
  rw [← Finset.sum_Ico_consecutive f (Nat.le_succ a) h, Nat.succ_eq_add_one,
    sum_Ico_expand]
  simp

/-! ## L2 fixed-width kernels, dense layout

`krl_L2sqr_batch4/8/16/24` (L2distance_simd.cpp:1733/1818/1951/2185) all
perform, for each database row `k` (row `k` lives at `y + k*d`), the same
per-row computation: a guard `d >= 4`, accumulators initialised from
dimensions `[0,4)`, a 4-wide SIMD loop `for (i = 4; i <= d - 4; i += 4)`, a
horizontal reduction, and a peeled scalar tail.  The width `W ∈ {4,8,16,24}`
only determines how many rows the caller stores, so the four source functions
share the single row-indexed model `krl_L2sqr_batchW` below.  (`batch24` skips
the dedicated 16-wide super-block of the gather variant; its dense source also
uses the plain 4-wide loop.) -/

/-- Loop body of the 4-wide accumulation loops of the dense L2 batch kernels:
`neon_base = vsubq(vld1q(y + k*d + i), vld1q(x + i)); res_k = vmlaq(res_k,
neon_base, neon_base)`. -/
def l2ny_step4 (x y : Ptr) (d : ℕ) (i : ℕ) (s : ℕ → V4) : ℕ → V4 := fun k =>
  let q := vsubq_f32 (vld1q_f32 (pshift y (k * d)) i) (vld1q_f32 x i)
  vmlaq_f32 (s k) q q

/-- Accumulator initialisation from dimensions `[0,4)` of the dense L2 batch
kernels. -/
def l2ny_init4 (x y : Ptr) (d : ℕ) : ℕ → V4 := fun k =>
  let q := vsubq_f32 (vld1q_f32 (pshift y (k * d)) 0) (vld1q_f32 x 0)
  vmulq_f32 q q

/-- Scalar tail term of the dense L2 batch kernels:
`q_k = x[i] - *(y + k*d + i); d_k += q_k * q_k`. -/
def l2ny_tail (x y : Ptr) (d : ℕ) (k j : ℕ) : ℚ :=
  (x j - pshift y (k * d) j) * (x j - pshift y (k * d) j)

/-- Row-indexed model of `krl_L2sqr_batch4`, `krl_L2sqr_batch8`,
`krl_L2sqr_batch16` and `krl_L2sqr_batch24` (identical per-row computation;
see the section comment). -/
def krl_L2sqr_batchW (x y : Ptr) (d : ℕ) : ℕ → ℚ :=
  let p : ℕ × (ℕ → ℚ) :=
    if 4 ≤ d then
      let p1 := cfor 4 d 4 (l2ny_step4 x y d) 4 (l2ny_init4 x y d)
      (p1.1, fun k => vaddvq_f32 (p1.2 k))
    else (0, fun _ => (0 : ℚ))
  -- peeled scalar tail `if (i < d) { … for (i++; i < d; ++i) … dis[k] += d_k }`
  if p.1 < d then
    fun k => p.2 k + tailLoop (l2ny_tail x y d) d (p.1 + 1)
      (fun k => l2ny_tail x y d k p.1) k
  else p.2

/-- The 4-wide dense L2 loop adds the squared differences of the dimensions it
covers, for every row `k`. -/
theorem l2ny_loop (x y : Ptr) (d i0 : ℕ) (s0 : ℕ → V4) (k : ℕ) :
    vaddvq_f32 ((cfor 4 d 4 (l2ny_step4 x y d) i0 s0).2 k)
      = vaddvq_f32 (s0 k)
        + ∑ j in Finset.Ico i0 (cfor 4 d 4 (l2ny_step4 x y d) i0 s0).1,
            (x j - pshift y (k * d) j) ^ 2 := by
  have hacc := cfor_accum (c := 4) (N := d) (u := 4)
    (b := l2ny_step4 x y d) i0 s0
    (fun s => vaddvq_f32 (s k)) (fun j => (x j - pshift y (k * d) j) ^ 2)
    (by
      intro i s _
      rw [sum_Ico_expand]
      simp [l2ny_step4, vaddvq_f32, vmlaq_f32, vsubq_f32, vld1q_f32, pshift,
        Finset.sum_range_succ]
      ring)
  simpa using hacc

theorem l2ny_init4_sum (x y : Ptr) (d : ℕ) (k : ℕ) :
    vaddvq_f32 (l2ny_init4 x y d k)
      = ∑ j in Finset.Ico 0 4, (x j - pshift y (k * d) j) ^ 2 := by
  rw [show (4 : ℕ) = 0 + 4 by rfl, sum_Ico_expand]
  simp [l2ny_init4, vaddvq_f32, vmulq_f32, vsubq_f32, vld1q_f32, pshift,
    Finset.sum_range_succ]
  ring

theorem krl_L2sqr_batchW_spec (x y : Ptr) (d : ℕ) (k : ℕ) :
    krl_L2sqr_batchW x y d k = l2naive x (pshift y (k * d)) d := by
  unfold krl_L2sqr_batchW l2naive
  by_cases h4 : 4 ≤ d
  · simp only [if_pos h4]
    have hval := l2ny_loop x y d 4 (l2ny_init4 x y d) k
    have hex := cfor_exit (b := l2ny_step4 x y d)
      (c := 4) (N := d) (u := 4) (by norm_num) (by norm_num) 4 (l2ny_init4 x y d)
    have hle := cfor_le (b := l2ny_step4 x y d)
      (c := 4) (N := d) (u := 4) le_rfl h4 (l2ny_init4 x y d)
    have hge := cfor_ge (b := l2ny_step4 x y d)
      (c := 4) (N := d) (u := 4) 4 (l2ny_init4 x y d)
    obtain ⟨p, hp⟩ : ∃ p, cfor 4 d 4 (l2ny_step4 x y d) 4 (l2ny_init4 x y d) = p :=
      ⟨_, rfl⟩
    rw [hp] at hval hex hle hge ⊢
    by_cases ht : p.1 < d
    · simp only [if_pos ht]
      rw [hval, l2ny_init4_sum, tailLoop_spec _ _ _ _ _ (by omega)]
      have htail : (l2ny_tail x y d k p.1
            + ∑ j in Finset.Ico (p.1 + 1) d, l2ny_tail x y d k j)
          = ∑ j in Finset.Ico p.1 d, (x j - pshift y (k * d) j) ^ 2 := by
        rw [sum_Ico_bot _ ht]
        congr 1
        · unfold l2ny_tail; ring
        · exact Finset.sum_congr rfl (fun j _ => by unfold l2ny_tail; ring)
      rw [add_assoc, htail,
        Finset.sum_Ico_consecutive _ (by omega : 4 ≤ p.1) (by omega : p.1 ≤ d),
        Finset.sum_Ico_consecutive _ (by omega : (0:ℕ) ≤ 4) (by omega : 4 ≤ d),
        Finset.range_eq_Ico]
    · simp only [if_neg ht]
      rw [hval, l2ny_init4_sum]
      have hpd : p.1 = d := by omega
      rw [hpd,
        Finset.sum_Ico_consecutive _ (by omega : (0:ℕ) ≤ 4) (by omega : 4 ≤ d),
        Finset.range_eq_Ico]
  · simp only [if_neg h4]
    by_cases hd : 0 < d
    · simp only [if_pos hd]
      rw [tailLoop_spec _ _ _ _ _ (by omega)]
      have htail : (l2ny_tail x y d k 0
            + ∑ j in Finset.Ico (0 + 1) d, l2ny_tail x y d k j)
          = ∑ j in Finset.Ico 0 d, (x j - pshift y (k * d) j) ^ 2 := by
        rw [sum_Ico_bot _ hd]
        congr 1
        · unfold l2ny_tail; ring
        · exact Finset.sum_congr rfl (fun j _ => by unfold l2ny_tail; ring)
      rw [zero_add, htail, Finset.range_eq_Ico]
    · simp only [if_neg hd]
      have : d = 0 := by omega
      simp [this]

theorem vaddv_vaddq (a b : V4) :
    vaddvq_f32 (vaddq_f32 a b) = vaddvq_f32 a + vaddvq_f32 b := by
  simp [vaddvq_f32, vaddq_f32]
  ring

/-! ## `krl_L2sqr_batch2` (L2distance_simd.cpp:1665): two accumulator
registers per row, 8-wide stride, guard `d >= 8`, un-peeled scalar tail. -/

def l2ny2_init8 (x y : Ptr) (d : ℕ) : (ℕ → V4) × (ℕ → V4) :=
  (fun k =>
    let q := vsubq_f32 (vld1q_f32 x 0) (vld1q_f32 (pshift y (k * d)) 0)
    vmulq_f32 q q,
   fun k =>
    let q := vsubq_f32 (vld1q_f32 x 4) (vld1q_f32 (pshift y (k * d)) 4)
    vmulq_f32 q q)

def l2ny2_step8 (x y : Ptr) (d : ℕ) (i : ℕ) (s : (ℕ → V4) × (ℕ → V4)) :
    (ℕ → V4) × (ℕ → V4) :=
  (fun k =>
    let q := vsubq_f32 (vld1q_f32 x i) (vld1q_f32 (pshift y (k * d)) i)
    vmlaq_f32 (s.1 k) q q,
   fun k =>
    let q := vsubq_f32 (vld1q_f32 x (i + 4)) (vld1q_f32 (pshift y (k * d)) (i + 4))
    vmlaq_f32 (s.2 k) q q)

def krl_L2sqr_batch2 (x y : Ptr) (d : ℕ) : ℕ → ℚ :=
  let p : ℕ × (ℕ → ℚ) :=
    if 8 ≤ d then
      let p1 := cfor 8 d 8 (l2ny2_step8 x y d) 8 (l2ny2_init8 x y d)
      (p1.1, fun k => vaddvq_f32 (vaddq_f32 (p1.2.1 k) (p1.2.2 k)))
    else (0, fun _ => (0 : ℚ))
  tailLoop (l2ny_tail x y d) d p.1 p.2

theorem krl_L2sqr_batch2_spec (x y : Ptr) (d : ℕ) (k : ℕ) :
    krl_L2sqr_batch2 x y d k = l2naive x (pshift y (k * d)) d := by
  unfold krl_L2sqr_batch2 l2naive
  by_cases h8 : 8 ≤ d
  · simp only [if_pos h8]
    have hacc := cfor_accum (c := 8) (N := d) (u := 8)
      (b := l2ny2_step8 x y d) 8 (l2ny2_init8 x y d)
      (fun s => vaddvq_f32 (s.1 k) + vaddvq_f32 (s.2 k))
      (fun j => (x j - pshift y (k * d) j) ^ 2)
      (by
        intro i s _
        rw [sum_Ico_expand]
        simp [l2ny2_step8, vaddvq_f32, vmlaq_f32, vsubq_f32, vld1q_f32, pshift,
          Finset.sum_range_succ]
        ring)
    have hex := cfor_exit (b := l2ny2_step8 x y d)
      (c := 8) (N := d) (u := 8) (by norm_num) (by norm_num) 8 (l2ny2_init8 x y d)
    have hle := cfor_le (b := l2ny2_step8 x y d)
      (c := 8) (N := d) (u := 8) le_rfl h8 (l2ny2_init8 x y d)
    have hge := cfor_ge (b := l2ny2_step8 x y d)
      (c := 8) (N := d) (u := 8) 8 (l2ny2_init8 x y d)
    obtain ⟨p, hp⟩ : ∃ p, cfor 8 d 8 (l2ny2_step8 x y d) 8 (l2ny2_init8 x y d) = p :=
      ⟨_, rfl⟩
    rw [hp] at hacc hex hle hge ⊢
    simp only at hacc
    rw [tailLoop_spec _ _ _ _ _ (by omega : p.1 ≤ d), vaddv_vaddq, hacc]
    have hinit : vaddvq_f32 ((l2ny2_init8 x y d).1 k) + vaddvq_f32 ((l2ny2_init8 x y d).2 k)
        = ∑ j in Finset.Ico 0 8, (x j - pshift y (k * d) j) ^ 2 := by
      rw [show (8 : ℕ) = 0 + 8 by rfl, sum_Ico_expand]
      simp [l2ny2_init8, vaddvq_f32, vmulq_f32, vsubq_f32, vld1q_f32, pshift,
        Finset.sum_range_succ]
      ring
    have htail : ∑ j in Finset.Ico p.1 d, l2ny_tail x y d k j
        = ∑ j in Finset.Ico p.1 d, (x j - pshift y (k * d) j) ^ 2 :=
      Finset.sum_congr rfl (fun j _ => by unfold l2ny_tail; ring)
    rw [htail, hinit, add_assoc,
      Finset.sum_Ico_consecutive _ (by omega : 8 ≤ p.1) (by omega : p.1 ≤ d),
      Finset.sum_Ico_consecutive _ (by omega : (0:ℕ) ≤ 8) (by omega : 8 ≤ d),
      Finset.range_eq_Ico]
  · simp only [if_neg h8]
    rw [tailLoop_spec _ _ _ _ _ (by omega : 0 ≤ d)]
    have htail : ∑ j in Finset.Ico 0 d, l2ny_tail x y d k j
        = ∑ j in Finset.Ico 0 d, (x j - pshift y (k * d) j) ^ 2 :=
      Finset.sum_congr rfl (fun j _ => by unfold l2ny_tail; ring)
    rw [htail, Finset.range_eq_Ico]
    ring

/-! ## `krl_L2sqr` (L2distance_simd.cpp:22): the single-pair entry point.
`single_round = 4`, `multi_round = 16`; four accumulator registers in the
`d >= 16` branch, of which only the first is updated by the 4-wide cleanup
loop; scalar tail onto the reduced result. -/

def l2one_init16 (x y : Ptr) : ℕ → V4 := fun r =>
  let q := vsubq_f32 (vld1q_f32 x (4 * r)) (vld1q_f32 y (4 * r))
  vmulq_f32 q q

def l2one_step16 (x y : Ptr) (i : ℕ) (s : ℕ → V4) : ℕ → V4 := fun r =>
  let q := vsubq_f32 (vld1q_f32 x (i + 4 * r)) (vld1q_f32 y (i + 4 * r))
  vmlaq_f32 (s r) q q

/-- The 4-wide cleanup loop of `krl_L2sqr`: only register 0 is updated. -/
def l2one_step4a (x y : Ptr) (i : ℕ) (s : ℕ → V4) : ℕ → V4 := fun r =>
  if r = 0 then
    let q := vsubq_f32 (vld1q_f32 x i) (vld1q_f32 y i)
    vmlaq_f32 (s 0) q q
  else s r

/-- The single-register loop of the `4 <= d < 16` branch of `krl_L2sqr`. -/
def l2one_step4b (x y : Ptr) (i : ℕ) (s : V4) : V4 :=
  let q := vsubq_f32 (vld1q_f32 x i) (vld1q_f32 y i)
  vmlaq_f32 s q q

/-- Value computed by `krl_L2sqr` into `*dis` (after validation). -/
def krl_L2sqr_res (x y : Ptr) (d : ℕ) : ℚ :=
  let p : ℕ × ℚ :=
    if 16 ≤ d then
      let p1 := cfor 16 d 16 (l2one_step16 x y) 16 (l2one_init16 x y)
      let p2 := cfor 4 d 4 (l2one_step4a x y) p1.1 p1.2
      (p2.1,
        vaddvq_f32 (vaddq_f32 (vaddq_f32 (p2.2 0) (p2.2 1))
          (vaddq_f32 (p2.2 2) (p2.2 3))))
    else if 4 ≤ d then
      let q0 := vsubq_f32 (vld1q_f32 x 0) (vld1q_f32 y 0)
      let p1 := cfor 4 d 4 (l2one_step4b x y) 4 (vmulq_f32 q0 q0)
      (p1.1, vaddvq_f32 p1.2)
    else (0, 0)
  tailLoopS (fun j => (x j - y j) * (x j - y j)) d p.1 p.2

theorem krl_L2sqr_res_spec (x y : Ptr) (d : ℕ) :
    krl_L2sqr_res x y d = l2naive x y d := by
  unfold krl_L2sqr_res l2naive
  have htt : ∀ a b : ℕ, ∑ j in Finset.Ico a b, (x j - y j) * (x j - y j)
      = ∑ j in Finset.Ico a b, (x j - y j) ^ 2 :=
    fun a b => Finset.sum_congr rfl (fun j _ => by ring)
  by_cases h16 : 16 ≤ d
  · simp only [if_pos h16]
    have hacc1 := cfor_accum (c := 16) (N := d) (u := 16)
      (b := l2one_step16 x y) 16 (l2one_init16 x y)
      (fun s => vaddvq_f32 (s 0) + vaddvq_f32 (s 1) + vaddvq_f32 (s 2) + vaddvq_f32 (s 3))
      (fun j => (x j - y j) ^ 2)
      (by
        intro i s _
        rw [sum_Ico_expand]
        simp [l2one_step16, vaddvq_f32, vmlaq_f32, vsubq_f32, vld1q_f32,
          Finset.sum_range_succ]
        ring)
    have hex1 := cfor_exit (b := l2one_step16 x y)
      (c := 16) (N := d) (u := 16) (by norm_num) (by norm_num) 16 (l2one_init16 x y)
    have hle1 := cfor_le (b := l2one_step16 x y)
      (c := 16) (N := d) (u := 16) le_rfl h16 (l2one_init16 x y)
    have hge1 := cfor_ge (b := l2one_step16 x y)
      (c := 16) (N := d) (u := 16) 16 (l2one_init16 x y)
    obtain ⟨p1, hp1⟩ : ∃ p, cfor 16 d 16 (l2one_step16 x y) 16 (l2one_init16 x y) = p :=
      ⟨_, rfl⟩
    rw [hp1] at hacc1 hex1 hle1 hge1 ⊢
    simp only at hacc1
    have hacc2 := cfor_accum (c := 4) (N := d) (u := 4)
      (b := l2one_step4a x y) p1.1 p1.2
      (fun s => vaddvq_f32 (s 0) + vaddvq_f32 (s 1) + vaddvq_f32 (s 2) + vaddvq_f32 (s 3))
      (fun j => (x j - y j) ^ 2)
      (by
        intro i s _
        rw [sum_Ico_expand]
        simp [l2one_step4a, vaddvq_f32, vmlaq_f32, vsubq_f32, vld1q_f32,
          Finset.sum_range_succ]
        ring)
    have hex2 := cfor_exit (b := l2one_step4a x y)
      (c := 4) (N := d) (u := 4) (by norm_num) (by norm_num) p1.1 p1.2
    have hle2 := cfor_le (b := l2one_step4a x y)
      (c := 4) (N := d) (u := 4) le_rfl hle1 p1.2
    have hge2 := cfor_ge (b := l2one_step4a x y)
      (c := 4) (N := d) (u := 4) p1.1 p1.2
    obtain ⟨p2, hp2⟩ : ∃ p, cfor 4 d 4 (l2one_step4a x y) p1.1 p1.2 = p := ⟨_, rfl⟩
    rw [hp2] at hacc2 hex2 hle2 hge2 ⊢
    simp only at hacc2
    rw [tailLoopS_spec _ _ _ _ (by omega : p2.1 ≤ d), htt]
    have hval : vaddvq_f32 (vaddq_f32 (vaddq_f32 (p2.2 0) (p2.2 1))
          (vaddq_f32 (p2.2 2) (p2.2 3)))
        = vaddvq_f32 (p2.2 0) + vaddvq_f32 (p2.2 1) + vaddvq_f32 (p2.2 2)
          + vaddvq_f32 (p2.2 3) := by
      rw [vaddv_vaddq, vaddv_vaddq, vaddv_vaddq]; ring
    have hinit : vaddvq_f32 (l2one_init16 x y 0) + vaddvq_f32 (l2one_init16 x y 1)
          + vaddvq_f32 (l2one_init16 x y 2) + vaddvq_f32 (l2one_init16 x y 3)
        = ∑ j in Finset.Ico 0 16, (x j - y j) ^ 2 := by
      rw [show (16 : ℕ) = 0 + 16 by rfl, sum_Ico_expand]
      simp [l2one_init16, vaddvq_f32, vmulq_f32, vsubq_f32, vld1q_f32,
        Finset.sum_range_succ]
      ring
    rw [hval, hacc2, hacc1, hinit, add_assoc, add_assoc,
      Finset.sum_Ico_consecutive _ (by omega : p1.1 ≤ p2.1) (by omega : p2.1 ≤ d),
      Finset.sum_Ico_consecutive _ (by omega : 16 ≤ p1.1) (by omega : p1.1 ≤ d),
      Finset.sum_Ico_consecutive _ (by omega : (0:ℕ) ≤ 16) (by omega : 16 ≤ d),
      Finset.range_eq_Ico]
  · simp only [if_neg h16]
    by_cases h4 : 4 ≤ d
    · simp only [if_pos h4]
      have hacc := cfor_accum (c := 4) (N := d) (u := 4)
        (b := l2one_step4b x y) 4
        (vmulq_f32 (vsubq_f32 (vld1q_f32 x 0) (vld1q_f32 y 0))
          (vsubq_f32 (vld1q_f32 x 0) (vld1q_f32 y 0)))
        vaddvq_f32 (fun j => (x j - y j) ^ 2)
        (by
          intro i s _
          rw [sum_Ico_expand]
          simp [l2one_step4b, vaddvq_f32, vmlaq_f32, vsubq_f32, vld1q_f32,
            Finset.sum_range_succ]
          ring)
      have hex := cfor_exit (b := l2one_step4b x y)
        (c := 4) (N := d) (u := 4) (by norm_num) (by norm_num) 4
        (vmulq_f32 (vsubq_f32 (vld1q_f32 x 0) (vld1q_f32 y 0))
          (vsubq_f32 (vld1q_f32 x 0) (vld1q_f32 y 0)))
      have hle := cfor_le (b := l2one_step4b x y)
        (c := 4) (N := d) (u := 4) le_rfl h4
        (vmulq_f32 (vsubq_f32 (vld1q_f32 x 0) (vld1q_f32 y 0))
          (vsubq_f32 (vld1q_f32 x 0) (vld1q_f32 y 0)))
      have hge := cfor_ge (b := l2one_step4b x y)
        (c := 4) (N := d) (u := 4) 4
        (vmulq_f32 (vsubq_f32 (vld1q_f32 x 0) (vld1q_f32 y 0))
          (vsubq_f32 (vld1q_f32 x 0) (vld1q_f32 y 0)))
      obtain ⟨p, hp⟩ : ∃ p, cfor 4 d 4 (l2one_step4b x y) 4
          (vmulq_f32 (vsubq_f32 (vld1q_f32 x 0) (vld1q_f32 y 0))
            (vsubq_f32 (vld1q_f32 x 0) (vld1q_f32 y 0))) = p := ⟨_, rfl⟩
      rw [hp] at hacc hex hle hge ⊢
      rw [tailLoopS_spec _ _ _ _ (by omega : p.1 ≤ d), htt, hacc]
      have hinit : vaddvq_f32 (vmulq_f32 (vsubq_f32 (vld1q_f32 x 0) (vld1q_f32 y 0))
            (vsubq_f32 (vld1q_f32 x 0) (vld1q_f32 y 0)))
          = ∑ j in Finset.Ico 0 4, (x j - y j) ^ 2 := by
        rw [show (4 : ℕ) = 0 + 4 by rfl, sum_Ico_expand]
        simp [vaddvq_f32, vmulq_f32, vsubq_f32, vld1q_f32, Finset.sum_range_succ]
        ring
      rw [hinit, add_assoc,
        Finset.sum_Ico_consecutive _ (by omega : 4 ≤ p.1) (by omega : p.1 ≤ d),
        Finset.sum_Ico_consecutive _ (by omega : (0:ℕ) ≤ 4) (by omega : 4 ≤ d),
        Finset.range_eq_Ico]
    · simp only [if_neg h4]
      rw [tailLoopS_spec _ _ _ _ (by omega : 0 ≤ d), htt, Finset.range_eq_Ico]
      ring

/-- `krl_L2sqr` entry point (L2distance_simd.cpp:22): validation followed by
one write of the computed value into `dis[0]`. -/
def krl_L2sqr (x y : CPtr) (d : ℕ) (dis : CPtr) (dis_size : ℕ) :
    Int × List (ℕ × ℚ) :=
  if d < 1 ∨ 65535 < d then (INVALPARAM, [])
  else if x.isNull ∨ y.isNull ∨ dis.isNull ∨ dis_size < 1 then (INVALPOINTER, [])
  else (SUCCESS, [(0, krl_L2sqr_res x.val y.val d)])

/-! ## L2 gather kernels ("idx" variants)

These receive the database rows as an array of `W` resolved pointers
(`listy` in the drivers), modelled as `ys : ℕ → Ptr`. -/

/-- Loop body of the 4-wide accumulation loops of the L2 gather kernels. -/
def l2idx_step4 (x : Ptr) (ys : ℕ → Ptr) (i : ℕ) (s : ℕ → V4) : ℕ → V4 := fun k =>
  let q := vsubq_f32 (vld1q_f32 (ys k) i) (vld1q_f32 x i)
  vmlaq_f32 (s k) q q

def l2idx_init4 (x : Ptr) (ys : ℕ → Ptr) : ℕ → V4 := fun k =>
  let q := vsubq_f32 (vld1q_f32 (ys k) 0) (vld1q_f32 x 0)
  vmulq_f32 q q

def l2idx_tail (x : Ptr) (ys : ℕ → Ptr) (k j : ℕ) : ℚ :=
  (x j - ys k j) * (x j - ys k j)

theorem l2idx_loop (x : Ptr) (ys : ℕ → Ptr) {c d : ℕ} (i0 : ℕ) (s0 : ℕ → V4)
    (k : ℕ) :
    vaddvq_f32 ((cfor c d 4 (l2idx_step4 x ys) i0 s0).2 k)
      = vaddvq_f32 (s0 k)
        + ∑ j in Finset.Ico i0 (cfor c d 4 (l2idx_step4 x ys) i0 s0).1,
            (x j - ys k j) ^ 2 := by
  have hacc := cfor_accum (c := c) (N := d) (u := 4)
    (b := l2idx_step4 x ys) i0 s0
    (fun s => vaddvq_f32 (s k)) (fun j => (x j - ys k j) ^ 2)
    (by
      intro i s _
      rw [sum_Ico_expand]
      simp [l2idx_step4, vaddvq_f32, vmlaq_f32, vsubq_f32, vld1q_f32,
        Finset.sum_range_succ]
      ring)
  simpa using hacc

theorem l2idx_init4_sum (x : Ptr) (ys : ℕ → Ptr) (k : ℕ) :
    vaddvq_f32 (l2idx_init4 x ys k) = ∑ j in Finset.Ico 0 4, (x j - ys k j) ^ 2 := by
  rw [show (4 : ℕ) = 0 + 4 by rfl, sum_Ico_expand]
  simp [l2idx_init4, vaddvq_f32, vmulq_f32, vsubq_f32, vld1q_f32,
    Finset.sum_range_succ]
  ring

/-- `krl_L2sqr_idx_batch4` (L2distance_simd.cpp:232). -/
def krl_L2sqr_idx_batch4 (x : Ptr) (ys : ℕ → Ptr) (d : ℕ) : ℕ → ℚ :=
  let p : ℕ × (ℕ → ℚ) :=
    if 4 ≤ d then
      let p1 := cfor 4 d 4 (l2idx_step4 x ys) 4 (l2idx_init4 x ys)
      (p1.1, fun k => vaddvq_f32 (p1.2 k))
    else (0, fun _ => (0 : ℚ))
  if p.1 < d then
    fun k => p.2 k + tailLoop (l2idx_tail x ys) d (p.1 + 1)
      (fun k => l2idx_tail x ys k p.1) k
  else p.2

theorem krl_L2sqr_idx_batch4_spec (x : Ptr) (ys : ℕ → Ptr) (d : ℕ) (k : ℕ) :
    krl_L2sqr_idx_batch4 x ys d k = l2naive x (ys k) d := by
  unfold krl_L2sqr_idx_batch4 l2naive
  by_cases h4 : 4 ≤ d
  · simp only [if_pos h4]
    have hval := l2idx_loop x ys 4 (l2idx_init4 x ys) k (c := 4) (d := d)
    have hex := cfor_exit (b := l2idx_step4 x ys)
      (c := 4) (N := d) (u := 4) (by norm_num) (by norm_num) 4 (l2idx_init4 x ys)
    have hle := cfor_le (b := l2idx_step4 x ys)
      (c := 4) (N := d) (u := 4) le_rfl h4 (l2idx_init4 x ys)
    have hge := cfor_ge (b := l2idx_step4 x ys)
      (c := 4) (N := d) (u := 4) 4 (l2idx_init4 x ys)
    obtain ⟨p, hp⟩ : ∃ p, cfor 4 d 4 (l2idx_step4 x ys) 4 (l2idx_init4 x ys) = p :=
      ⟨_, rfl⟩
    rw [hp] at hval hex hle hge ⊢
    by_cases ht : p.1 < d
    · simp only [if_pos ht]
      rw [hval, l2idx_init4_sum, tailLoop_spec _ _ _ _ _ (by omega)]
      have htail : (l2idx_tail x ys k p.1
            + ∑ j in Finset.Ico (p.1 + 1) d, l2idx_tail x ys k j)
          = ∑ j in Finset.Ico p.1 d, (x j - ys k j) ^ 2 := by
        rw [sum_Ico_bot _ ht]
        congr 1
        · unfold l2idx_tail; ring
        · exact Finset.sum_congr rfl (fun j _ => by unfold l2idx_tail; ring)
      rw [add_assoc, htail,
        Finset.sum_Ico_consecutive _ (by omega : 4 ≤ p.1) (by omega : p.1 ≤ d),
        Finset.sum_Ico_consecutive _ (by omega : (0:ℕ) ≤ 4) (by omega : 4 ≤ d),
        Finset.range_eq_Ico]
    · simp only [if_neg ht]
      rw [hval, l2idx_init4_sum]
      have hpd : p.1 = d := by omega
      rw [hpd,
        Finset.sum_Ico_consecutive _ (by omega : (0:ℕ) ≤ 4) (by omega : 4 ≤ d),
        Finset.range_eq_Ico]
  · simp only [if_neg h4]
    by_cases hd : 0 < d
    · simp only [if_pos hd]
      rw [tailLoop_spec _ _ _ _ _ (by omega)]
      have htail : (l2idx_tail x ys k 0
            + ∑ j in Finset.Ico (0 + 1) d, l2idx_tail x ys k j)
          = ∑ j in Finset.Ico 0 d, (x j - ys k j) ^ 2 := by
        rw [sum_Ico_bot _ hd]
        congr 1
        · unfold l2idx_tail; ring
        · exact Finset.sum_congr rfl (fun j _ => by unfold l2idx_tail; ring)
      rw [zero_add, htail, Finset.range_eq_Ico]
    · simp only [if_neg hd]
      have : d = 0 := by omega
      simp [this]

/-- The inner 16-dimension sub-chunk loop
`for (j = 0; j < 16; j += 4)` of `krl_L2sqr_idx_prefetch_batch8/16`. -/
theorem l2idx_inner16 (x : Ptr) (ys : ℕ → Ptr) (i : ℕ) (s : ℕ → V4) (k : ℕ) :
    vaddvq_f32 ((cfor 1 16 4 (fun j u => l2idx_step4 x ys (i + j) u) 0 s).2 k)
      = vaddvq_f32 (s k) + ∑ j in Finset.Ico i (i + 16), (x j - ys k j) ^ 2 := by
  have hacc := cfor_accum (c := 1) (N := 16) (u := 4)
    (b := fun j u => l2idx_step4 x ys (i + j) u) 0 s
    (fun u => vaddvq_f32 (u k)) (fun j => (x (i + j) - ys k (i + j)) ^ 2)
    (by
      intro j u _
      rw [sum_Ico_expand]
      simp [l2idx_step4, vaddvq_f32, vmlaq_f32, vsubq_f32, vld1q_f32,
        Finset.sum_range_succ, add_assoc]
      ring)
  have hex := cfor_exit (b := fun j u => l2idx_step4 x ys (i + j) u)
    (c := 1) (N := 16) (u := 4) le_rfl (by norm_num) 0 s
  have hlt := cfor_lt (b := fun j u => l2idx_step4 x ys (i + j) u)
    (c := 1) (N := 16) (u := 4) (a := 0) le_rfl (by norm_num) s
  have hmod := cfor_mod (b := fun j u => l2idx_step4 x ys (i + j) u)
    (c := 1) (N := 16) (u := 4) 0 s
  obtain ⟨p, hp⟩ : ∃ p, cfor 1 16 4 (fun j u => l2idx_step4 x ys (i + j) u) 0 s = p :=
    ⟨_, rfl⟩
  rw [hp] at hacc hex hlt hmod ⊢
  simp only at hacc
  obtain ⟨t, ht⟩ := hmod
  have hfin : p.1 = 16 := by omega
  rw [hacc, hfin]
  have hR := sum_Ico_expand (fun j => (x j - ys k j) ^ 2) i 16
  rw [hR, Finset.range_eq_Ico]

@[simp] theorem vaddv_vzero : vaddvq_f32 vzero = 0 := by
  simp [vaddvq_f32, vzero]

/-- Common final step of the gather kernels: a partial result covering
dimensions `[0, p.1)` followed by the peeled scalar tail yields the naive
L2-squared value. -/
theorem l2idx_assemble (x : Ptr) (ys : ℕ → Ptr) (d : ℕ) (k : ℕ)
    (p : ℕ × (ℕ → ℚ)) (hle : p.1 ≤ d)
    (hval : p.2 k = ∑ j in Finset.Ico 0 p.1, (x j - ys k j) ^ 2) :
    (if p.1 < d then
      fun k => p.2 k + tailLoop (l2idx_tail x ys) d (p.1 + 1)
        (fun k => l2idx_tail x ys k p.1) k
     else p.2) k = l2naive x (ys k) d := by
  unfold l2naive
  by_cases ht : p.1 < d
  · simp only [if_pos ht]
    rw [hval, tailLoop_spec _ _ _ _ _ (by omega)]
    have htail : (l2idx_tail x ys k p.1
          + ∑ j in Finset.Ico (p.1 + 1) d, l2idx_tail x ys k j)
        = ∑ j in Finset.Ico p.1 d, (x j - ys k j) ^ 2 := by
      rw [sum_Ico_bot _ ht]
      congr 1
      · unfold l2idx_tail; ring
      · exact Finset.sum_congr rfl (fun j _ => by unfold l2idx_tail; ring)
    rw [htail,
      Finset.sum_Ico_consecutive _ (by omega : (0:ℕ) ≤ p.1) (by omega : p.1 ≤ d),
      Finset.range_eq_Ico]
  · simp only [if_neg ht]
    have hpd : p.1 = d := by omega
    rw [hval, hpd, Finset.range_eq_Ico]

/-- Row-indexed model of `krl_L2sqr_idx_prefetch_batch8`
(L2distance_simd.cpp:317) and `krl_L2sqr_idx_prefetch_batch16` (:535): the
two source functions perform the same per-row computation (zero-initialised
accumulators, a 16-dimension super-block loop `for (i = 0; i < d - 16;
i += 16)` with a 4-wide inner loop, a 4-wide cleanup loop, a peeled scalar
tail); the width only determines how many rows the caller stores. -/
def krl_L2sqr_idx_prefetch_batchW (x : Ptr) (ys : ℕ → Ptr) (d : ℕ) : ℕ → ℚ :=
  let p : ℕ × (ℕ → ℚ) :=
    if 16 ≤ d then
      let p1 := cfor 17 d 16
        (fun i s => (cfor 1 16 4 (fun j u => l2idx_step4 x ys (i + j) u) 0 s).2)
        0 (fun _ => vzero)
      let p2 := cfor 4 d 4 (l2idx_step4 x ys) p1.1 p1.2
      (p2.1, fun k => vaddvq_f32 (p2.2 k))
    else if 4 ≤ d then
      let p1 := cfor 4 d 4 (l2idx_step4 x ys) 4 (l2idx_init4 x ys)
      (p1.1, fun k => vaddvq_f32 (p1.2 k))
    else (0, fun _ => (0 : ℚ))
  if p.1 < d then
    fun k => p.2 k + tailLoop (l2idx_tail x ys) d (p.1 + 1)
      (fun k => l2idx_tail x ys k p.1) k
  else p.2

theorem krl_L2sqr_idx_prefetch_batchW_spec (x : Ptr) (ys : ℕ → Ptr) (d : ℕ)
    (k : ℕ) :
    krl_L2sqr_idx_prefetch_batchW x ys d k = l2naive x (ys k) d := by
  unfold krl_L2sqr_idx_prefetch_batchW
  by_cases h16 : 16 ≤ d
  · simp only [if_pos h16]
    have hacc1 := cfor_accum (c := 17) (N := d) (u := 16)
      (b := fun i s => (cfor 1 16 4 (fun j u => l2idx_step4 x ys (i + j) u) 0 s).2)
      0 (fun _ => vzero)
      (fun s => vaddvq_f32 (s k)) (fun j => (x j - ys k j) ^ 2)
      (by intro i s _; exact l2idx_inner16 x ys i s k)
    have hex1 := cfor_exit
      (b := fun i s => (cfor 1 16 4 (fun j u => l2idx_step4 x ys (i + j) u) 0 s).2)
      (c := 17) (N := d) (u := 16) (by norm_num) (by norm_num) 0 (fun _ => vzero)
    have hle1 := cfor_le
      (b := fun i s => (cfor 1 16 4 (fun j u => l2idx_step4 x ys (i + j) u) 0 s).2)
      (c := 17) (N := d) (u := 16) (by norm_num) (by omega : 0 ≤ d) (fun _ => vzero)
    obtain ⟨p1, hp1⟩ : ∃ p, cfor 17 d 16
        (fun i s => (cfor 1 16 4 (fun j u => l2idx_step4 x ys (i + j) u) 0 s).2)
        0 (fun _ => vzero) = p := ⟨_, rfl⟩
    rw [hp1] at hacc1 hex1 hle1 ⊢
    simp only [vaddv_vzero, zero_add] at hacc1
    have hacc2 := l2idx_loop x ys p1.1 p1.2 k (c := 4) (d := d)
    have hex2 := cfor_exit (b := l2idx_step4 x ys)
      (c := 4) (N := d) (u := 4) (by norm_num) (by norm_num) p1.1 p1.2
    have hle2 := cfor_le (b := l2idx_step4 x ys)
      (c := 4) (N := d) (u := 4) le_rfl hle1 p1.2
    have hge2 := cfor_ge (b := l2idx_step4 x ys)
      (c := 4) (N := d) (u := 4) p1.1 p1.2
    obtain ⟨p2, hp2⟩ : ∃ p, cfor 4 d 4 (l2idx_step4 x ys) p1.1 p1.2 = p := ⟨_, rfl⟩
    rw [hp2] at hacc2 hex2 hle2 hge2 ⊢
    refine l2idx_assemble x ys d k ⟨p2.1, fun k => vaddvq_f32 (p2.2 k)⟩ hle2 ?_
    show vaddvq_f32 (p2.2 k) = _
    rw [hacc2, hacc1,
      Finset.sum_Ico_consecutive _ (by omega : (0:ℕ) ≤ p1.1) hge2]
  · simp only [if_neg h16]
    by_cases h4 : 4 ≤ d
    · simp only [if_pos h4]
      have hval := l2idx_loop x ys 4 (l2idx_init4 x ys) k (c := 4) (d := d)
      have hle := cfor_le (b := l2idx_step4 x ys)
        (c := 4) (N := d) (u := 4) le_rfl h4 (l2idx_init4 x ys)
      have hge := cfor_ge (b := l2idx_step4 x ys)
        (c := 4) (N := d) (u := 4) 4 (l2idx_init4 x ys)
      obtain ⟨p, hp⟩ : ∃ p, cfor 4 d 4 (l2idx_step4 x ys) 4 (l2idx_init4 x ys) = p :=
        ⟨_, rfl⟩
      rw [hp] at hval hle hge ⊢
      refine l2idx_assemble x ys d k ⟨p.1, fun k => vaddvq_f32 (p.2 k)⟩ hle ?_
      show vaddvq_f32 (p.2 k) = _
      rw [hval, l2idx_init4_sum,
        Finset.sum_Ico_consecutive _ (by omega : (0:ℕ) ≤ 4) (by omega : 4 ≤ p.1)]
    · simp only [if_neg h4]
      refine l2idx_assemble x ys d k ⟨0, fun _ => (0:ℚ)⟩ (by omega) (by simp)

/-- The inner j-loop `for (j = i; j < i + 16; j += 4)` of
`krl_L2sqr_idx_prefetch_batch24`. -/
theorem l2idx_inner24 (x : Ptr) (ys : ℕ → Ptr) (i : ℕ) (s : ℕ → V4) (k : ℕ) :
    vaddvq_f32 ((cfor 1 (i + 16) 4 (l2idx_step4 x ys) i s).2 k)
      = vaddvq_f32 (s k) + ∑ j in Finset.Ico i (i + 16), (x j - ys k j) ^ 2 := by
  have hval := l2idx_loop x ys i s k (c := 1) (d := i + 16)
  have hex := cfor_exit (b := l2idx_step4 x ys)
    (c := 1) (N := i + 16) (u := 4) le_rfl (by norm_num) i s
  have hlt := cfor_lt (b := l2idx_step4 x ys)
    (c := 1) (N := i + 16) (u := 4) (a := i) le_rfl (by omega) s
  have hmod := cfor_mod (b := l2idx_step4 x ys)
    (c := 1) (N := i + 16) (u := 4) i s
  obtain ⟨p, hp⟩ : ∃ p, cfor 1 (i + 16) 4 (l2idx_step4 x ys) i s = p := ⟨_, rfl⟩
  rw [hp] at hval hex hlt hmod ⊢
  obtain ⟨t, ht⟩ := hmod
  have hfin : p.1 = i + 16 := by omega
  rw [hval, hfin]

/-- `krl_L2sqr_idx_prefetch_batch24` (L2distance_simd.cpp:933): dimensions
`[0,4)` peeled into the accumulator initialisation, a 4-wide loop up to
dimension 16, a 16-dimension super-block loop with inner j-loop, a 4-wide
cleanup loop, a peeled scalar tail. -/
def krl_L2sqr_idx_prefetch_batch24 (x : Ptr) (ys : ℕ → Ptr) (d : ℕ) : ℕ → ℚ :=
  let p : ℕ × (ℕ → ℚ) :=
    if 16 ≤ d then
      let p1 := cfor 1 16 4 (l2idx_step4 x ys) 4 (l2idx_init4 x ys)
      let p2 := cfor 17 d 16
        (fun i s => (cfor 1 (i + 16) 4 (l2idx_step4 x ys) i s).2) p1.1 p1.2
      let p3 := cfor 4 d 4 (l2idx_step4 x ys) p2.1 p2.2
      (p3.1, fun k => vaddvq_f32 (p3.2 k))
    else if 4 ≤ d then
      let p1 := cfor 4 d 4 (l2idx_step4 x ys) 4 (l2idx_init4 x ys)
      (p1.1, fun k => vaddvq_f32 (p1.2 k))
    else (0, fun _ => (0 : ℚ))
  if p.1 < d then
    fun k => p.2 k + tailLoop (l2idx_tail x ys) d (p.1 + 1)
      (fun k => l2idx_tail x ys k p.1) k
  else p.2

theorem krl_L2sqr_idx_prefetch_batch24_spec (x : Ptr) (ys : ℕ → Ptr) (d : ℕ)
    (k : ℕ) :
    krl_L2sqr_idx_prefetch_batch24 x ys d k = l2naive x (ys k) d := by
  unfold krl_L2sqr_idx_prefetch_batch24
  by_cases h16 : 16 ≤ d
  · simp only [if_pos h16]
    -- the `for (i = 4; i < 16; i += 4)` loop ends at 16
    have hval1 := l2idx_loop x ys 4 (l2idx_init4 x ys) k (c := 1) (d := 16)
    have hex1 := cfor_exit (b := l2idx_step4 x ys)
      (c := 1) (N := 16) (u := 4) le_rfl (by norm_num) 4 (l2idx_init4 x ys)
    have hlt1 := cfor_lt (b := l2idx_step4 x ys)
      (c := 1) (N := 16) (u := 4) (a := 4) le_rfl (by norm_num) (l2idx_init4 x ys)
    have hmod1 := cfor_mod (b := l2idx_step4 x ys)
      (c := 1) (N := 16) (u := 4) 4 (l2idx_init4 x ys)
    obtain ⟨p1, hp1⟩ : ∃ p, cfor 1 16 4 (l2idx_step4 x ys) 4 (l2idx_init4 x ys) = p :=
      ⟨_, rfl⟩
    rw [hp1] at hval1 hex1 hlt1 hmod1 ⊢
    obtain ⟨t1, ht1⟩ := hmod1
    have hfin1 : p1.1 = 16 := by omega
    -- the 16-dimension super-block loop
    have hacc2 := cfor_accum (c := 17) (N := d) (u := 16)
      (b := fun i s => (cfor 1 (i + 16) 4 (l2idx_step4 x ys) i s).2) p1.1 p1.2
      (fun s => vaddvq_f32 (s k)) (fun j => (x j - ys k j) ^ 2)
      (by intro i s _; exact l2idx_inner24 x ys i s k)
    have hex2 := cfor_exit
      (b := fun i s => (cfor 1 (i + 16) 4 (l2idx_step4 x ys) i s).2)
      (c := 17) (N := d) (u := 16) (by norm_num) (by norm_num) p1.1 p1.2
    have hle2 := cfor_le
      (b := fun i s => (cfor 1 (i + 16) 4 (l2idx_step4 x ys) i s).2)
      (c := 17) (N := d) (u := 16) (by norm_num) (by omega : p1.1 ≤ d) p1.2
    have hge2 := cfor_ge
      (b := fun i s => (cfor 1 (i + 16) 4 (l2idx_step4 x ys) i s).2)
      (c := 17) (N := d) (u := 16) p1.1 p1.2
    obtain ⟨p2, hp2⟩ : ∃ p, cfor 17 d 16
        (fun i s => (cfor 1 (i + 16) 4 (l2idx_step4 x ys) i s).2) p1.1 p1.2 = p :=
      ⟨_, rfl⟩
    rw [hp2] at hacc2 hex2 hle2 hge2 ⊢
    simp only at hacc2
    -- the 4-wide cleanup loop
    have hval3 := l2idx_loop x ys p2.1 p2.2 k (c := 4) (d := d)
    have hex3 := cfor_exit (b := l2idx_step4 x ys)
      (c := 4) (N := d) (u := 4) (by norm_num) (by norm_num) p2.1 p2.2
    have hle3 := cfor_le (b := l2idx_step4 x ys)
      (c := 4) (N := d) (u := 4) le_rfl hle2 p2.2
    have hge3 := cfor_ge (b := l2idx_step4 x ys)
      (c := 4) (N := d) (u := 4) p2.1 p2.2
    obtain ⟨p3, hp3⟩ : ∃ p, cfor 4 d 4 (l2idx_step4 x ys) p2.1 p2.2 = p := ⟨_, rfl⟩
    rw [hp3] at hval3 hex3 hle3 hge3 ⊢
    refine l2idx_assemble x ys d k ⟨p3.1, fun k => vaddvq_f32 (p3.2 k)⟩ hle3 ?_
    show vaddvq_f32 (p3.2 k) = _
    rw [hval3, hacc2, hval1, l2idx_init4_sum,
      Finset.sum_Ico_consecutive _ (by omega : (0:ℕ) ≤ 4) (by omega : 4 ≤ p1.1),
      Finset.sum_Ico_consecutive _ (by omega : (0:ℕ) ≤ p1.1) hge2,
      Finset.sum_Ico_consecutive _ (by omega : (0:ℕ) ≤ p2.1) hge3]
  · simp only [if_neg h16]
    by_cases h4 : 4 ≤ d
    · simp only [if_pos h4]
      have hval := l2idx_loop x ys 4 (l2idx_init4 x ys) k (c := 4) (d := d)
      have hle := cfor_le (b := l2idx_step4 x ys)
        (c := 4) (N := d) (u := 4) le_rfl h4 (l2idx_init4 x ys)
      have hge := cfor_ge (b := l2idx_step4 x ys)
        (c := 4) (N := d) (u := 4) 4 (l2idx_init4 x ys)
      obtain ⟨p, hp⟩ : ∃ p, cfor 4 d 4 (l2idx_step4 x ys) 4 (l2idx_init4 x ys) = p :=
        ⟨_, rfl⟩
      rw [hp] at hval hle hge ⊢
      refine l2idx_assemble x ys d k ⟨p.1, fun k => vaddvq_f32 (p.2 k)⟩ hle ?_
      show vaddvq_f32 (p.2 k) = _
      rw [hval, l2idx_init4_sum,
        Finset.sum_Ico_consecutive _ (by omega : (0:ℕ) ≤ 4) (by omega : 4 ≤ p.1)]
    · simp only [if_neg h4]
      refine l2idx_assemble x ys d k ⟨0, fun _ => (0:ℚ)⟩ (by omega) (by simp)

/-! ## `krl_L2sqr_idx_batch2` (L2distance_simd.cpp:131): two database
pointers, two accumulator registers per row, 8-wide main loop with a 4-wide
cleanup loop updating only the first register, un-peeled scalar tail.  The
4-wide loop of its `4 <= d < 8` branch reloads the vectors at offset 0
instead of offset `i` in the source; that loop can never execute in that
branch (its condition `4 + 4 <= d` is false when `d < 8`), which the spec
proof below establishes via `cfor_nop`. -/

/-- The pair of database pointers of `krl_L2sqr_idx_batch2` as a row map. -/
def ys2 (y0 y1 : Ptr) : ℕ → Ptr := fun k => if k = 0 then y0 else y1

def l2idx2_init8 (x : Ptr) (ys : ℕ → Ptr) : (ℕ → V4) × (ℕ → V4) :=
  (fun k =>
    let q := vsubq_f32 (vld1q_f32 x 0) (vld1q_f32 (ys k) 0)
    vmulq_f32 q q,
   fun k =>
    let q := vsubq_f32 (vld1q_f32 x 4) (vld1q_f32 (ys k) 4)
    vmulq_f32 q q)

def l2idx2_step8 (x : Ptr) (ys : ℕ → Ptr) (i : ℕ) (s : (ℕ → V4) × (ℕ → V4)) :
    (ℕ → V4) × (ℕ → V4) :=
  (fun k =>
    let q := vsubq_f32 (vld1q_f32 x i) (vld1q_f32 (ys k) i)
    vmlaq_f32 (s.1 k) q q,
   fun k =>
    let q := vsubq_f32 (vld1q_f32 x (i + 4)) (vld1q_f32 (ys k) (i + 4))
    vmlaq_f32 (s.2 k) q q)

/-- The 4-wide cleanup loop of `krl_L2sqr_idx_batch2`: only the first
register of each row is updated. -/
def l2idx2_step4 (x : Ptr) (ys : ℕ → Ptr) (i : ℕ) (s : (ℕ → V4) × (ℕ → V4)) :
    (ℕ → V4) × (ℕ → V4) :=
  (fun k =>
    let q := vsubq_f32 (vld1q_f32 x i) (vld1q_f32 (ys k) i)
    vmlaq_f32 (s.1 k) q q,
   s.2)

def l2idx2_init4 (x : Ptr) (ys : ℕ → Ptr) : ℕ → V4 := fun k =>
  let q := vsubq_f32 (vld1q_f32 x 0) (vld1q_f32 (ys k) 0)
  vmulq_f32 q q

/-- Body of the never-executed 4-wide loop in the `4 <= d < 8` branch of
`krl_L2sqr_idx_batch2`; it reloads offset 0 as in the source. -/
def l2idx2_deadstep (x : Ptr) (ys : ℕ → Ptr) (_ : ℕ) (s : ℕ → V4) : ℕ → V4 :=
  fun k =>
    let q := vsubq_f32 (vld1q_f32 x 0) (vld1q_f32 (ys k) 0)
    vmlaq_f32 (s k) q q

def krl_L2sqr_idx_batch2 (x y0 y1 : Ptr) (d : ℕ) : ℕ → ℚ :=
  let ys := ys2 y0 y1
  let p : ℕ × (ℕ → ℚ) :=
    if 8 ≤ d then
      let p1 := cfor 8 d 8 (l2idx2_step8 x ys) 8 (l2idx2_init8 x ys)
      let p2 := cfor 4 d 4 (l2idx2_step4 x ys) p1.1 p1.2
      (p2.1, fun k => vaddvq_f32 (vaddq_f32 (p2.2.1 k) (p2.2.2 k)))
    else if 4 ≤ d then
      let p1 := cfor 4 d 4 (l2idx2_deadstep x ys) 4 (l2idx2_init4 x ys)
      (p1.1, fun k => vaddvq_f32 (p1.2 k))
    else (0, fun _ => (0 : ℚ))
  tailLoop (l2idx_tail x ys) d p.1 p.2

theorem krl_L2sqr_idx_batch2_spec (x y0 y1 : Ptr) (d : ℕ) (k : ℕ) :
    krl_L2sqr_idx_batch2 x y0 y1 d k = l2naive x (ys2 y0 y1 k) d := by
  unfold krl_L2sqr_idx_batch2 l2naive
  by_cases h8 : 8 ≤ d
  · simp only [if_pos h8]
    have hacc1 := cfor_accum (c := 8) (N := d) (u := 8)
      (b := l2idx2_step8 x (ys2 y0 y1)) 8 (l2idx2_init8 x (ys2 y0 y1))
      (fun s => vaddvq_f32 (s.1 k) + vaddvq_f32 (s.2 k))
      (fun j => (x j - ys2 y0 y1 k j) ^ 2)
      (by
        intro i s _
        rw [sum_Ico_expand]
        simp [l2idx2_step8, vaddvq_f32, vmlaq_f32, vsubq_f32, vld1q_f32,
          Finset.sum_range_succ]
        ring)
    have hex1 := cfor_exit (b := l2idx2_step8 x (ys2 y0 y1))
      (c := 8) (N := d) (u := 8) (by norm_num) (by norm_num) 8
      (l2idx2_init8 x (ys2 y0 y1))
    have hle1 := cfor_le (b := l2idx2_step8 x (ys2 y0 y1))
      (c := 8) (N := d) (u := 8) le_rfl h8 (l2idx2_init8 x (ys2 y0 y1))
    have hge1 := cfor_ge (b := l2idx2_step8 x (ys2 y0 y1))
      (c := 8) (N := d) (u := 8) 8 (l2idx2_init8 x (ys2 y0 y1))
    obtain ⟨p1, hp1⟩ : ∃ p, cfor 8 d 8 (l2idx2_step8 x (ys2 y0 y1)) 8
        (l2idx2_init8 x (ys2 y0 y1)) = p := ⟨_, rfl⟩
    rw [hp1] at hacc1 hex1 hle1 hge1 ⊢
    simp only at hacc1
    have hacc2 := cfor_accum (c := 4) (N := d) (u := 4)
      (b := l2idx2_step4 x (ys2 y0 y1)) p1.1 p1.2
      (fun s => vaddvq_f32 (s.1 k) + vaddvq_f32 (s.2 k))
      (fun j => (x j - ys2 y0 y1 k j) ^ 2)
      (by
        intro i s _
        rw [sum_Ico_expand]
        simp [l2idx2_step4, vaddvq_f32, vmlaq_f32, vsubq_f32, vld1q_f32,
          Finset.sum_range_succ]
        ring)
    have hex2 := cfor_exit (b := l2idx2_step4 x (ys2 y0 y1))
      (c := 4) (N := d) (u := 4) (by norm_num) (by norm_num) p1.1 p1.2
    have hle2 := cfor_le (b := l2idx2_step4 x (ys2 y0 y1))
      (c := 4) (N := d) (u := 4) le_rfl hle1 p1.2
    have hge2 := cfor_ge (b := l2idx2_step4 x (ys2 y0 y1))
      (c := 4) (N := d) (u := 4) p1.1 p1.2
    obtain ⟨p2, hp2⟩ : ∃ p, cfor 4 d 4 (l2idx2_step4 x (ys2 y0 y1)) p1.1 p1.2 = p :=
      ⟨_, rfl⟩
    rw [hp2] at hacc2 hex2 hle2 hge2 ⊢
    simp only at hacc2
    rw [tailLoop_spec _ _ _ _ _ (by omega : p2.1 ≤ d), vaddv_vaddq, hacc2, hacc1]
    have hinit : vaddvq_f32 ((l2idx2_init8 x (ys2 y0 y1)).1 k)
          + vaddvq_f32 ((l2idx2_init8 x (ys2 y0 y1)).2 k)
        = ∑ j in Finset.Ico 0 8, (x j - ys2 y0 y1 k j) ^ 2 := by
      rw [show (8 : ℕ) = 0 + 8 by rfl, sum_Ico_expand]
      simp [l2idx2_init8, vaddvq_f32, vmulq_f32, vsubq_f32, vld1q_f32,
        Finset.sum_range_succ]
      ring
    have htail : ∑ j in Finset.Ico p2.1 d, l2idx_tail x (ys2 y0 y1) k j
        = ∑ j in Finset.Ico p2.1 d, (x j - ys2 y0 y1 k j) ^ 2 :=
      Finset.sum_congr rfl (fun j _ => by unfold l2idx_tail; ring)
    rw [htail, hinit, add_assoc, add_assoc,
      Finset.sum_Ico_consecutive _ (by omega : p1.1 ≤ p2.1) (by omega : p2.1 ≤ d),
      Finset.sum_Ico_consecutive _ (by omega : 8 ≤ p1.1) (by omega : p1.1 ≤ d),
      Finset.sum_Ico_consecutive _ (by omega : (0:ℕ) ≤ 8) (by omega : 8 ≤ d),
      Finset.range_eq_Ico]
  · simp only [if_neg h8]
    by_cases h4 : 4 ≤ d
    · simp only [if_pos h4]
      rw [cfor_nop (l2idx2_init4 x (ys2 y0 y1)) (by omega : ¬(4 + 4 ≤ d))]
      rw [tailLoop_spec _ _ _ _ _ (by omega : 4 ≤ d)]
      have hinit : vaddvq_f32 (l2idx2_init4 x (ys2 y0 y1) k)
          = ∑ j in Finset.Ico 0 4, (x j - ys2 y0 y1 k j) ^ 2 := by
        rw [show (4 : ℕ) = 0 + 4 by rfl, sum_Ico_expand]
        simp [l2idx2_init4, vaddvq_f32, vmulq_f32, vsubq_f32, vld1q_f32,
          Finset.sum_range_succ]
        ring
      have htail : ∑ j in Finset.Ico 4 d, l2idx_tail x (ys2 y0 y1) k j
          = ∑ j in Finset.Ico 4 d, (x j - ys2 y0 y1 k j) ^ 2 :=
        Finset.sum_congr rfl (fun j _ => by unfold l2idx_tail; ring)
      rw [htail, hinit,
        Finset.sum_Ico_consecutive _ (by omega : (0:ℕ) ≤ 4) (by omega : 4 ≤ d),
        Finset.range_eq_Ico]
    · simp only [if_neg h4]
      rw [tailLoop_spec _ _ _ _ _ (by omega : 0 ≤ d)]
      have htail : ∑ j in Finset.Ico 0 d, l2idx_tail x (ys2 y0 y1) k j
          = ∑ j in Finset.Ico 0 d, (x j - ys2 y0 y1 k j) ^ 2 :=
        Finset.sum_congr rfl (fun j _ => by unfold l2idx_tail; ring)
      rw [htail, Finset.range_eq_Ico]
      ring

/-! ## Transposed-block kernels

The block-transposed layout stores, for a block of `B` vectors, the `B`
values of dimension `t` contiguously at offset `B*t`; slot `j` of the block
output is lane `j % 4` of accumulator register `j / 4`. -/

@[simp] theorem fin4_mk_val (m : ℕ) (h : m < 4) : ((⟨m, h⟩ : Fin 4) : ℕ) = m := rfl

def l2tr64_init (x y : Ptr) : ℕ → V4 := fun q =>
  let b := vsubq_f32 (vld1q_f32 y (4 * q)) (vdupq_n_f32 (x 0))
  vmulq_f32 b b

def l2tr64_step (x y : Ptr) (i : ℕ) (s : ℕ → V4) : ℕ → V4 := fun q =>
  let b := vsubq_f32 (vld1q_f32 y (64 * i + 4 * q)) (vdupq_n_f32 (x i))
  vmlaq_f32 (s q) b b

/-- `krl_L2sqr_continuous_transpose_large_kernel` (L2distance_simd.cpp:2513),
`B = 64`: 16 accumulator registers swept dimension-by-dimension. -/
def krl_L2sqr_continuous_transpose_large_kernel (x y : Ptr) (d : ℕ) : ℕ → ℚ :=
  let p := cfor 1 d 1 (l2tr64_step x y) 1 (l2tr64_init x y)
  fun j => p.2 (j / 4) ⟨j % 4, Nat.mod_lt _ (by norm_num)⟩

theorem krl_L2sqr_continuous_transpose_large_kernel_spec (x y : Ptr) (d : ℕ)
    (hd : 1 ≤ d) (j : ℕ) :
    krl_L2sqr_continuous_transpose_large_kernel x y d j
      = ∑ t in Finset.range d, (y (64 * t + j) - x t) ^ 2 := by
  unfold krl_L2sqr_continuous_transpose_large_kernel
  have hacc := cfor_accum (c := 1) (N := d) (u := 1)
    (b := l2tr64_step x y) 1 (l2tr64_init x y)
    (fun s => s (j / 4) ⟨j % 4, Nat.mod_lt _ (by norm_num)⟩)
    (fun t => (y (64 * t + j) - x t) ^ 2)
    (by
      intro i s _
      rw [sum_Ico_expand]
      simp [l2tr64_step, vmlaq_f32, vsubq_f32, vld1q_f32, vdupq_n_f32,
        Finset.sum_range_succ]
      rw [show 64 * i + 4 * (j / 4) + j % 4 = 64 * i + j from by omega]
      ring)
  have hex := cfor_exit (b := l2tr64_step x y)
    (c := 1) (N := d) (u := 1) le_rfl le_rfl 1 (l2tr64_init x y)
  have hle := cfor_le (b := l2tr64_step x y)
    (c := 1) (N := d) (u := 1) le_rfl hd (l2tr64_init x y)
  obtain ⟨p, hp⟩ : ∃ p, cfor 1 d 1 (l2tr64_step x y) 1 (l2tr64_init x y) = p :=
    ⟨_, rfl⟩
  rw [hp] at hacc hex hle ⊢
  simp only at hacc
  have hfin : p.1 = d := by omega
  rw [hacc, hfin]
  have hinit : l2tr64_init x y (j / 4) ⟨j % 4, Nat.mod_lt _ (by norm_num)⟩
      = (y (64 * 0 + j) - x 0) ^ 2 := by
    simp [l2tr64_init, vmulq_f32, vsubq_f32, vld1q_f32, vdupq_n_f32]
    rw [show 4 * (j / 4) + j % 4 = j from by omega]
    ring
  rw [hinit, Finset.range_eq_Ico,
    sum_Ico_bot (fun t => (y (64 * t + j) - x t) ^ 2) (by omega : 0 < d)]

/-! ### Pipelined transposed L2 kernels (`mini` B = 16, `medium` B = 32)

The two kernels are identical up to the block width `B`: software-pipelined
with state (dup-of-current-query-dim, loaded base registers, accumulators),
a special `d = 1` branch, and a drain step after the dim loop. -/

def l2trP_step (B : ℕ) (x y : Ptr) (i : ℕ)
    (s : V4 × (ℕ → V4) × (ℕ → V4)) : V4 × (ℕ → V4) × (ℕ → V4) :=
  (vdupq_n_f32 (x i),
   fun q => vld1q_f32 y (B * i + 4 * q),
   fun q =>
     let w := vsubq_f32 (s.2.1 q) s.1
     vmlaq_f32 (s.2.2 q) w w)

def l2trP (B : ℕ) (x y : Ptr) (d : ℕ) : ℕ → ℚ :=
  let res : ℕ → V4 :=
    if d = 1 then fun q =>
      let w := vsubq_f32 (vld1q_f32 y (4 * q)) (vdupq_n_f32 (x 0))
      vmulq_f32 w w
    else
      let p := cfor 1 d 1 (l2trP_step B x y) 2
        (vdupq_n_f32 (x 1),
         fun q => vld1q_f32 y (B + 4 * q),
         fun q =>
           let w := vsubq_f32 (vld1q_f32 y (4 * q)) (vdupq_n_f32 (x 0))
           vmulq_f32 w w)
      fun q =>
        let w := vsubq_f32 (p.2.2.1 q) p.2.1
        vmlaq_f32 (p.2.2.2 q) w w
  fun j => res (j / 4) ⟨j % 4, Nat.mod_lt _ (by norm_num)⟩

/-- `krl_L2sqr_continuous_transpose_mini_kernel` (L2distance_simd.cpp:2782). -/
def krl_L2sqr_continuous_transpose_mini_kernel (x y : Ptr) (d : ℕ) : ℕ → ℚ :=
  l2trP 16 x y d

/-- `krl_L2sqr_continuous_transpose_medium_kernel` (L2distance_simd.cpp:2661). -/
def krl_L2sqr_continuous_transpose_medium_kernel (x y : Ptr) (d : ℕ) : ℕ → ℚ :=
  l2trP 32 x y d

theorem l2trP_spec (B : ℕ) (x y : Ptr) (d : ℕ) (hd : 1 ≤ d) (j : ℕ) :
    l2trP B x y d j = ∑ t in Finset.range d, (y (B * t + j) - x t) ^ 2 := by
  unfold l2trP
  by_cases h1 : d = 1
  · subst h1
    simp only [if_pos rfl]
    simp [vmulq_f32, vsubq_f32, vld1q_f32, vdupq_n_f32, Finset.sum_range_one]
    rw [show 4 * (j / 4) + j % 4 = j from by omega]
    ring
  · simp only [if_neg h1]
    have hd2 : 2 ≤ d := by omega
    have hP := cfor_spec
      (b := l2trP_step B x y) (c := 1) (N := d) (u := 1)
      (fun i s => 2 ≤ i ∧ s.1 = vdupq_n_f32 (x (i - 1))
        ∧ s.2.1 (j / 4) = vld1q_f32 y (B * (i - 1) + 4 * (j / 4))
        ∧ s.2.2 (j / 4) ⟨j % 4, Nat.mod_lt _ (by norm_num)⟩
            = ∑ t in Finset.range (i - 1), (y (B * t + j) - x t) ^ 2)
      2
      (vdupq_n_f32 (x 1),
       fun q => vld1q_f32 y (B + 4 * q),
       fun q =>
         let w := vsubq_f32 (vld1q_f32 y (4 * q)) (vdupq_n_f32 (x 0))
         vmulq_f32 w w)
      (by
        refine ⟨le_rfl, rfl, ?_, ?_⟩
        · rw [show B * (2 - 1) = B from by omega]
        · simp [vmulq_f32, vsubq_f32, vld1q_f32, vdupq_n_f32,
            Finset.sum_range_one]
          rw [show 4 * (j / 4) + j % 4 = j from by omega]
          ring)
      (by
        rintro i s hcond ⟨hi2, hsq, hba, hre⟩
        refine ⟨by omega, rfl, rfl, ?_⟩
        simp only [l2trP_step, vmlaq_f32, vsubq_f32]
        rw [hre, hsq, hba]
        have hstep : (i + 1 - 1) = (i - 1) + 1 := by omega
        rw [hstep, Finset.sum_range_succ]
        simp [vld1q_f32, vdupq_n_f32]
        rw [show B * (i - 1) + 4 * (j / 4) + j % 4 = B * (i - 1) + j from by omega]
        ring)
    have hex := cfor_exit (b := l2trP_step B x y)
      (c := 1) (N := d) (u := 1) le_rfl le_rfl 2
      (vdupq_n_f32 (x 1),
       fun q => vld1q_f32 y (B + 4 * q),
       fun q =>
         let w := vsubq_f32 (vld1q_f32 y (4 * q)) (vdupq_n_f32 (x 0))
         vmulq_f32 w w)
    have hle := cfor_le (b := l2trP_step B x y)
      (c := 1) (N := d) (u := 1) le_rfl hd2
      (vdupq_n_f32 (x 1),
       fun q => vld1q_f32 y (B + 4 * q),
       fun q =>
         let w := vsubq_f32 (vld1q_f32 y (4 * q)) (vdupq_n_f32 (x 0))
         vmulq_f32 w w)
    obtain ⟨p, hp⟩ : ∃ p, cfor 1 d 1 (l2trP_step B x y) 2
        (vdupq_n_f32 (x 1),
         fun q => vld1q_f32 y (B + 4 * q),
         fun q =>
           let w := vsubq_f32 (vld1q_f32 y (4 * q)) (vdupq_n_f32 (x 0))
           vmulq_f32 w w) = p := ⟨_, rfl⟩
    rw [hp] at hP hex hle ⊢
    obtain ⟨hi2, hsq, hba, hre⟩ := hP
    have hfin : p.1 = d := by omega
    rw [hfin] at hsq hba hre
    simp only [vmlaq_f32, vsubq_f32]
    rw [hre, hsq, hba]
    have hstep : d = (d - 1) + 1 := by omega
    rw [hstep, Finset.sum_range_succ, show d - 1 + 1 - 1 = d - 1 from by omega]
    simp [vld1q_f32, vdupq_n_f32]
    rw [show B * (d - 1) + 4 * (j / 4) + j % 4 = B * (d - 1) + j from by omega]
    ring

/-! ### Transposed inner-product kernels (IPdistance_simd.cpp:1107/1217/1282)

All three are non-pipelined: init registers from dimension 0, then one
dim-loop `i ∈ [1, d)` of multiply-accumulates; identical up to `B`. -/

def iptr_init (x y : Ptr) : ℕ → V4 := fun q =>
  vmulq_f32 (vld1q_f32 y (4 * q)) (vdupq_n_f32 (x 0))

def iptr_step (B : ℕ) (x y : Ptr) (i : ℕ) (s : ℕ → V4) : ℕ → V4 := fun q =>
  vmlaq_f32 (s q) (vld1q_f32 y (B * i + 4 * q)) (vdupq_n_f32 (x i))

def ip_trans (B : ℕ) (x y : Ptr) (d : ℕ) : ℕ → ℚ :=
  let p := cfor 1 d 1 (iptr_step B x y) 1 (iptr_init x y)
  fun j => p.2 (j / 4) ⟨j % 4, Nat.mod_lt _ (by norm_num)⟩

/-- `krl_inner_product_continuous_transpose_large_kernel` (B = 64). -/
def krl_inner_product_continuous_transpose_large_kernel (x y : Ptr) (d : ℕ) :
    ℕ → ℚ := ip_trans 64 x y d

/-- `krl_inner_product_continuous_transpose_medium_kernel` (B = 32). -/
def krl_inner_product_continuous_transpose_medium_kernel (x y : Ptr) (d : ℕ) :
    ℕ → ℚ := ip_trans 32 x y d

/-- `krl_inner_product_continuous_transpose_mini_kernel` (B = 16). -/
def krl_inner_product_continuous_transpose_mini_kernel (x y : Ptr) (d : ℕ) :
    ℕ → ℚ := ip_trans 16 x y d

theorem ip_trans_spec (B : ℕ) (x y : Ptr) (d : ℕ) (hd : 1 ≤ d) (j : ℕ) :
    ip_trans B x y d j = ∑ t in Finset.range d, y (B * t + j) * x t := by
  unfold ip_trans
  have hacc := cfor_accum (c := 1) (N := d) (u := 1)
    (b := iptr_step B x y) 1 (iptr_init x y)
    (fun s => s (j / 4) ⟨j % 4, Nat.mod_lt _ (by norm_num)⟩)
    (fun t => y (B * t + j) * x t)
    (by
      intro i s _
      rw [sum_Ico_expand]
      simp [iptr_step, vmlaq_f32, vld1q_f32, vdupq_n_f32, Finset.sum_range_succ]
      rw [show B * i + 4 * (j / 4) + j % 4 = B * i + j from by omega]
      exact Or.inl rfl)
  have hex := cfor_exit (b := iptr_step B x y)
    (c := 1) (N := d) (u := 1) le_rfl le_rfl 1 (iptr_init x y)
  have hle := cfor_le (b := iptr_step B x y)
    (c := 1) (N := d) (u := 1) le_rfl hd (iptr_init x y)
  obtain ⟨p, hp⟩ : ∃ p, cfor 1 d 1 (iptr_step B x y) 1 (iptr_init x y) = p :=
    ⟨_, rfl⟩
  rw [hp] at hacc hex hle ⊢
  simp only at hacc
  have hfin : p.1 = d := by omega
  rw [hacc, hfin]
  have hinit : iptr_init x y (j / 4) ⟨j % 4, Nat.mod_lt _ (by norm_num)⟩
      = y (B * 0 + j) * x 0 := by
    simp [iptr_init, vmulq_f32, vld1q_f32, vdupq_n_f32]
    rw [show 4 * (j / 4) + j % 4 = j from by omega]
    exact Or.inl rfl
  rw [hinit, Finset.range_eq_Ico,
    sum_Ico_bot (fun t => y (B * t + j) * x t) (by omega : 0 < d)]

/-! ## Inner-product fixed-width kernels

The IP gather kernels (IPdistance_simd.cpp:509/569/636/732) receive resolved
row pointers, modelled as `ys : ℕ → Ptr`; the dense batch kernels
(IPdistance_simd.cpp:98/158/226/327) perform the identical per-row
computation with row `k` at `y + k*d`, so they instantiate the gather models
at `ys k = pshift y (k*d)`. -/

/-- 4-wide accumulation body of the IP batch kernels:
`res_k = vmlaq(res_k, vld1q(y_k + i), vld1q(x + i))`. -/
def ipidx_step4 (x : Ptr) (ys : ℕ → Ptr) (i : ℕ) (s : ℕ → V4) : ℕ → V4 := fun k =>
  vmlaq_f32 (s k) (vld1q_f32 (ys k) i) (vld1q_f32 x i)

def ipidx_init4 (x : Ptr) (ys : ℕ → Ptr) : ℕ → V4 := fun k =>
  vmulq_f32 (vld1q_f32 (ys k) 0) (vld1q_f32 x 0)

def ipidx_tail (x : Ptr) (ys : ℕ → Ptr) (k j : ℕ) : ℚ := x j * ys k j

theorem ipidx_loop (x : Ptr) (ys : ℕ → Ptr) {c d : ℕ} (i0 : ℕ) (s0 : ℕ → V4)
    (k : ℕ) :
    vaddvq_f32 ((cfor c d 4 (ipidx_step4 x ys) i0 s0).2 k)
      = vaddvq_f32 (s0 k)
        + ∑ j in Finset.Ico i0 (cfor c d 4 (ipidx_step4 x ys) i0 s0).1,
            x j * ys k j := by
  have hacc := cfor_accum (c := c) (N := d) (u := 4)
    (b := ipidx_step4 x ys) i0 s0
    (fun s => vaddvq_f32 (s k)) (fun j => x j * ys k j)
    (by
      intro i s _
      rw [sum_Ico_expand]
      simp [ipidx_step4, vaddvq_f32, vmlaq_f32, vld1q_f32,
        Finset.sum_range_succ]
      ring)
  simpa using hacc

theorem ipidx_init4_sum (x : Ptr) (ys : ℕ → Ptr) (k : ℕ) :
    vaddvq_f32 (ipidx_init4 x ys k) = ∑ j in Finset.Ico 0 4, x j * ys k j := by
  rw [show (4 : ℕ) = 0 + 4 by rfl, sum_Ico_expand]
  simp [ipidx_init4, vaddvq_f32, vmulq_f32, vld1q_f32, Finset.sum_range_succ]
  ring

/-- Common final step of the IP batch kernels: a partial result covering
dimensions `[0, p.1)` followed by the peeled scalar tail yields the naive
inner product. -/
theorem ipidx_assemble (x : Ptr) (ys : ℕ → Ptr) (d : ℕ) (k : ℕ)
    (p : ℕ × (ℕ → ℚ)) (hle : p.1 ≤ d)
    (hval : p.2 k = ∑ j in Finset.Ico 0 p.1, x j * ys k j) :
    (if p.1 < d then
      fun k => p.2 k + tailLoop (ipidx_tail x ys) d (p.1 + 1)
        (fun k => ipidx_tail x ys k p.1) k
     else p.2) k = ipnaive x (ys k) d := by
  unfold ipnaive
  by_cases ht : p.1 < d
  · simp only [if_pos ht]
    rw [hval, tailLoop_spec _ _ _ _ _ (by omega)]
    have htail : (ipidx_tail x ys k p.1
          + ∑ j in Finset.Ico (p.1 + 1) d, ipidx_tail x ys k j)
        = ∑ j in Finset.Ico p.1 d, x j * ys k j := by
      rw [sum_Ico_bot _ ht]
      rfl
    rw [htail,
      Finset.sum_Ico_consecutive _ (by omega : (0:ℕ) ≤ p.1) (by omega : p.1 ≤ d),
      Finset.range_eq_Ico]
  · simp only [if_neg ht]
    have hpd : p.1 = d := by omega
    rw [hval, hpd, Finset.range_eq_Ico]

/-- Row-indexed model of `krl_inner_product_idx_batch4`
(IPdistance_simd.cpp:569) and `krl_inner_product_idx_batch8` (:636): guard
`d >= 4`, accumulators initialised from dimensions `[0,4)`, a 4-wide loop,
horizontal reduction, peeled scalar tail, identical per row. -/
def krl_inner_product_idx_batchW (x : Ptr) (ys : ℕ → Ptr) (d : ℕ) : ℕ → ℚ :=
  let p : ℕ × (ℕ → ℚ) :=
    if 4 ≤ d then
      let p1 := cfor 4 d 4 (ipidx_step4 x ys) 4 (ipidx_init4 x ys)
      (p1.1, fun k => vaddvq_f32 (p1.2 k))
    else (0, fun _ => (0 : ℚ))
  if p.1 < d then
    fun k => p.2 k + tailLoop (ipidx_tail x ys) d (p.1 + 1)
      (fun k => ipidx_tail x ys k p.1) k
  else p.2

theorem krl_inner_product_idx_batchW_spec (x : Ptr) (ys : ℕ → Ptr) (d : ℕ)
    (k : ℕ) :
    krl_inner_product_idx_batchW x ys d k = ipnaive x (ys k) d := by
  unfold krl_inner_product_idx_batchW
  by_cases h4 : 4 ≤ d
  · simp only [if_pos h4]
    have hval := ipidx_loop x ys 4 (ipidx_init4 x ys) k (c := 4) (d := d)
    have hle := cfor_le (b := ipidx_step4 x ys)
      (c := 4) (N := d) (u := 4) le_rfl h4 (ipidx_init4 x ys)
    have hge := cfor_ge (b := ipidx_step4 x ys)
      (c := 4) (N := d) (u := 4) 4 (ipidx_init4 x ys)
    obtain ⟨p, hp⟩ : ∃ p, cfor 4 d 4 (ipidx_step4 x ys) 4 (ipidx_init4 x ys) = p :=
      ⟨_, rfl⟩
    rw [hp] at hval hle hge ⊢
    refine ipidx_assemble x ys d k ⟨p.1, fun k => vaddvq_f32 (p.2 k)⟩ hle ?_
    show vaddvq_f32 (p.2 k) = _
    rw [hval, ipidx_init4_sum,
      Finset.sum_Ico_consecutive _ (by omega : (0:ℕ) ≤ 4) (by omega : 4 ≤ p.1)]
  · simp only [if_neg h4]
    refine ipidx_assemble x ys d k ⟨0, fun _ => (0:ℚ)⟩ (by omega) (by simp)

/-- Row-indexed model of `krl_inner_product_batch4` (IPdistance_simd.cpp:158),
`krl_inner_product_batch8` (:226) and `krl_inner_product_batch16` (:327):
the identical per-row computation with row `k` at `y + k*d`. -/
def krl_inner_product_batchW (x y : Ptr) (d : ℕ) : ℕ → ℚ :=
  krl_inner_product_idx_batchW x (fun k => pshift y (k * d)) d

theorem krl_inner_product_batchW_spec (x y : Ptr) (d : ℕ) (k : ℕ) :
    krl_inner_product_batchW x y d k = ipnaive x (pshift y (k * d)) d :=
  krl_inner_product_idx_batchW_spec x (fun k => pshift y (k * d)) d k

/-- The inner 32-dimension sub-chunk loop
`for (j = 0; j < 32; j += 4)` of `krl_inner_product_idx_prefetch_batch16`. -/
theorem ipidx_inner32 (x : Ptr) (ys : ℕ → Ptr) (i : ℕ) (s : ℕ → V4) (k : ℕ) :
    vaddvq_f32 ((cfor 1 32 4 (fun j u => ipidx_step4 x ys (i + j) u) 0 s).2 k)
      = vaddvq_f32 (s k) + ∑ j in Finset.Ico i (i + 32), x j * ys k j := by
  have hacc := cfor_accum (c := 1) (N := 32) (u := 4)
    (b := fun j u => ipidx_step4 x ys (i + j) u) 0 s
    (fun u => vaddvq_f32 (u k)) (fun j => x (i + j) * ys k (i + j))
    (by
      intro j u _
      rw [sum_Ico_expand]
      simp [ipidx_step4, vaddvq_f32, vmlaq_f32, vld1q_f32,
        Finset.sum_range_succ, add_assoc]
      ring)
  have hex := cfor_exit (b := fun j u => ipidx_step4 x ys (i + j) u)
    (c := 1) (N := 32) (u := 4) le_rfl (by norm_num) 0 s
  have hlt := cfor_lt (b := fun j u => ipidx_step4 x ys (i + j) u)
    (c := 1) (N := 32) (u := 4) (a := 0) le_rfl (by norm_num) s
  have hmod := cfor_mod (b := fun j u => ipidx_step4 x ys (i + j) u)
    (c := 1) (N := 32) (u := 4) 0 s
  obtain ⟨p, hp⟩ : ∃ p, cfor 1 32 4 (fun j u => ipidx_step4 x ys (i + j) u) 0 s = p :=
    ⟨_, rfl⟩
  rw [hp] at hacc hex hlt hmod ⊢
  simp only at hacc
  obtain ⟨t, ht⟩ := hmod
  have hfin : p.1 = 32 := by omega
  rw [hacc, hfin]
  have hR := sum_Ico_expand (fun j => x j * ys k j) i 32
  rw [hR, Finset.range_eq_Ico]

/-- `krl_inner_product_idx_prefetch_batch16` (IPdistance_simd.cpp:732):
`single_round = 4`, `multi_round = 32`.  For `d >= 32`: accumulators
initialised from dimensions `[0,4)`, a 4-wide warm-up loop up to dimension
32, a 32-dimension super-block loop `for (; i < d - 32; i += 32)` with a
4-wide inner loop, a 4-wide cleanup loop, a peeled scalar tail.  For
`4 <= d < 32`: initialisation plus one 4-wide loop.  Otherwise zeros and the
peeled tail. -/
def krl_inner_product_idx_prefetch_batch16 (x : Ptr) (ys : ℕ → Ptr) (d : ℕ) :
    ℕ → ℚ :=
  let p : ℕ × (ℕ → ℚ) :=
    if 32 ≤ d then
      let p1 := cfor 1 32 4 (ipidx_step4 x ys) 4 (ipidx_init4 x ys)
      let p2 := cfor 33 d 32
        (fun i s => (cfor 1 32 4 (fun j u => ipidx_step4 x ys (i + j) u) 0 s).2)
        p1.1 p1.2
      let p3 := cfor 4 d 4 (ipidx_step4 x ys) p2.1 p2.2
      (p3.1, fun k => vaddvq_f32 (p3.2 k))
    else if 4 ≤ d then
      let p1 := cfor 4 d 4 (ipidx_step4 x ys) 4 (ipidx_init4 x ys)
      (p1.1, fun k => vaddvq_f32 (p1.2 k))
    else (0, fun _ => (0 : ℚ))
  if p.1 < d then
    fun k => p.2 k + tailLoop (ipidx_tail x ys) d (p.1 + 1)
      (fun k => ipidx_tail x ys k p.1) k
  else p.2

theorem krl_inner_product_idx_prefetch_batch16_spec (x : Ptr) (ys : ℕ → Ptr)
    (d : ℕ) (k : ℕ) :
    krl_inner_product_idx_prefetch_batch16 x ys d k = ipnaive x (ys k) d := by
  unfold krl_inner_product_idx_prefetch_batch16
  by_cases h32 : 32 ≤ d
  · simp only [if_pos h32]
    -- the warm-up loop `for (i = 4; i < 32; i += 4)` ends at 32
    have hval1 := ipidx_loop x ys 4 (ipidx_init4 x ys) k (c := 1) (d := 32)
    have hex1 := cfor_exit (b := ipidx_step4 x ys)
      (c := 1) (N := 32) (u := 4) le_rfl (by norm_num) 4 (ipidx_init4 x ys)
    have hlt1 := cfor_lt (b := ipidx_step4 x ys)
      (c := 1) (N := 32) (u := 4) (a := 4) le_rfl (by norm_num) (ipidx_init4 x ys)
    have hmod1 := cfor_mod (b := ipidx_step4 x ys)
      (c := 1) (N := 32) (u := 4) 4 (ipidx_init4 x ys)
    obtain ⟨p1, hp1⟩ : ∃ p, cfor 1 32 4 (ipidx_step4 x ys) 4 (ipidx_init4 x ys) = p :=
      ⟨_, rfl⟩
    rw [hp1] at hval1 hex1 hlt1 hmod1 ⊢
    obtain ⟨t1, ht1⟩ := hmod1
    have hfin1 : p1.1 = 32 := by omega
    -- the 32-dimension super-block loop
    have hacc2 := cfor_accum (c := 33) (N := d) (u := 32)
      (b := fun i s => (cfor 1 32 4 (fun j u => ipidx_step4 x ys (i + j) u) 0 s).2)
      p1.1 p1.2
      (fun s => vaddvq_f32 (s k)) (fun j => x j * ys k j)
      (by intro i s _; exact ipidx_inner32 x ys i s k)
    have hex2 := cfor_exit
      (b := fun i s => (cfor 1 32 4 (fun j u => ipidx_step4 x ys (i + j) u) 0 s).2)
      (c := 33) (N := d) (u := 32) (by norm_num) (by norm_num) p1.1 p1.2
    have hle2 := cfor_le
      (b := fun i s => (cfor 1 32 4 (fun j u => ipidx_step4 x ys (i + j) u) 0 s).2)
      (c := 33) (N := d) (u := 32) (by norm_num) (by omega : p1.1 ≤ d) p1.2
    have hge2 := cfor_ge
      (b := fun i s => (cfor 1 32 4 (fun j u => ipidx_step4 x ys (i + j) u) 0 s).2)
      (c := 33) (N := d) (u := 32) p1.1 p1.2
    obtain ⟨p2, hp2⟩ : ∃ p, cfor 33 d 32
        (fun i s => (cfor 1 32 4 (fun j u => ipidx_step4 x ys (i + j) u) 0 s).2)
        p1.1 p1.2 = p := ⟨_, rfl⟩
    rw [hp2] at hacc2 hex2 hle2 hge2 ⊢
    simp only at hacc2
    -- the 4-wide cleanup loop
    have hval3 := ipidx_loop x ys p2.1 p2.2 k (c := 4) (d := d)
    have hle3 := cfor_le (b := ipidx_step4 x ys)
      (c := 4) (N := d) (u := 4) le_rfl hle2 p2.2
    have hge3 := cfor_ge (b := ipidx_step4 x ys)
      (c := 4) (N := d) (u := 4) p2.1 p2.2
    obtain ⟨p3, hp3⟩ : ∃ p, cfor 4 d 4 (ipidx_step4 x ys) p2.1 p2.2 = p := ⟨_, rfl⟩
    rw [hp3] at hval3 hle3 hge3 ⊢
    refine ipidx_assemble x ys d k ⟨p3.1, fun k => vaddvq_f32 (p3.2 k)⟩ hle3 ?_
    show vaddvq_f32 (p3.2 k) = _
    rw [hval3, hacc2, hval1, ipidx_init4_sum,
      Finset.sum_Ico_consecutive _ (by omega : (0:ℕ) ≤ 4) (by omega : 4 ≤ p1.1),
      Finset.sum_Ico_consecutive _ (by omega : (0:ℕ) ≤ p1.1) hge2,
      Finset.sum_Ico_consecutive _ (by omega : (0:ℕ) ≤ p2.1) hge3]
  · simp only [if_neg h32]
    by_cases h4 : 4 ≤ d
    · simp only [if_pos h4]
      have hval := ipidx_loop x ys 4 (ipidx_init4 x ys) k (c := 4) (d := d)
      have hle := cfor_le (b := ipidx_step4 x ys)
        (c := 4) (N := d) (u := 4) le_rfl h4 (ipidx_init4 x ys)
      have hge := cfor_ge (b := ipidx_step4 x ys)
        (c := 4) (N := d) (u := 4) 4 (ipidx_init4 x ys)
      obtain ⟨p, hp⟩ : ∃ p, cfor 4 d 4 (ipidx_step4 x ys) 4 (ipidx_init4 x ys) = p :=
        ⟨_, rfl⟩
      rw [hp] at hval hle hge ⊢
      refine ipidx_assemble x ys d k ⟨p.1, fun k => vaddvq_f32 (p.2 k)⟩ hle ?_
      show vaddvq_f32 (p.2 k) = _
      rw [hval, ipidx_init4_sum,
        Finset.sum_Ico_consecutive _ (by omega : (0:ℕ) ≤ 4) (by omega : 4 ≤ p.1)]
    · simp only [if_neg h4]
      refine ipidx_assemble x ys d k ⟨0, fun _ => (0:ℚ)⟩ (by omega) (by simp)

/-! ## `krl_inner_product_idx_batch2` (IPdistance_simd.cpp:509) and
`krl_inner_product_batch2` (:98): two accumulator registers per row, 8-wide
stride, guard `d >= 8`, un-peeled scalar tail.  The dense `batch2` performs
the identical computation with rows at `y` and `y + d`. -/

def ipidx2_init8 (x : Ptr) (ys : ℕ → Ptr) : (ℕ → V4) × (ℕ → V4) :=
  (fun k => vmulq_f32 (vld1q_f32 x 0) (vld1q_f32 (ys k) 0),
   fun k => vmulq_f32 (vld1q_f32 x 4) (vld1q_f32 (ys k) 4))

def ipidx2_step8 (x : Ptr) (ys : ℕ → Ptr) (i : ℕ) (s : (ℕ → V4) × (ℕ → V4)) :
    (ℕ → V4) × (ℕ → V4) :=
  (fun k => vmlaq_f32 (s.1 k) (vld1q_f32 x i) (vld1q_f32 (ys k) i),
   fun k => vmlaq_f32 (s.2 k) (vld1q_f32 x (i + 4)) (vld1q_f32 (ys k) (i + 4)))

def krl_inner_product_idx_batch2 (x y0 y1 : Ptr) (d : ℕ) : ℕ → ℚ :=
  let p : ℕ × (ℕ → ℚ) :=
    if 8 ≤ d then
      let p1 := cfor 8 d 8 (ipidx2_step8 x (ys2 y0 y1)) 8 (ipidx2_init8 x (ys2 y0 y1))
      (p1.1, fun k => vaddvq_f32 (vaddq_f32 (p1.2.1 k) (p1.2.2 k)))
    else (0, fun _ => (0 : ℚ))
  tailLoop (ipidx_tail x (ys2 y0 y1)) d p.1 p.2

theorem krl_inner_product_idx_batch2_spec (x y0 y1 : Ptr) (d : ℕ) (k : ℕ) :
    krl_inner_product_idx_batch2 x y0 y1 d k = ipnaive x (ys2 y0 y1 k) d := by
  unfold krl_inner_product_idx_batch2 ipnaive
  by_cases h8 : 8 ≤ d
  · simp only [if_pos h8]
    have hacc := cfor_accum (c := 8) (N := d) (u := 8)
      (b := ipidx2_step8 x (ys2 y0 y1)) 8 (ipidx2_init8 x (ys2 y0 y1))
      (fun s => vaddvq_f32 (s.1 k) + vaddvq_f32 (s.2 k))
      (fun j => x j * ys2 y0 y1 k j)
      (by
        intro i s _
        rw [sum_Ico_expand]
        simp [ipidx2_step8, vaddvq_f32, vmlaq_f32, vld1q_f32,
          Finset.sum_range_succ]
        ring)
    have hex := cfor_exit (b := ipidx2_step8 x (ys2 y0 y1))
      (c := 8) (N := d) (u := 8) (by norm_num) (by norm_num) 8
      (ipidx2_init8 x (ys2 y0 y1))
    have hle := cfor_le (b := ipidx2_step8 x (ys2 y0 y1))
      (c := 8) (N := d) (u := 8) le_rfl h8 (ipidx2_init8 x (ys2 y0 y1))
    have hge := cfor_ge (b := ipidx2_step8 x (ys2 y0 y1))
      (c := 8) (N := d) (u := 8) 8 (ipidx2_init8 x (ys2 y0 y1))
    obtain ⟨p, hp⟩ : ∃ p, cfor 8 d 8 (ipidx2_step8 x (ys2 y0 y1)) 8
        (ipidx2_init8 x (ys2 y0 y1)) = p := ⟨_, rfl⟩
    rw [hp] at hacc hex hle hge ⊢
    simp only at hacc
    rw [tailLoop_spec _ _ _ _ _ (by omega : p.1 ≤ d), vaddv_vaddq, hacc]
    have hinit : vaddvq_f32 ((ipidx2_init8 x (ys2 y0 y1)).1 k)
          + vaddvq_f32 ((ipidx2_init8 x (ys2 y0 y1)).2 k)
        = ∑ j in Finset.Ico 0 8, x j * ys2 y0 y1 k j := by
      rw [show (8 : ℕ) = 0 + 8 by rfl, sum_Ico_expand]
      simp [ipidx2_init8, vaddvq_f32, vmulq_f32, vld1q_f32,
        Finset.sum_range_succ]
      ring
    have htail : ∑ j in Finset.Ico p.1 d, ipidx_tail x (ys2 y0 y1) k j
        = ∑ j in Finset.Ico p.1 d, x j * ys2 y0 y1 k j := rfl
    rw [htail, hinit, add_assoc,
      Finset.sum_Ico_consecutive _ (by omega : 8 ≤ p.1) (by omega : p.1 ≤ d),
      Finset.sum_Ico_consecutive _ (by omega : (0:ℕ) ≤ 8) (by omega : 8 ≤ d),
      Finset.range_eq_Ico]
  · simp only [if_neg h8]
    rw [tailLoop_spec _ _ _ _ _ (by omega : 0 ≤ d)]
    have htail : ∑ j in Finset.Ico 0 d, ipidx_tail x (ys2 y0 y1) k j
        = ∑ j in Finset.Ico 0 d, x j * ys2 y0 y1 k j := rfl
    rw [htail, Finset.range_eq_Ico]
    ring

def krl_inner_product_batch2 (x y : Ptr) (d : ℕ) : ℕ → ℚ :=
  krl_inner_product_idx_batch2 x y (pshift y d) d

theorem krl_inner_product_batch2_spec (x y : Ptr) (d : ℕ) (k : ℕ) :
    krl_inner_product_batch2 x y d k = ipnaive x (ys2 y (pshift y d) k) d :=
  krl_inner_product_idx_batch2_spec x y (pshift y d) d k

/-! ## `krl_ipdis` (IPdistance_simd.cpp:22): the single-pair entry point.
`single_round = 16`; four accumulator registers in the `d >= 16` branch,
reduced as `((r0+r1)+(r2+r3))`; un-peeled scalar tail. -/

def ipone_init16 (x y : Ptr) : ℕ → V4 := fun r =>
  vmulq_f32 (vld1q_f32 x (4 * r)) (vld1q_f32 y (4 * r))

def ipone_step16 (x y : Ptr) (i : ℕ) (s : ℕ → V4) : ℕ → V4 := fun r =>
  vmlaq_f32 (s r) (vld1q_f32 x (i + 4 * r)) (vld1q_f32 y (i + 4 * r))

/-- Value computed by `krl_ipdis` into `*dis` (after validation). -/
def krl_ipdis_res (x y : Ptr) (d : ℕ) : ℚ :=
  let p : ℕ × ℚ :=
    if 16 ≤ d then
      let p1 := cfor 16 d 16 (ipone_step16 x y) 16 (ipone_init16 x y)
      (p1.1,
        vaddvq_f32 (vaddq_f32 (vaddq_f32 (p1.2 0) (p1.2 1))
          (vaddq_f32 (p1.2 2) (p1.2 3))))
    else (0, 0)
  tailLoopS (fun j => x j * y j) d p.1 p.2

theorem krl_ipdis_res_spec (x y : Ptr) (d : ℕ) :
    krl_ipdis_res x y d = ipnaive x y d := by
  unfold krl_ipdis_res ipnaive
  by_cases h16 : 16 ≤ d
  · simp only [if_pos h16]
    have hacc := cfor_accum (c := 16) (N := d) (u := 16)
      (b := ipone_step16 x y) 16 (ipone_init16 x y)
      (fun s => vaddvq_f32 (s 0) + vaddvq_f32 (s 1) + vaddvq_f32 (s 2) + vaddvq_f32 (s 3))
      (fun j => x j * y j)
      (by
        intro i s _
        rw [sum_Ico_expand]
        simp [ipone_step16, vaddvq_f32, vmlaq_f32, vld1q_f32,
          Finset.sum_range_succ]
        ring)
    have hex := cfor_exit (b := ipone_step16 x y)
      (c := 16) (N := d) (u := 16) (by norm_num) (by norm_num) 16 (ipone_init16 x y)
    have hle := cfor_le (b := ipone_step16 x y)
      (c := 16) (N := d) (u := 16) le_rfl h16 (ipone_init16 x y)
    have hge := cfor_ge (b := ipone_step16 x y)
      (c := 16) (N := d) (u := 16) 16 (ipone_init16 x y)
    obtain ⟨p, hp⟩ : ∃ p, cfor 16 d 16 (ipone_step16 x y) 16 (ipone_init16 x y) = p :=
      ⟨_, rfl⟩
    rw [hp] at hacc hex hle hge ⊢
    simp only at hacc
    rw [tailLoopS_spec _ _ _ _ (by omega : p.1 ≤ d)]
    have hval : vaddvq_f32 (vaddq_f32 (vaddq_f32 (p.2 0) (p.2 1))
          (vaddq_f32 (p.2 2) (p.2 3)))
        = vaddvq_f32 (p.2 0) + vaddvq_f32 (p.2 1) + vaddvq_f32 (p.2 2)
          + vaddvq_f32 (p.2 3) := by
      rw [vaddv_vaddq, vaddv_vaddq, vaddv_vaddq]; ring
    have hinit : vaddvq_f32 (ipone_init16 x y 0) + vaddvq_f32 (ipone_init16 x y 1)
          + vaddvq_f32 (ipone_init16 x y 2) + vaddvq_f32 (ipone_init16 x y 3)
        = ∑ j in Finset.Ico 0 16, x j * y j := by
      rw [show (16 : ℕ) = 0 + 16 by rfl, sum_Ico_expand]
      simp [ipone_init16, vaddvq_f32, vmulq_f32, vld1q_f32, Finset.sum_range_succ]
      ring
    rw [hval, hacc, hinit, add_assoc,
      Finset.sum_Ico_consecutive _ (by omega : 16 ≤ p.1) (by omega : p.1 ≤ d),
      Finset.sum_Ico_consecutive _ (by omega : (0:ℕ) ≤ 16) (by omega : 16 ≤ d),
      Finset.range_eq_Ico]
  · simp only [if_neg h16]
    rw [tailLoopS_spec _ _ _ _ (by omega : 0 ≤ d), Finset.range_eq_Ico]
    ring

/-- `krl_ipdis` entry point (IPdistance_simd.cpp:22): validation followed by
one write of the computed value into `dis[0]`. -/
def krl_ipdis (x y : CPtr) (d : ℕ) (dis : CPtr) (dis_size : ℕ) :
    Int × List (ℕ × ℚ) :=
  if d < 1 ∨ 65535 < d then (INVALPARAM, [])
  else if x.isNull ∨ y.isNull ∨ dis.isNull ∨ dis_size < 1 then (INVALPOINTER, [])
  else (SUCCESS, [(0, krl_ipdis_res x.val y.val d)])

/-! ## The chunk-then-bit-decompose pattern of the batch drivers

After the main prefetch-chunk loop leaves the cursor `i` at a multiple of the
chunk size with fewer than one chunk of vectors remaining, the drivers test
`ny & b` for descending powers of two `b`.  `and_pow_iff` is the key
arithmetic fact: provided `i` is a multiple of `2b` and fewer than `2b`
vectors remain, the bit test `ny & b` fires exactly when at least `b` vectors
remain. -/

theorem and_pow_iff (ny m i : ℕ) (hdvd : i % 2 ^ (m + 1) = 0) (hle : i ≤ ny)
    (hrem : ny - i < 2 ^ (m + 1)) :
    (ny &&& 2 ^ m ≠ 0) ↔ i + 2 ^ m ≤ ny := by
  rw [and_pow2_ne]
  have hb : 0 < 2 ^ m := pow_pos (by norm_num) m
  have h2 : (2:ℕ) ^ (m + 1) = 2 ^ m * 2 := pow_succ 2 m
  obtain ⟨t, ht⟩ := Nat.dvd_of_mod_eq_zero hdvd
  have hieq : i = 2 ^ m * (2 * t) := by rw [ht, h2]; ring
  have hny : ny = 2 ^ m * (2 * t) + (ny - i) := by omega
  have hdiv : ny / 2 ^ m = 2 * t + (ny - i) / 2 ^ m := by
    conv_lhs => rw [hny]
    exact Nat.mul_add_div hb _ _
  have hmod2 : ny / 2 ^ m % 2 = (ny - i) / 2 ^ m % 2 := by rw [hdiv]; omega
  have hrlt : ny - i < 2 * 2 ^ m := by rw [h2] at hrem; omega
  have hq : (ny - i) / 2 ^ m < 2 := (Nat.div_lt_iff_lt_mul hb).mpr hrlt
  have hone : 1 ≤ (ny - i) / 2 ^ m ↔ 2 ^ m ≤ ny - i := Nat.one_le_div_iff hb
  rw [hmod2]
  obtain ⟨q, hqd⟩ : ∃ q, (ny - i) / 2 ^ m = q := ⟨_, rfl⟩
  rw [hqd] at hq hone ⊢
  constructor
  · intro h
    have hq1 : 1 ≤ q := by omega
    have := hone.mp hq1
    omega
  · intro h
    have := hone.mpr (by omega)
    omega

/-- One `if (ny & b)` stage of a batch driver, `b = 2^m`: it preserves the
canonical-prefix invariant and halves the bound on the remaining count. -/
theorem bit_stage (VAL : ℕ → ℚ) (ny m i : ℕ) (w : List (ℕ × ℚ)) (out : ℕ → ℚ)
    (s : ℕ × List (ℕ × ℚ))
    (hs : s = if ny &&& 2 ^ m ≠ 0 then (i + 2 ^ m, w ++ storeAt i (2 ^ m) out)
      else (i, w))
    (hw : w = canon VAL 0 i)
    (hout : ∀ k, k < 2 ^ m → out k = VAL (i + k))
    (hdvd : i % 2 ^ (m + 1) = 0) (hle : i ≤ ny) (hrem : ny - i < 2 ^ (m + 1)) :
    s.2 = canon VAL 0 s.1 ∧ s.1 % 2 ^ m = 0 ∧ s.1 ≤ ny ∧ ny - s.1 < 2 ^ m := by
  have hiff := and_pow_iff ny m i hdvd hle hrem
  have h2 : (2:ℕ) ^ (m + 1) = 2 ^ m * 2 := pow_succ 2 m
  have hdvd1 : i % 2 ^ m = 0 := by
    obtain ⟨t, ht⟩ := Nat.dvd_of_mod_eq_zero hdvd
    have hieq : i = 2 ^ m * (2 * t) := by rw [ht, h2]; ring
    rw [hieq]
    exact Nat.mul_mod_right _ _
  rw [h2] at hrem
  by_cases hc : ny &&& 2 ^ m ≠ 0
  · rw [if_pos hc] at hs
    have hcle := hiff.mp hc
    refine ⟨?_, ?_, ?_, ?_⟩
    · rw [hs]
      simp only
      have hap := canon_append VAL 0 i (2 ^ m)
      rw [Nat.zero_add] at hap
      rw [hw, storeAt_canon i (2 ^ m) out VAL hout, hap]
    · rw [hs]
      simp only
      rw [Nat.add_mod_right]
      exact hdvd1
    · rw [hs]
      exact hcle
    · rw [hs]
      simp only
      omega
  · rw [if_neg hc] at hs
    have hnle : ¬(i + 2 ^ m ≤ ny) := fun h => hc (hiff.mpr h)
    refine ⟨?_, ?_, ?_, ?_⟩
    · rw [hs]; exact hw
    · rw [hs]; exact hdvd1
    · rw [hs]; exact hle
    · rw [hs]; simp only; omega

/-! ## Batch drivers

State of a driver while decomposing `ny`: the cursor `i` and the write
events so far.  `drv_stage b K ny` is one `if (ny & b) { kernel(..., dis + i);
i += b; }` block, where `K i` is the row-indexed output of the kernel called
at cursor `i`; `drv_elif K16 K8 ny` is the
`if (i + 16 <= ny) … else if (i + 8 <= ny) …` block of the two L2 drivers. -/

def drv_stage (b : ℕ) (K : ℕ → ℕ → ℚ) (ny : ℕ) (s : ℕ × List (ℕ × ℚ)) :
    ℕ × List (ℕ × ℚ) :=
  if ny &&& b ≠ 0 then (s.1 + b, s.2 ++ storeAt s.1 b (K s.1)) else s

def drv_elif (K16 K8 : ℕ → ℕ → ℚ) (ny : ℕ) (s : ℕ × List (ℕ × ℚ)) :
    ℕ × List (ℕ × ℚ) :=
  if s.1 + 16 ≤ ny then (s.1 + 16, s.2 ++ storeAt s.1 16 (K16 s.1))
  else if s.1 + 8 ≤ ny then (s.1 + 8, s.2 ++ storeAt s.1 8 (K8 s.1))
  else s

theorem drv_stage_inv (b m : ℕ) (hb : b = 2 ^ m) (K : ℕ → ℕ → ℚ) (VAL : ℕ → ℚ)
    (ny : ℕ) (s : ℕ × List (ℕ × ℚ))
    (hw : s.2 = canon VAL 0 s.1)
    (hout : ∀ i k, k < b → K i k = VAL (i + k))
    (hdvd : s.1 % (2 * b) = 0) (hle : s.1 ≤ ny) (hrem : ny - s.1 < 2 * b) :
    (drv_stage b K ny s).2 = canon VAL 0 (drv_stage b K ny s).1
    ∧ (drv_stage b K ny s).1 % b = 0 ∧ (drv_stage b K ny s).1 ≤ ny
    ∧ ny - (drv_stage b K ny s).1 < b := by
  subst hb
  have h2 : 2 * 2 ^ m = 2 ^ (m + 1) := by rw [pow_succ]; ring
  rw [h2] at hdvd hrem
  exact bit_stage VAL ny m s.1 s.2 (K s.1) _ rfl hw (hout s.1) hdvd hle hrem

theorem drv_elif_inv (K16 K8 : ℕ → ℕ → ℚ) (VAL : ℕ → ℚ)
    (ny : ℕ) (s : ℕ × List (ℕ × ℚ))
    (hw : s.2 = canon VAL 0 s.1)
    (hout16 : ∀ i k, k < 16 → K16 i k = VAL (i + k))
    (hout8 : ∀ i k, k < 8 → K8 i k = VAL (i + k))
    (hdvd : s.1 % 8 = 0) (hle : s.1 ≤ ny) (hrem : ny - s.1 < 24) :
    (drv_elif K16 K8 ny s).2 = canon VAL 0 (drv_elif K16 K8 ny s).1
    ∧ (drv_elif K16 K8 ny s).1 % 8 = 0 ∧ (drv_elif K16 K8 ny s).1 ≤ ny
    ∧ ny - (drv_elif K16 K8 ny s).1 < 8 := by
  unfold drv_elif
  by_cases h16 : s.1 + 16 ≤ ny
  · rw [if_pos h16]
    refine ⟨?_, by simp only; omega, by simp only; omega, by simp only; omega⟩
    simp only
    have hap := canon_append VAL 0 s.1 16
    rw [Nat.zero_add] at hap
    rw [hw, storeAt_canon s.1 16 (K16 s.1) VAL (hout16 s.1), hap]
  · rw [if_neg h16]
    by_cases h8 : s.1 + 8 ≤ ny
    · rw [if_pos h8]
      refine ⟨?_, by simp only; omega, by simp only; omega, by simp only; omega⟩
      simp only
      have hap := canon_append VAL 0 s.1 8
      rw [Nat.zero_add] at hap
      rw [hw, storeAt_canon s.1 8 (K8 s.1) VAL (hout8 s.1), hap]
    · rw [if_neg h8]
      exact ⟨hw, hdvd, hle, by omega⟩

/-- The final `if (ny & 1)` block of the by-idx drivers: one call of the
single-pair entry point on `&dis[i]`; `W i` is that call's write list. -/
def drv_last (W : ℕ → List (ℕ × ℚ)) (ny : ℕ) (s : ℕ × List (ℕ × ℚ)) :
    List (ℕ × ℚ) :=
  if ny &&& 1 ≠ 0 then s.2 ++ (W s.1).map (fun e => (s.1 + e.1, e.2)) else s.2

/-- The final `if (ny & 2)` / `if (ny & 1)` blocks of the two dense "ny"
drivers: the 2-wide batch call does not advance the cursor, and the single
call addresses `&dis[ny - 1]` absolutely; `W` is the single call's write
list. -/
def drv_last2 (K : ℕ → ℕ → ℚ) (W : List (ℕ × ℚ)) (ny : ℕ)
    (s : ℕ × List (ℕ × ℚ)) : List (ℕ × ℚ) :=
  let w3 := if ny &&& 2 ≠ 0 then s.2 ++ storeAt s.1 2 (K s.1) else s.2
  if ny &&& 1 ≠ 0 then w3 ++ W.map (fun e => (ny - 1 + e.1, e.2)) else w3

theorem drv_last_canon (VAL : ℕ → ℚ) (W : ℕ → List (ℕ × ℚ)) (ny : ℕ)
    (s : ℕ × List (ℕ × ℚ))
    (hw : s.2 = canon VAL 0 s.1)
    (hW : ∀ i, W i = [(0, VAL i)])
    (hdvd : s.1 % 2 = 0) (hle : s.1 ≤ ny) (hrem : ny - s.1 < 2) :
    drv_last W ny s = canon VAL 0 ny := by
  unfold drv_last
  have hap := canon_append VAL 0 s.1 1
  rw [Nat.zero_add, canon_one] at hap
  by_cases h1 : ny &&& 1 ≠ 0
  · rw [if_pos h1, hW]
    rw [and_one_ne] at h1
    have hny : ny = s.1 + 1 := by omega
    rw [hw, hny, ← hap]
    simp
  · rw [if_neg h1]
    have h1e : ny % 2 ≠ 1 := fun hh => h1 ((and_one_ne ny).mpr hh)
    have hny : ny = s.1 := by omega
    rw [hw, hny]

theorem drv_last2_canon (VAL : ℕ → ℚ) (K : ℕ → ℕ → ℚ) (W : List (ℕ × ℚ))
    (ny : ℕ) (s : ℕ × List (ℕ × ℚ))
    (hw : s.2 = canon VAL 0 s.1)
    (hout : ∀ i k, k < 2 → K i k = VAL (i + k))
    (hW : W = [(0, VAL (ny - 1))])
    (hdvd : s.1 % 4 = 0) (hle : s.1 ≤ ny) (hrem : ny - s.1 < 4) :
    drv_last2 K W ny s = canon VAL 0 ny := by
  unfold drv_last2
  have hiff2 : (ny &&& 2 ≠ 0) ↔ s.1 + 2 ≤ ny := by
    have h := and_pow_iff ny 1 s.1 (by norm_num; omega) hle (by norm_num; omega)
    norm_num at h
    exact h
  by_cases h2 : ny &&& 2 ≠ 0
  · rw [if_pos h2]
    have h2le := hiff2.mp h2
    have hw3 : s.2 ++ storeAt s.1 2 (K s.1) = canon VAL 0 (s.1 + 2) := by
      have hap := canon_append VAL 0 s.1 2
      rw [Nat.zero_add] at hap
      rw [hw, storeAt_canon s.1 2 (K s.1) VAL (hout s.1), hap]
    by_cases h1 : ny &&& 1 ≠ 0
    · rw [if_pos h1, hW]
      rw [and_one_ne] at h1
      have hny : ny = s.1 + 3 := by omega
      have hap3 := canon_append VAL 0 (s.1 + 2) 1
      rw [Nat.zero_add, canon_one] at hap3
      rw [hw3, hny]
      have : s.1 + 3 - 1 = s.1 + 2 := by omega
      rw [this, ← hap3]
      simp
    · rw [if_neg h1]
      have h1e : ny % 2 ≠ 1 := fun hh => h1 ((and_one_ne ny).mpr hh)
      have hny : ny = s.1 + 2 := by omega
      rw [hw3, hny]
  · rw [if_neg h2]
    have h2n : ¬(s.1 + 2 ≤ ny) := fun h => h2 (hiff2.mpr h)
    by_cases h1 : ny &&& 1 ≠ 0
    · rw [if_pos h1, hW]
      rw [and_one_ne] at h1
      have hny : ny = s.1 + 1 := by omega
      have hap := canon_append VAL 0 s.1 1
      rw [Nat.zero_add, canon_one] at hap
      rw [hw, hny]
      have : s.1 + 1 - 1 = s.1 := by omega
      rw [this, ← hap]
      simp
    · rw [if_neg h1]
      have h1e : ny % 2 ≠ 1 := fun hh => h1 ((and_one_ne ny).mpr hh)
      have hny : ny = s.1 := by omega
      rw [hw, hny]

/-- The resolved row pointers `listy[r] = y + ids[i + r] * d` that the
by-idx drivers hand to the gather kernels. -/
def idx_rows (y : Ptr) (d : ℕ) (ids : ℕ → ℕ) (i : ℕ) : ℕ → Ptr :=
  fun r => pshift y (ids (i + r) * d)

/-- `krl_inner_product_by_idx` (IPdistance_simd.cpp:1328): validation, the
16-chunk prefetch loop, then bit stages `ny & 8`, `ny & 4`, `ny & 2` and the
final `ny & 1` single-pair call `krl_ipdis(x, y + d * ids[i], d, &dis[i], 1)`. -/
def krl_inner_product_by_idx (dis x y : CPtr) (idsNull : Bool) (ids : ℕ → ℕ)
    (d ny dis_size : ℕ) : Int × List (ℕ × ℚ) :=
  if d < 1 ∨ 65535 < d ∨ ny < 1 ∨ 2 ^ 30 < ny then (INVALPARAM, [])
  else if x.isNull ∨ y.isNull ∨ idsNull ∨ dis.isNull ∨ dis_size < ny then
    (INVALPOINTER, [])
  else
    (SUCCESS, drv_last
      (fun i => (krl_ipdis x ⟨false, pshift y.val (d * ids i)⟩ d dis 1).2) ny
      (drv_stage 2
        (fun i => krl_inner_product_idx_batch2 x.val (pshift y.val (ids i * d))
          (pshift y.val (ids (i + 1) * d)) d) ny
        (drv_stage 4
          (fun i => krl_inner_product_idx_batchW x.val (idx_rows y.val d ids i) d)
          ny
          (drv_stage 8
            (fun i => krl_inner_product_idx_batchW x.val (idx_rows y.val d ids i) d)
            ny
            (cfor 16 ny 16
              (fun i w => w ++ storeAt i 16
                (krl_inner_product_idx_prefetch_batch16 x.val
                  (idx_rows y.val d ids i) d))
              0 ([] : List (ℕ × ℚ)))))))

theorem krl_inner_product_by_idx_canon (dis x y : CPtr) (ids : ℕ → ℕ)
    (d ny dis_size : ℕ)
    (hd1 : 1 ≤ d) (hd2 : d ≤ 65535) (hny1 : 1 ≤ ny) (hny2 : ny ≤ 2 ^ 30)
    (hx : x.isNull = false) (hy : y.isNull = false) (hdis : dis.isNull = false)
    (hsz : ny ≤ dis_size) :
    krl_inner_product_by_idx dis x y false ids d ny dis_size
      = (SUCCESS, (List.range ny).map (fun j =>
          (j, ipnaive x.val (pshift y.val (ids j * d)) d))) := by
  unfold krl_inner_product_by_idx
  rw [if_neg (by omega), if_neg (by simp [hx, hy, hdis]; omega)]
  have hW : ∀ i, (krl_ipdis x ⟨false, pshift y.val (d * ids i)⟩ d dis 1).2
      = [(0, ipnaive x.val (pshift y.val (ids i * d)) d)] := by
    intro i
    unfold krl_ipdis
    rw [if_neg (by omega), if_neg (by simp [hx, hdis])]
    rw [krl_ipdis_res_spec]
    rw [Nat.mul_comm d (ids i)]
  have hmain := cfor_spec
    (b := fun i w => w ++ storeAt i 16
      (krl_inner_product_idx_prefetch_batch16 x.val (idx_rows y.val d ids i) d))
    (c := 16) (N := ny) (u := 16)
    (fun i w => i % 16 = 0 ∧ i ≤ ny
      ∧ w = canon (fun j => ipnaive x.val (pshift y.val (ids j * d)) d) 0 i)
    0 []
    ⟨by omega, by omega, rfl⟩
    (by
      rintro i w hc ⟨h1, h2, h3⟩
      refine ⟨by omega, by omega, ?_⟩
      have hap := canon_append
        (fun j => ipnaive x.val (pshift y.val (ids j * d)) d) 0 i 16
      rw [Nat.zero_add] at hap
      show w ++ storeAt i 16
          (krl_inner_product_idx_prefetch_batch16 x.val (idx_rows y.val d ids i) d)
        = canon (fun j => ipnaive x.val (pshift y.val (ids j * d)) d) 0 (i + 16)
      rw [h3, storeAt_canon i 16 _
        (fun j => ipnaive x.val (pshift y.val (ids j * d)) d)
        (by
          intro k _
          exact krl_inner_product_idx_prefetch_batch16_spec x.val
            (idx_rows y.val d ids i) d k), hap])
  have hex := cfor_exit
    (b := fun i w => w ++ storeAt i 16
      (krl_inner_product_idx_prefetch_batch16 x.val (idx_rows y.val d ids i) d))
    (c := 16) (N := ny) (u := 16) (by norm_num) (by norm_num) 0
    ([] : List (ℕ × ℚ))
  obtain ⟨q, hq⟩ : ∃ q, cfor 16 ny 16
      (fun i w => w ++ storeAt i 16
        (krl_inner_product_idx_prefetch_batch16 x.val (idx_rows y.val d ids i) d))
      0 ([] : List (ℕ × ℚ)) = q := ⟨_, rfl⟩
  rw [hq] at hmain hex ⊢
  obtain ⟨hq1, hq2, hq3⟩ := hmain
  have hst8 := drv_stage_inv 8 3 (by norm_num)
    (fun i => krl_inner_product_idx_batchW x.val (idx_rows y.val d ids i) d)
    (fun j => ipnaive x.val (pshift y.val (ids j * d)) d)
    ny q hq3
    (by
      intro i k _
      exact krl_inner_product_idx_batchW_spec x.val (idx_rows y.val d ids i) d k)
    (by omega) hq2 (by omega)
  obtain ⟨s1, hs1⟩ : ∃ s, drv_stage 8
      (fun i => krl_inner_product_idx_batchW x.val (idx_rows y.val d ids i) d)
      ny q = s := ⟨_, rfl⟩
  rw [hs1] at hst8 ⊢
  obtain ⟨h1w, h1d, h1le, h1rem⟩ := hst8
  have hst4 := drv_stage_inv 4 2 (by norm_num)
    (fun i => krl_inner_product_idx_batchW x.val (idx_rows y.val d ids i) d)
    (fun j => ipnaive x.val (pshift y.val (ids j * d)) d)
    ny s1 h1w
    (by
      intro i k _
      exact krl_inner_product_idx_batchW_spec x.val (idx_rows y.val d ids i) d k)
    (by omega) h1le (by omega)
  obtain ⟨s2, hs2⟩ : ∃ s, drv_stage 4
      (fun i => krl_inner_product_idx_batchW x.val (idx_rows y.val d ids i) d)
      ny s1 = s := ⟨_, rfl⟩
  rw [hs2] at hst4 ⊢
  obtain ⟨h2w, h2d, h2le, h2rem⟩ := hst4
  have hst2 := drv_stage_inv 2 1 (by norm_num)
    (fun i => krl_inner_product_idx_batch2 x.val (pshift y.val (ids i * d))
      (pshift y.val (ids (i + 1) * d)) d)
    (fun j => ipnaive x.val (pshift y.val (ids j * d)) d)
    ny s2 h2w
    (by
      intro i k hk
      have hsp := krl_inner_product_idx_batch2_spec x.val
        (pshift y.val (ids i * d)) (pshift y.val (ids (i + 1) * d)) d k
      rcases k with _ | _ | k
      · simpa [ys2] using hsp
      · simpa [ys2] using hsp
      · omega)
    (by omega) h2le (by omega)
  obtain ⟨s3, hs3⟩ : ∃ s, drv_stage 2
      (fun i => krl_inner_product_idx_batch2 x.val (pshift y.val (ids i * d))
        (pshift y.val (ids (i + 1) * d)) d)
      ny s2 = s := ⟨_, rfl⟩
  rw [hs3] at hst2 ⊢
  obtain ⟨h3w, h3d, h3le, h3rem⟩ := hst2
  rw [drv_last_canon
    (fun j => ipnaive x.val (pshift y.val (ids j * d)) d)
    (fun i => (krl_ipdis x ⟨false, pshift y.val (d * ids i)⟩ d dis 1).2)
    ny s3 h3w hW (by omega) h3le (by omega)]
  rw [canon_range]

/-- `krl_inner_product_ny` (IPdistance_simd.cpp:1421): the dense driver.  Row
`k` of the dense batch kernel called at cursor `i` lives at `y + (i + k) * d`.
The `ny & 2` block does not advance the cursor (the source omits `i += 2`),
and the final `ny & 1` block addresses slot `ny - 1` absolutely. -/
def krl_inner_product_ny (dis x y : CPtr) (d ny dis_size : ℕ) :
    Int × List (ℕ × ℚ) :=
  if d < 1 ∨ 65535 < d ∨ ny < 1 ∨ 2 ^ 30 < ny then (INVALPARAM, [])
  else if x.isNull ∨ y.isNull ∨ dis.isNull ∨ dis_size < ny then
    (INVALPOINTER, [])
  else
    (SUCCESS, drv_last2
      (fun i => krl_inner_product_batch2 x.val (pshift y.val (i * d)) d)
      (krl_ipdis x ⟨false, pshift y.val ((ny - 1) * d)⟩ d dis 1).2 ny
      (drv_stage 4
        (fun i => krl_inner_product_batchW x.val (pshift y.val (i * d)) d) ny
        (drv_stage 8
          (fun i => krl_inner_product_batchW x.val (pshift y.val (i * d)) d) ny
          (cfor 16 ny 16
            (fun i w => w ++ storeAt i 16
              (krl_inner_product_batchW x.val (pshift y.val (i * d)) d))
            0 ([] : List (ℕ × ℚ))))))

theorem krl_inner_product_ny_canon (dis x y : CPtr) (d ny dis_size : ℕ)
    (hd1 : 1 ≤ d) (hd2 : d ≤ 65535) (hny1 : 1 ≤ ny) (hny2 : ny ≤ 2 ^ 30)
    (hx : x.isNull = false) (hy : y.isNull = false) (hdis : dis.isNull = false)
    (hsz : ny ≤ dis_size) :
    krl_inner_product_ny dis x y d ny dis_size
      = (SUCCESS, (List.range ny).map (fun j =>
          (j, ipnaive x.val (pshift y.val (j * d)) d))) := by
  unfold krl_inner_product_ny
  rw [if_neg (by omega), if_neg (by simp [hx, hy, hdis]; omega)]
  have houtW : ∀ i k, krl_inner_product_batchW x.val (pshift y.val (i * d)) d k
      = ipnaive x.val (pshift y.val ((i + k) * d)) d := by
    intro i k
    rw [krl_inner_product_batchW_spec, pshift_pshift,
      show i * d + k * d = (i + k) * d from by ring]
  have hW : (krl_ipdis x ⟨false, pshift y.val ((ny - 1) * d)⟩ d dis 1).2
      = [(0, ipnaive x.val (pshift y.val ((ny - 1) * d)) d)] := by
    unfold krl_ipdis
    rw [if_neg (by omega), if_neg (by simp [hx, hdis])]
    rw [krl_ipdis_res_spec]
  have hmain := cfor_spec
    (b := fun i w => w ++ storeAt i 16
      (krl_inner_product_batchW x.val (pshift y.val (i * d)) d))
    (c := 16) (N := ny) (u := 16)
    (fun i w => i % 16 = 0 ∧ i ≤ ny
      ∧ w = canon (fun j => ipnaive x.val (pshift y.val (j * d)) d) 0 i)
    0 []
    ⟨by omega, by omega, rfl⟩
    (by
      rintro i w hc ⟨h1, h2, h3⟩
      refine ⟨by omega, by omega, ?_⟩
      have hap := canon_append
        (fun j => ipnaive x.val (pshift y.val (j * d)) d) 0 i 16
      rw [Nat.zero_add] at hap
      show w ++ storeAt i 16
          (krl_inner_product_batchW x.val (pshift y.val (i * d)) d)
        = canon (fun j => ipnaive x.val (pshift y.val (j * d)) d) 0 (i + 16)
      rw [h3, storeAt_canon i 16 _
        (fun j => ipnaive x.val (pshift y.val (j * d)) d)
        (by intro k _; exact houtW i k), hap])
  have hex := cfor_exit
    (b := fun i w => w ++ storeAt i 16
      (krl_inner_product_batchW x.val (pshift y.val (i * d)) d))
    (c := 16) (N := ny) (u := 16) (by norm_num) (by norm_num) 0
    ([] : List (ℕ × ℚ))
  obtain ⟨q, hq⟩ : ∃ q, cfor 16 ny 16
      (fun i w => w ++ storeAt i 16
        (krl_inner_product_batchW x.val (pshift y.val (i * d)) d))
      0 ([] : List (ℕ × ℚ)) = q := ⟨_, rfl⟩
  rw [hq] at hmain hex ⊢
  obtain ⟨hq1, hq2, hq3⟩ := hmain
  have hst8 := drv_stage_inv 8 3 (by norm_num)
    (fun i => krl_inner_product_batchW x.val (pshift y.val (i * d)) d)
    (fun j => ipnaive x.val (pshift y.val (j * d)) d)
    ny q hq3
    (by intro i k _; exact houtW i k)
    (by omega) hq2 (by omega)
  obtain ⟨s1, hs1⟩ : ∃ s, drv_stage 8
      (fun i => krl_inner_product_batchW x.val (pshift y.val (i * d)) d)
      ny q = s := ⟨_, rfl⟩
  rw [hs1] at hst8 ⊢
  obtain ⟨h1w, h1d, h1le, h1rem⟩ := hst8
  have hst4 := drv_stage_inv 4 2 (by norm_num)
    (fun i => krl_inner_product_batchW x.val (pshift y.val (i * d)) d)
    (fun j => ipnaive x.val (pshift y.val (j * d)) d)
    ny s1 h1w
    (by intro i k _; exact houtW i k)
    (by omega) h1le (by omega)
  obtain ⟨s2, hs2⟩ : ∃ s, drv_stage 4
      (fun i => krl_inner_product_batchW x.val (pshift y.val (i * d)) d)
      ny s1 = s := ⟨_, rfl⟩
  rw [hs2] at hst4 ⊢
  obtain ⟨h2w, h2d, h2le, h2rem⟩ := hst4
  rw [drv_last2_canon
    (fun j => ipnaive x.val (pshift y.val (j * d)) d)
    (fun i => krl_inner_product_batch2 x.val (pshift y.val (i * d)) d)
    ((krl_ipdis x ⟨false, pshift y.val ((ny - 1) * d)⟩ d dis 1).2)
    ny s2 h2w
    (by
      intro i k hk
      have hsp := krl_inner_product_batch2_spec x.val (pshift y.val (i * d)) d k
      rcases k with _ | _ | k
      · simpa [ys2] using hsp
      · simpa [ys2, pshift_pshift, add_one_mul] using hsp
      · omega)
    hW (by omega) h2le (by omega)]
  rw [canon_range]

/-- `krl_L2sqr_by_idx` (L2distance_simd.cpp:2856): validation, the 24-chunk
prefetch loop, the `i + 16 <= ny` / `i + 8 <= ny` if/elif block, then bit
stages `ny & 4`, `ny & 2` and the final `ny & 1` single-pair call
`krl_L2sqr(x, y + d * ids[i], d, &dis[i], 1)`. -/
def krl_L2sqr_by_idx (dis x y : CPtr) (idsNull : Bool) (ids : ℕ → ℕ)
    (d ny dis_size : ℕ) : Int × List (ℕ × ℚ) :=
  if d < 1 ∨ 65535 < d ∨ ny < 1 ∨ 2 ^ 30 < ny then (INVALPARAM, [])
  else if x.isNull ∨ y.isNull ∨ idsNull ∨ dis.isNull ∨ dis_size < ny then
    (INVALPOINTER, [])
  else
    (SUCCESS, drv_last
      (fun i => (krl_L2sqr x ⟨false, pshift y.val (d * ids i)⟩ d dis 1).2) ny
      (drv_stage 2
        (fun i => krl_L2sqr_idx_batch2 x.val (pshift y.val (ids i * d))
          (pshift y.val (ids (i + 1) * d)) d) ny
        (drv_stage 4
          (fun i => krl_L2sqr_idx_batch4 x.val (idx_rows y.val d ids i) d) ny
          (drv_elif
            (fun i => krl_L2sqr_idx_prefetch_batchW x.val (idx_rows y.val d ids i) d)
            (fun i => krl_L2sqr_idx_prefetch_batchW x.val (idx_rows y.val d ids i) d)
            ny
            (cfor 24 ny 24
              (fun i w => w ++ storeAt i 24
                (krl_L2sqr_idx_prefetch_batch24 x.val (idx_rows y.val d ids i) d))
              0 ([] : List (ℕ × ℚ)))))))

theorem krl_L2sqr_by_idx_canon (dis x y : CPtr) (ids : ℕ → ℕ)
    (d ny dis_size : ℕ)
    (hd1 : 1 ≤ d) (hd2 : d ≤ 65535) (hny1 : 1 ≤ ny) (hny2 : ny ≤ 2 ^ 30)
    (hx : x.isNull = false) (hy : y.isNull = false) (hdis : dis.isNull = false)
    (hsz : ny ≤ dis_size) :
    krl_L2sqr_by_idx dis x y false ids d ny dis_size
      = (SUCCESS, (List.range ny).map (fun j =>
          (j, l2naive x.val (pshift y.val (ids j * d)) d))) := by
  unfold krl_L2sqr_by_idx
  rw [if_neg (by omega), if_neg (by simp [hx, hy, hdis]; omega)]
  have hW : ∀ i, (krl_L2sqr x ⟨false, pshift y.val (d * ids i)⟩ d dis 1).2
      = [(0, l2naive x.val (pshift y.val (ids i * d)) d)] := by
    intro i
    unfold krl_L2sqr
    rw [if_neg (by omega), if_neg (by simp [hx, hdis])]
    rw [krl_L2sqr_res_spec]
    rw [Nat.mul_comm d (ids i)]
  have hmain := cfor_spec
    (b := fun i w => w ++ storeAt i 24
      (krl_L2sqr_idx_prefetch_batch24 x.val (idx_rows y.val d ids i) d))
    (c := 24) (N := ny) (u := 24)
    (fun i w => i % 24 = 0 ∧ i ≤ ny
      ∧ w = canon (fun j => l2naive x.val (pshift y.val (ids j * d)) d) 0 i)
    0 []
    ⟨by omega, by omega, rfl⟩
    (by
      rintro i w hc ⟨h1, h2, h3⟩
      refine ⟨by omega, by omega, ?_⟩
      have hap := canon_append
        (fun j => l2naive x.val (pshift y.val (ids j * d)) d) 0 i 24
      rw [Nat.zero_add] at hap
      show w ++ storeAt i 24
          (krl_L2sqr_idx_prefetch_batch24 x.val (idx_rows y.val d ids i) d)
        = canon (fun j => l2naive x.val (pshift y.val (ids j * d)) d) 0 (i + 24)
      rw [h3, storeAt_canon i 24 _
        (fun j => l2naive x.val (pshift y.val (ids j * d)) d)
        (by
          intro k _
          exact krl_L2sqr_idx_prefetch_batch24_spec x.val
            (idx_rows y.val d ids i) d k), hap])
  have hex := cfor_exit
    (b := fun i w => w ++ storeAt i 24
      (krl_L2sqr_idx_prefetch_batch24 x.val (idx_rows y.val d ids i) d))
    (c := 24) (N := ny) (u := 24) (by norm_num) (by norm_num) 0
    ([] : List (ℕ × ℚ))
  obtain ⟨q, hq⟩ : ∃ q, cfor 24 ny 24
      (fun i w => w ++ storeAt i 24
        (krl_L2sqr_idx_prefetch_batch24 x.val (idx_rows y.val d ids i) d))
      0 ([] : List (ℕ × ℚ)) = q := ⟨_, rfl⟩
  rw [hq] at hmain hex ⊢
  obtain ⟨hq1, hq2, hq3⟩ := hmain
  have hstE := drv_elif_inv
    (fun i => krl_L2sqr_idx_prefetch_batchW x.val (idx_rows y.val d ids i) d)
    (fun i => krl_L2sqr_idx_prefetch_batchW x.val (idx_rows y.val d ids i) d)
    (fun j => l2naive x.val (pshift y.val (ids j * d)) d)
    ny q hq3
    (by
      intro i k _
      exact krl_L2sqr_idx_prefetch_batchW_spec x.val (idx_rows y.val d ids i) d k)
    (by
      intro i k _
      exact krl_L2sqr_idx_prefetch_batchW_spec x.val (idx_rows y.val d ids i) d k)
    (by omega) hq2 (by omega)
  obtain ⟨s1, hs1⟩ : ∃ s, drv_elif
      (fun i => krl_L2sqr_idx_prefetch_batchW x.val (idx_rows y.val d ids i) d)
      (fun i => krl_L2sqr_idx_prefetch_batchW x.val (idx_rows y.val d ids i) d)
      ny q = s := ⟨_, rfl⟩
  rw [hs1] at hstE ⊢
  obtain ⟨h1w, h1d, h1le, h1rem⟩ := hstE
  have hst4 := drv_stage_inv 4 2 (by norm_num)
    (fun i => krl_L2sqr_idx_batch4 x.val (idx_rows y.val d ids i) d)
    (fun j => l2naive x.val (pshift y.val (ids j * d)) d)
    ny s1 h1w
    (by
      intro i k _
      exact krl_L2sqr_idx_batch4_spec x.val (idx_rows y.val d ids i) d k)
    (by omega) h1le (by omega)
  obtain ⟨s2, hs2⟩ : ∃ s, drv_stage 4
      (fun i => krl_L2sqr_idx_batch4 x.val (idx_rows y.val d ids i) d)
      ny s1 = s := ⟨_, rfl⟩
  rw [hs2] at hst4 ⊢
  obtain ⟨h2w, h2d, h2le, h2rem⟩ := hst4
  have hst2 := drv_stage_inv 2 1 (by norm_num)
    (fun i => krl_L2sqr_idx_batch2 x.val (pshift y.val (ids i * d))
      (pshift y.val (ids (i + 1) * d)) d)
    (fun j => l2naive x.val (pshift y.val (ids j * d)) d)
    ny s2 h2w
    (by
      intro i k hk
      have hsp := krl_L2sqr_idx_batch2_spec x.val
        (pshift y.val (ids i * d)) (pshift y.val (ids (i + 1) * d)) d k
      rcases k with _ | _ | k
      · simpa [ys2] using hsp
      · simpa [ys2] using hsp
      · omega)
    (by omega) h2le (by omega)
  obtain ⟨s3, hs3⟩ : ∃ s, drv_stage 2
      (fun i => krl_L2sqr_idx_batch2 x.val (pshift y.val (ids i * d))
        (pshift y.val (ids (i + 1) * d)) d)
      ny s2 = s := ⟨_, rfl⟩
  rw [hs3] at hst2 ⊢
  obtain ⟨h3w, h3d, h3le, h3rem⟩ := hst2
  rw [drv_last_canon
    (fun j => l2naive x.val (pshift y.val (ids j * d)) d)
    (fun i => (krl_L2sqr x ⟨false, pshift y.val (d * ids i)⟩ d dis 1).2)
    ny s3 h3w hW (by omega) h3le (by omega)]
  rw [canon_range]

/-- `krl_L2sqr_ny` (L2distance_simd.cpp:3010): the dense L2 driver.  As in
`krl_inner_product_ny`, the `ny & 2` block does not advance the cursor and the
final `ny & 1` block addresses slot `ny - 1` absolutely. -/
def krl_L2sqr_ny (dis x y : CPtr) (ny d dis_size : ℕ) :
    Int × List (ℕ × ℚ) :=
  if d < 1 ∨ 65535 < d ∨ ny < 1 ∨ 2 ^ 30 < ny then (INVALPARAM, [])
  else if x.isNull ∨ y.isNull ∨ dis.isNull ∨ dis_size < ny then
    (INVALPOINTER, [])
  else
    (SUCCESS, drv_last2
      (fun i => krl_L2sqr_batch2 x.val (pshift y.val (i * d)) d)
      (krl_L2sqr x ⟨false, pshift y.val ((ny - 1) * d)⟩ d dis 1).2 ny
      (drv_stage 4
        (fun i => krl_L2sqr_batchW x.val (pshift y.val (i * d)) d) ny
        (drv_elif
          (fun i => krl_L2sqr_batchW x.val (pshift y.val (i * d)) d)
          (fun i => krl_L2sqr_batchW x.val (pshift y.val (i * d)) d)
          ny
          (cfor 24 ny 24
            (fun i w => w ++ storeAt i 24
              (krl_L2sqr_batchW x.val (pshift y.val (i * d)) d))
            0 ([] : List (ℕ × ℚ))))))

theorem krl_L2sqr_ny_canon (dis x y : CPtr) (d ny dis_size : ℕ)
    (hd1 : 1 ≤ d) (hd2 : d ≤ 65535) (hny1 : 1 ≤ ny) (hny2 : ny ≤ 2 ^ 30)
    (hx : x.isNull = false) (hy : y.isNull = false) (hdis : dis.isNull = false)
    (hsz : ny ≤ dis_size) :
    krl_L2sqr_ny dis x y ny d dis_size
      = (SUCCESS, (List.range ny).map (fun j =>
          (j, l2naive x.val (pshift y.val (j * d)) d))) := by
  unfold krl_L2sqr_ny
  rw [if_neg (by omega), if_neg (by simp [hx, hy, hdis]; omega)]
  have houtW : ∀ i k, krl_L2sqr_batchW x.val (pshift y.val (i * d)) d k
      = l2naive x.val (pshift y.val ((i + k) * d)) d := by
    intro i k
    rw [krl_L2sqr_batchW_spec, pshift_pshift,
      show i * d + k * d = (i + k) * d from by ring]
  have hout2 : ∀ i k, krl_L2sqr_batch2 x.val (pshift y.val (i * d)) d k
      = l2naive x.val (pshift y.val ((i + k) * d)) d := by
    intro i k
    rw [krl_L2sqr_batch2_spec, pshift_pshift,
      show i * d + k * d = (i + k) * d from by ring]
  have hW : (krl_L2sqr x ⟨false, pshift y.val ((ny - 1) * d)⟩ d dis 1).2
      = [(0, l2naive x.val (pshift y.val ((ny - 1) * d)) d)] := by
    unfold krl_L2sqr
    rw [if_neg (by omega), if_neg (by simp [hx, hdis])]
    rw [krl_L2sqr_res_spec]
  have hmain := cfor_spec
    (b := fun i w => w ++ storeAt i 24
      (krl_L2sqr_batchW x.val (pshift y.val (i * d)) d))
    (c := 24) (N := ny) (u := 24)
    (fun i w => i % 24 = 0 ∧ i ≤ ny
      ∧ w = canon (fun j => l2naive x.val (pshift y.val (j * d)) d) 0 i)
    0 []
    ⟨by omega, by omega, rfl⟩
    (by
      rintro i w hc ⟨h1, h2, h3⟩
      refine ⟨by omega, by omega, ?_⟩
      have hap := canon_append
        (fun j => l2naive x.val (pshift y.val (j * d)) d) 0 i 24
      rw [Nat.zero_add] at hap
      show w ++ storeAt i 24
          (krl_L2sqr_batchW x.val (pshift y.val (i * d)) d)
        = canon (fun j => l2naive x.val (pshift y.val (j * d)) d) 0 (i + 24)
      rw [h3, storeAt_canon i 24 _
        (fun j => l2naive x.val (pshift y.val (j * d)) d)
        (by intro k _; exact houtW i k), hap])
  have hex := cfor_exit
    (b := fun i w => w ++ storeAt i 24
      (krl_L2sqr_batchW x.val (pshift y.val (i * d)) d))
    (c := 24) (N := ny) (u := 24) (by norm_num) (by norm_num) 0
    ([] : List (ℕ × ℚ))
  obtain ⟨q, hq⟩ : ∃ q, cfor 24 ny 24
      (fun i w => w ++ storeAt i 24
        (krl_L2sqr_batchW x.val (pshift y.val (i * d)) d))
      0 ([] : List (ℕ × ℚ)) = q := ⟨_, rfl⟩
  rw [hq] at hmain hex ⊢
  obtain ⟨hq1, hq2, hq3⟩ := hmain
  have hstE := drv_elif_inv
    (fun i => krl_L2sqr_batchW x.val (pshift y.val (i * d)) d)
    (fun i => krl_L2sqr_batchW x.val (pshift y.val (i * d)) d)
    (fun j => l2naive x.val (pshift y.val (j * d)) d)
    ny q hq3
    (by intro i k _; exact houtW i k)
    (by intro i k _; exact houtW i k)
    (by omega) hq2 (by omega)
  obtain ⟨s1, hs1⟩ : ∃ s, drv_elif
      (fun i => krl_L2sqr_batchW x.val (pshift y.val (i * d)) d)
      (fun i => krl_L2sqr_batchW x.val (pshift y.val (i * d)) d)
      ny q = s := ⟨_, rfl⟩
  rw [hs1] at hstE ⊢
  obtain ⟨h1w, h1d, h1le, h1rem⟩ := hstE
  have hst4 := drv_stage_inv 4 2 (by norm_num)
    (fun i => krl_L2sqr_batchW x.val (pshift y.val (i * d)) d)
    (fun j => l2naive x.val (pshift y.val (j * d)) d)
    ny s1 h1w
    (by intro i k _; exact houtW i k)
    (by omega) h1le (by omega)
  obtain ⟨s2, hs2⟩ : ∃ s, drv_stage 4
      (fun i => krl_L2sqr_batchW x.val (pshift y.val (i * d)) d)
      ny s1 = s := ⟨_, rfl⟩
  rw [hs2] at hst4 ⊢
  obtain ⟨h2w, h2d, h2le, h2rem⟩ := hst4
  rw [drv_last2_canon
    (fun j => l2naive x.val (pshift y.val (j * d)) d)
    (fun i => krl_L2sqr_batch2 x.val (pshift y.val (i * d)) d)
    ((krl_L2sqr x ⟨false, pshift y.val ((ny - 1) * d)⟩ d dis 1).2)
    ny s2 h2w
    (by intro i k _; exact hout2 i k)
    hW (by omega) h2le (by omega)]
  rw [canon_range]

/-! ## Claims C2 (single-pair entry points) -/

/-- C2: for every `d` in `[1, 65535]`, non-null pointers and `dis_size >= 1`,
`krl_L2sqr` returns `SUCCESS` and stores into `dis[0]` exactly the naive sum
over `i < d` of `(x[i]-y[i])^2`, and `krl_ipdis` returns `SUCCESS` and stores
the naive sum of `x[i]*y[i]` (in the exact-arithmetic model the results are
equal, not merely within tolerance); in particular for `d = 4`,
`x = [1,2,3,4]`, `y = [4,3,2,1]`, both stored results equal `20`. -/
theorem claim_C2 (x y dis : CPtr) (d dis_size : ℕ)
    (hd1 : 1 ≤ d) (hd2 : d ≤ 65535)
    (hx : x.isNull = false) (hy : y.isNull = false) (hdis : dis.isNull = false)
    (hsz : 1 ≤ dis_size) :
    krl_L2sqr x y d dis dis_size = (SUCCESS, [(0, l2naive x.val y.val d)])
    ∧ krl_ipdis x y d dis dis_size = (SUCCESS, [(0, ipnaive x.val y.val d)])
    ∧ krl_L2sqr ⟨false, fun j => (j : ℚ) + 1⟩ ⟨false, fun j => 4 - (j : ℚ)⟩ 4
        ⟨false, fun _ => 0⟩ 1 = (SUCCESS, [(0, 20)])
    ∧ krl_ipdis ⟨false, fun j => (j : ℚ) + 1⟩ ⟨false, fun j => 4 - (j : ℚ)⟩ 4
        ⟨false, fun _ => 0⟩ 1 = (SUCCESS, [(0, 20)]) := by
  refine ⟨?_, ?_, ?_, ?_⟩
  · unfold krl_L2sqr
    rw [if_neg (by omega), if_neg (by simp [hx, hy, hdis]; omega),
      krl_L2sqr_res_spec]
  · unfold krl_ipdis
    rw [if_neg (by omega), if_neg (by simp [hx, hy, hdis]; omega),
      krl_ipdis_res_spec]
  · unfold krl_L2sqr
    rw [if_neg (by omega), if_neg (by simp), krl_L2sqr_res_spec]
    norm_num [l2naive, Finset.sum_range_succ]
  · unfold krl_ipdis
    rw [if_neg (by omega), if_neg (by simp), krl_ipdis_res_spec]
    norm_num [ipnaive, Finset.sum_range_succ]

theorem claim_C2_witness :
    (1 ≤ 4 ∧ 4 ≤ 65535
      ∧ ((⟨false, fun j => (j : ℚ) + 1⟩ : CPtr).isNull = false)
      ∧ (1 : ℕ) ≤ 1)
    ∧ (krl_L2sqr ⟨false, fun j => (j : ℚ) + 1⟩ ⟨false, fun j => 4 - (j : ℚ)⟩ 4
        ⟨false, fun _ => 0⟩ 1
      = (SUCCESS, [(0, l2naive (fun j => (j : ℚ) + 1) (fun j => 4 - (j : ℚ)) 4)])
    ∧ krl_ipdis ⟨false, fun j => (j : ℚ) + 1⟩ ⟨false, fun j => 4 - (j : ℚ)⟩ 4
        ⟨false, fun _ => 0⟩ 1
      = (SUCCESS, [(0, ipnaive (fun j => (j : ℚ) + 1) (fun j => 4 - (j : ℚ)) 4)])) := by
  have h := claim_C2 ⟨false, fun j => (j : ℚ) + 1⟩ ⟨false, fun j => 4 - (j : ℚ)⟩
    ⟨false, fun _ => 0⟩ 4 1 (by norm_num) (by norm_num) rfl rfl rfl le_rfl
  exact ⟨⟨by norm_num, by norm_num, rfl, le_rfl⟩, h.1, h.2.1⟩

/-! ## The Transposed-Block Engine (handle-based entry points)

`KRLBatchDistanceHandle` (krl_internal.h:32) carries the configuration and
the block-transposed code buffer.  `CheckAndMemcpy` (safe_memory.h) is
modelled element-wise: the source passes byte counts that are exactly 4x the
element counts on both sides, so the comparison is equivalent. -/

structure KRLBatchDistanceHandle where
  metric_type : Int
  quanted_scale : ℚ
  quanted_bias : ℚ
  data_bits : ℕ
  full_data_bits : ℕ
  M : ℕ
  blocksize : ℕ
  d : ℕ
  ny : ℕ
  ceil_ny : ℕ
  quanted_bytes : ℕ
  transposed_bytes : ℕ
  quanted_codes : Ptr
  transposed_codes : Ptr

/-- `SafeMemory::CheckAndMemcpy(dest, destSize, src, srcSize)`: fails with
`-1` when the source is larger than the destination or a pointer is null,
otherwise copies `srcSize` elements of `src` to the destination position. -/
def CheckAndMemcpy (destPos destSize : ℕ) (srcNull : Bool) (src : ℕ → ℚ)
    (srcSize : ℕ) (destNull : Bool) : Int × List (ℕ × ℚ) :=
  if destSize < srcSize then (-1, [])
  else if destNull ∨ srcNull then (-1, [])
  else (0, storeAt destPos srcSize src)

/-- The full-block loop of one query of the remainder path:
`for (i = 0; i + B <= ny; i += B) kernel(dis + i, x, y + i * dim, dim)`,
with the per-query pointer advances `dis += m*ny`, `x += m*dim`,
`y += m*ceil_ny*dim` already applied. -/
def remBlocks (kern : Ptr → Ptr → ℕ → ℕ → ℚ) (B : ℕ) (x y : Ptr)
    (dim ny ceil_ny m : ℕ) (w : List (ℕ × ℚ)) : ℕ × List (ℕ × ℚ) :=
  cfor B ny B
    (fun i w => w ++ storeAt (m * ny + i) B
      (kern (pshift x (m * dim)) (pshift y (m * (ceil_ny * dim) + i * dim)) dim))
    0 w

/-- The tail of one query of the remainder path: one more kernel call into the
scratch buffer, the remaining-capacity check (`UNSAFEMEM` on failure), and the
bounded copy of the first `left` scratch elements into the output tail. -/
def remFin (kern : Ptr → Ptr → ℕ → ℕ → ℚ) (disNull : Bool) (x y : Ptr)
    (dim ny ceil_ny left dis_size m : ℕ) (p : ℕ × List (ℕ × ℚ)) :
    Int × List (ℕ × ℚ) :=
  if dis_size - (m * ny + p.1) < left then (UNSAFEMEM, p.2)
  else if (CheckAndMemcpy (m * ny + p.1) (dis_size - (m * ny + p.1)) false
      (kern (pshift x (m * dim)) (pshift y (m * (ceil_ny * dim) + p.1 * dim)) dim)
      left disNull).1 ≠ 0 then
    (UNSAFEMEM, p.2)
  else
    (SUCCESS, p.2 ++ (CheckAndMemcpy (m * ny + p.1) (dis_size - (m * ny + p.1))
      false
      (kern (pshift x (m * dim)) (pshift y (m * (ceil_ny * dim) + p.1 * dim)) dim)
      left disNull).2)

def remQuery (kern : Ptr → Ptr → ℕ → ℕ → ℚ) (B : ℕ) (disNull : Bool) (x y : Ptr)
    (dim ny ceil_ny left dis_size m : ℕ) (w : List (ℕ × ℚ)) :
    Int × List (ℕ × ℚ) :=
  remFin kern disNull x y dim ny ceil_ny left dis_size m
    (remBlocks kern B x y dim ny ceil_ny m w)

/-- The query loop `for (m = 0; m < M; m++)` of the remainder path, with an
early return on `UNSAFEMEM`; `t` counts the queries still to run. -/
def remLoop (kern : Ptr → Ptr → ℕ → ℕ → ℚ) (B : ℕ) (disNull : Bool) (x y : Ptr)
    (dim ny ceil_ny left dis_size : ℕ) : ℕ → ℕ → List (ℕ × ℚ) →
    Int × List (ℕ × ℚ)
  | 0, _, w => (SUCCESS, w)
  | t + 1, m, w =>
    if (remQuery kern B disNull x y dim ny ceil_ny left dis_size m w).1 = SUCCESS
    then remLoop kern B disNull x y dim ny ceil_ny left dis_size t (m + 1)
      (remQuery kern B disNull x y dim ny ceil_ny left dis_size m w).2
    else remQuery kern B disNull x y dim ny ceil_ny left dis_size m w

/-- One query of the exact-multiple path:
`for (i = 0; i < ny; i += B) kernel(dis + i, x, y + i * dim, dim)`. -/
def fullQuery (kern : Ptr → Ptr → ℕ → ℕ → ℚ) (B : ℕ) (x y : Ptr)
    (dim ny ceil_ny m : ℕ) (w : List (ℕ × ℚ)) : List (ℕ × ℚ) :=
  (cfor 1 ny B
    (fun i w => w ++ storeAt (m * ny + i) B
      (kern (pshift x (m * dim)) (pshift y (m * (ceil_ny * dim) + i * dim)) dim))
    0 w).2

def fullLoop (kern : Ptr → Ptr → ℕ → ℕ → ℚ) (B : ℕ) (x y : Ptr)
    (dim ny ceil_ny : ℕ) : ℕ → ℕ → List (ℕ × ℚ) → List (ℕ × ℚ)
  | 0, _, w => w
  | t + 1, m, w => fullLoop kern B x y dim ny ceil_ny t (m + 1)
    (fullQuery kern B x y dim ny ceil_ny m w)

/-- Common body of the two handle entry points, parameterised by the three
transposed kernels of the metric. -/
def withHandle (kmini kmedium klarge : Ptr → Ptr → ℕ → ℕ → ℚ)
    (kdhNull : Bool) (kdh : KRLBatchDistanceHandle) (dis x : CPtr)
    (dis_size x_size : ℕ) : Int × List (ℕ × ℚ) :=
  if kdhNull ∨ dis.isNull ∨ x.isNull then (INVALPOINTER, [])
  else if dis_size < kdh.M * kdh.ny ∨ x_size < kdh.d * kdh.M then
    (INVALPARAM, [])
  else if kdh.data_bits = 32 then
    if kdh.blocksize = 16 then
      if kdh.ny &&& (kdh.blocksize - 1) ≠ 0 then
        remLoop kmini 16 dis.isNull x.val kdh.transposed_codes kdh.d kdh.ny
          kdh.ceil_ny (kdh.ny &&& (kdh.blocksize - 1)) dis_size kdh.M 0 []
      else
        (SUCCESS, fullLoop kmini 16 x.val kdh.transposed_codes kdh.d kdh.ny
          kdh.ceil_ny kdh.M 0 [])
    else if kdh.blocksize = 32 then
      if kdh.ny &&& (kdh.blocksize - 1) ≠ 0 then
        remLoop kmedium 32 dis.isNull x.val kdh.transposed_codes kdh.d kdh.ny
          kdh.ceil_ny (kdh.ny &&& (kdh.blocksize - 1)) dis_size kdh.M 0 []
      else
        (SUCCESS, fullLoop kmedium 32 x.val kdh.transposed_codes kdh.d kdh.ny
          kdh.ceil_ny kdh.M 0 [])
    else if kdh.blocksize = 64 then
      if kdh.ny &&& (kdh.blocksize - 1) ≠ 0 then
        remLoop klarge 64 dis.isNull x.val kdh.transposed_codes kdh.d kdh.ny
          kdh.ceil_ny (kdh.ny &&& (kdh.blocksize - 1)) dis_size kdh.M 0 []
      else
        (SUCCESS, fullLoop klarge 64 x.val kdh.transposed_codes kdh.d kdh.ny
          kdh.ceil_ny kdh.M 0 [])
    else (SUCCESS, [])
  else if kdh.data_bits = 16 then (INVALPARAM, [])
  else (INVALPARAM, [])

theorem remBlocks_canon (kern : Ptr → Ptr → ℕ → ℕ → ℚ) (B : ℕ) (x y : Ptr)
    (dim ny ceil_ny m : ℕ) (GV : ℕ → ℚ) (w : List (ℕ × ℚ))
    (hB : 1 ≤ B) (hw : w = canon GV 0 (m * ny))
    (hkern : ∀ i j, i % B = 0 → j < B → i + j < ny →
      kern (pshift x (m * dim)) (pshift y (m * (ceil_ny * dim) + i * dim)) dim j
        = GV (m * ny + i + j)) :
    (remBlocks kern B x y dim ny ceil_ny m w).1 % B = 0
    ∧ (remBlocks kern B x y dim ny ceil_ny m w).1 ≤ ny
    ∧ ¬((remBlocks kern B x y dim ny ceil_ny m w).1 + B ≤ ny)
    ∧ (remBlocks kern B x y dim ny ceil_ny m w).2
        = canon GV 0 (m * ny + (remBlocks kern B x y dim ny ceil_ny m w).1) := by
  unfold remBlocks
  have hmain := cfor_spec
    (b := fun i w => w ++ storeAt (m * ny + i) B
      (kern (pshift x (m * dim)) (pshift y (m * (ceil_ny * dim) + i * dim)) dim))
    (c := B) (N := ny) (u := B)
    (fun i w' => i % B = 0 ∧ i ≤ ny ∧ w' = canon GV 0 (m * ny + i)) 0 w
    ⟨Nat.zero_mod B, Nat.zero_le ny, by simpa using hw⟩
    (by
      rintro i w' hc ⟨h1, h2, h3⟩
      refine ⟨by rw [Nat.add_mod_right]; exact h1, by omega, ?_⟩
      show w' ++ storeAt (m * ny + i) B
          (kern (pshift x (m * dim)) (pshift y (m * (ceil_ny * dim) + i * dim)) dim)
        = canon GV 0 (m * ny + (i + B))
      have hap := canon_append GV 0 (m * ny + i) B
      rw [Nat.zero_add] at hap
      rw [h3, storeAt_canon (m * ny + i) B _ GV
        (by intro k hk; exact hkern i k h1 hk (by omega)), hap]
      congr 1
      omega)
  have hex := cfor_exit
    (b := fun i w => w ++ storeAt (m * ny + i) B
      (kern (pshift x (m * dim)) (pshift y (m * (ceil_ny * dim) + i * dim)) dim))
    (c := B) (N := ny) (u := B) hB hB 0 w
  exact ⟨hmain.1, hmain.2.1, hex, hmain.2.2⟩

theorem remQuery_canon (kern : Ptr → Ptr → ℕ → ℕ → ℚ) (B : ℕ) (disNull : Bool)
    (x y : Ptr) (dim ny ceil_ny left dis_size m M : ℕ) (GV : ℕ → ℚ)
    (w : List (ℕ × ℚ))
    (hB : 1 ≤ B) (hdisN : disNull = false)
    (hleft : left = ny % B) (hl : 0 < left)
    (hm : m < M) (hsz : M * ny ≤ dis_size)
    (hkern : ∀ i j, i % B = 0 → j < B → i + j < ny →
      kern (pshift x (m * dim)) (pshift y (m * (ceil_ny * dim) + i * dim)) dim j
        = GV (m * ny + i + j))
    (hw : w = canon GV 0 (m * ny)) :
    remQuery kern B disNull x y dim ny ceil_ny left dis_size m w
      = (SUCCESS, canon GV 0 ((m + 1) * ny)) := by
  unfold remQuery
  obtain ⟨hpd, hple, hpex, hpw⟩ :=
    remBlocks_canon kern B x y dim ny ceil_ny m GV w hB hw hkern
  obtain ⟨p, hp⟩ : ∃ p, remBlocks kern B x y dim ny ceil_ny m w = p := ⟨_, rfl⟩
  rw [hp] at hpd hple hpex hpw ⊢
  have hlB : left < B := by
    rw [hleft]
    exact Nat.mod_lt ny (by omega)
  have hfin : p.1 + left = ny := by
    obtain ⟨k, hk⟩ := Nat.dvd_of_mod_eq_zero hpd
    have h1 : ny % B = (B * k + (ny - B * k)) % B := by
      congr 1
      omega
    rw [Nat.mul_add_mod, Nat.mod_eq_of_lt (by omega : ny - B * k < B)] at h1
    omega
  unfold remFin
  have he : (m + 1) * ny = m * ny + ny := by ring
  have hmul : (m + 1) * ny ≤ M * ny := Nat.mul_le_mul_right ny (by omega)
  rw [if_neg (by omega)]
  have hcm : CheckAndMemcpy (m * ny + p.1) (dis_size - (m * ny + p.1)) false
      (kern (pshift x (m * dim)) (pshift y (m * (ceil_ny * dim) + p.1 * dim)) dim)
      left disNull
      = (0, storeAt (m * ny + p.1) left
        (kern (pshift x (m * dim))
          (pshift y (m * (ceil_ny * dim) + p.1 * dim)) dim)) := by
    unfold CheckAndMemcpy
    rw [if_neg (by omega), if_neg (by simp [hdisN])]
  rw [hcm, if_neg (by simp)]
  have hap := canon_append GV 0 (m * ny + p.1) left
  rw [Nat.zero_add] at hap
  rw [hpw, storeAt_canon (m * ny + p.1) left _ GV
    (by intro k hk; exact hkern p.1 k hpd (by omega) (by omega)), hap]
  have : m * ny + p.1 + left = (m + 1) * ny := by omega
  rw [this]

theorem remLoop_canon (kern : Ptr → Ptr → ℕ → ℕ → ℚ) (B : ℕ) (disNull : Bool)
    (x y : Ptr) (dim ny ceil_ny left dis_size M : ℕ) (GV : ℕ → ℚ)
    (hB : 1 ≤ B) (hdisN : disNull = false)
    (hleft : left = ny % B) (hl : 0 < left) (hsz : M * ny ≤ dis_size)
    (hkern : ∀ m i j, m < M → i % B = 0 → j < B → i + j < ny →
      kern (pshift x (m * dim)) (pshift y (m * (ceil_ny * dim) + i * dim)) dim j
        = GV (m * ny + i + j)) :
    ∀ t m w, m + t = M → w = canon GV 0 (m * ny) →
      remLoop kern B disNull x y dim ny ceil_ny left dis_size t m w
        = (SUCCESS, canon GV 0 (M * ny)) := by
  intro t
  induction t with
  | zero =>
    intro m w hmt hw
    have hm : m = M := by omega
    subst hm
    simp only [remLoop]
    rw [hw]
  | succ t ih =>
    intro m w hmt hw
    have hq := remQuery_canon kern B disNull x y dim ny ceil_ny left dis_size m M
      GV w hB hdisN hleft hl (by omega) hsz
      (fun i j h1 h2 h3 => hkern m i j (by omega) h1 h2 h3) hw
    simp only [remLoop]
    rw [hq, if_pos
      (show ((SUCCESS, canon GV 0 ((m + 1) * ny)) :
        Int × List (ℕ × ℚ)).1 = SUCCESS from rfl)]
    exact ih (m + 1) _ (by omega) rfl

/-- `(remQuery …).1 = SUCCESS` needs only the capacity arithmetic, not the
kernel values. -/
theorem remQuery_ok (kern : Ptr → Ptr → ℕ → ℕ → ℚ) (B : ℕ) (disNull : Bool)
    (x y : Ptr) (dim ny ceil_ny left dis_size m M : ℕ) (w : List (ℕ × ℚ))
    (hB : 1 ≤ B) (hdisN : disNull = false)
    (hleft : left = ny % B) (hm : m < M) (hsz : M * ny ≤ dis_size) :
    ∃ w', remQuery kern B disNull x y dim ny ceil_ny left dis_size m w
      = (SUCCESS, w') := by
  unfold remQuery remBlocks
  have hmod := cfor_mod
    (b := fun i w => w ++ storeAt (m * ny + i) B
      (kern (pshift x (m * dim)) (pshift y (m * (ceil_ny * dim) + i * dim)) dim))
    (c := B) (N := ny) (u := B) 0 w
  have hle := cfor_le
    (b := fun i w => w ++ storeAt (m * ny + i) B
      (kern (pshift x (m * dim)) (pshift y (m * (ceil_ny * dim) + i * dim)) dim))
    (c := B) (N := ny) (u := B) le_rfl (Nat.zero_le ny) w
  have hex := cfor_exit
    (b := fun i w => w ++ storeAt (m * ny + i) B
      (kern (pshift x (m * dim)) (pshift y (m * (ceil_ny * dim) + i * dim)) dim))
    (c := B) (N := ny) (u := B) hB hB 0 w
  obtain ⟨p, hp⟩ : ∃ p, cfor B ny B
      (fun i w => w ++ storeAt (m * ny + i) B
        (kern (pshift x (m * dim)) (pshift y (m * (ceil_ny * dim) + i * dim)) dim))
      0 w = p := ⟨_, rfl⟩
  rw [hp] at hmod hle hex ⊢
  obtain ⟨t', ht'⟩ := hmod
  have hpd : p.1 % B = 0 := by
    have ht'' : p.1 = B * t' := by omega
    rw [ht'']
    exact Nat.mul_mod_right B t'
  have hfin : p.1 + left = ny := by
    obtain ⟨k, hk⟩ := Nat.dvd_of_mod_eq_zero hpd
    have h1 : ny % B = (B * k + (ny - B * k)) % B := by
      congr 1
      omega
    rw [Nat.mul_add_mod, Nat.mod_eq_of_lt (by omega : ny - B * k < B)] at h1
    omega
  unfold remFin
  have he : (m + 1) * ny = m * ny + ny := by ring
  have hmul : (m + 1) * ny ≤ M * ny := Nat.mul_le_mul_right ny (by omega)
  rw [if_neg (by omega)]
  have hcm : CheckAndMemcpy (m * ny + p.1) (dis_size - (m * ny + p.1)) false
      (kern (pshift x (m * dim)) (pshift y (m * (ceil_ny * dim) + p.1 * dim)) dim)
      left disNull
      = (0, storeAt (m * ny + p.1) left
        (kern (pshift x (m * dim))
          (pshift y (m * (ceil_ny * dim) + p.1 * dim)) dim)) := by
    unfold CheckAndMemcpy
    rw [if_neg (by omega), if_neg (by simp [hdisN])]
  rw [hcm, if_neg (by simp)]
  exact ⟨_, rfl⟩

theorem remLoop_ok (kern : Ptr → Ptr → ℕ → ℕ → ℚ) (B : ℕ) (disNull : Bool)
    (x y : Ptr) (dim ny ceil_ny left dis_size M : ℕ)
    (hB : 1 ≤ B) (hdisN : disNull = false)
    (hleft : left = ny % B) (hsz : M * ny ≤ dis_size) :
    ∀ t m w, m + t = M →
      (remLoop kern B disNull x y dim ny ceil_ny left dis_size t m w).1
        = SUCCESS := by
  intro t
  induction t with
  | zero => intro m w _; rfl
  | succ t ih =>
    intro m w hmt
    obtain ⟨w', hw'⟩ := remQuery_ok kern B disNull x y dim ny ceil_ny left
      dis_size m M w hB hdisN hleft (by omega) hsz
    simp only [remLoop]
    rw [hw', if_pos
      (show ((SUCCESS, w') : Int × List (ℕ × ℚ)).1 = SUCCESS from rfl)]
    exact ih (m + 1) _ (by omega)

theorem fullQuery_canon (kern : Ptr → Ptr → ℕ → ℕ → ℚ) (B : ℕ) (x y : Ptr)
    (dim ny ceil_ny m : ℕ) (GV : ℕ → ℚ) (w : List (ℕ × ℚ))
    (hB : 1 ≤ B) (hny : ny % B = 0)
    (hkern : ∀ i j, i % B = 0 → j < B → i + j < ny →
      kern (pshift x (m * dim)) (pshift y (m * (ceil_ny * dim) + i * dim)) dim j
        = GV (m * ny + i + j))
    (hw : w = canon GV 0 (m * ny)) :
    fullQuery kern B x y dim ny ceil_ny m w = canon GV 0 ((m + 1) * ny) := by
  unfold fullQuery
  have hstep : ∀ i, i % B = 0 → i < ny → i + B ≤ ny := by
    intro i hi hlt
    obtain ⟨k, hk⟩ := Nat.dvd_of_mod_eq_zero hi
    obtain ⟨n, hn⟩ := Nat.dvd_of_mod_eq_zero hny
    have hkn : k < n := by
      by_contra hh
      push_neg at hh
      have : B * n ≤ B * k := Nat.mul_le_mul_left B hh
      omega
    have h1 : B * (k + 1) ≤ B * n := Nat.mul_le_mul_left B hkn
    have h2 : B * (k + 1) = B * k + B := by ring
    omega
  have hmain := cfor_spec
    (b := fun i w => w ++ storeAt (m * ny + i) B
      (kern (pshift x (m * dim)) (pshift y (m * (ceil_ny * dim) + i * dim)) dim))
    (c := 1) (N := ny) (u := B)
    (fun i w' => i % B = 0 ∧ i ≤ ny ∧ w' = canon GV 0 (m * ny + i)) 0 w
    ⟨Nat.zero_mod B, Nat.zero_le ny, by simpa using hw⟩
    (by
      rintro i w' hc ⟨h1, h2, h3⟩
      have hiB := hstep i h1 (by omega)
      refine ⟨by rw [Nat.add_mod_right]; exact h1, by omega, ?_⟩
      show w' ++ storeAt (m * ny + i) B
          (kern (pshift x (m * dim)) (pshift y (m * (ceil_ny * dim) + i * dim)) dim)
        = canon GV 0 (m * ny + (i + B))
      have hap := canon_append GV 0 (m * ny + i) B
      rw [Nat.zero_add] at hap
      rw [h3, storeAt_canon (m * ny + i) B _ GV
        (by intro k hk; exact hkern i k h1 hk (by omega)), hap]
      congr 1
      omega)
  have hex := cfor_exit
    (b := fun i w => w ++ storeAt (m * ny + i) B
      (kern (pshift x (m * dim)) (pshift y (m * (ceil_ny * dim) + i * dim)) dim))
    (c := 1) (N := ny) (u := B) le_rfl hB 0 w
  obtain ⟨p, hp⟩ : ∃ p, cfor 1 ny B
      (fun i w => w ++ storeAt (m * ny + i) B
        (kern (pshift x (m * dim)) (pshift y (m * (ceil_ny * dim) + i * dim)) dim))
      0 w = p := ⟨_, rfl⟩
  rw [hp] at hmain hex ⊢
  obtain ⟨h1, h2, h3⟩ := hmain
  have hfin : p.1 = ny := by omega
  rw [h3, hfin]
  congr 1
  ring

theorem fullLoop_canon (kern : Ptr → Ptr → ℕ → ℕ → ℚ) (B : ℕ) (x y : Ptr)
    (dim ny ceil_ny M : ℕ) (GV : ℕ → ℚ)
    (hB : 1 ≤ B) (hny : ny % B = 0)
    (hkern : ∀ m i j, m < M → i % B = 0 → j < B → i + j < ny →
      kern (pshift x (m * dim)) (pshift y (m * (ceil_ny * dim) + i * dim)) dim j
        = GV (m * ny + i + j)) :
    ∀ t m w, m + t = M → w = canon GV 0 (m * ny) →
      fullLoop kern B x y dim ny ceil_ny t m w = canon GV 0 (M * ny) := by
  intro t
  induction t with
  | zero =>
    intro m w hmt hw
    have hm : m = M := by omega
    subst hm
    simp only [fullLoop]
    rw [hw]
  | succ t ih =>
    intro m w hmt hw
    simp only [fullLoop]
    rw [fullQuery_canon kern B x y dim ny ceil_ny m GV w hB hny
      (fun i j h1 h2 h3 => hkern m i j (by omega) h1 h2 h3) hw]
    exact ih (m + 1) _ (by omega) rfl

/-- The kernel the blocksize switch dispatches to. -/
def kselect (K16 K32 K64 : Ptr → Ptr → ℕ → ℕ → ℚ) (B : ℕ) :
    Ptr → Ptr → ℕ → ℕ → ℚ :=
  if B = 16 then K16 else if B = 32 then K32 else K64

theorem kselect16 (K16 K32 K64 : Ptr → Ptr → ℕ → ℕ → ℚ) :
    kselect K16 K32 K64 16 = K16 := rfl

theorem kselect32 (K16 K32 K64 : Ptr → Ptr → ℕ → ℕ → ℚ) :
    kselect K16 K32 K64 32 = K32 := rfl

theorem kselect64 (K16 K32 K64 : Ptr → Ptr → ℕ → ℕ → ℚ) :
    kselect K16 K32 K64 64 = K64 := rfl

theorem withHandle_canon (K16 K32 K64 : Ptr → Ptr → ℕ → ℕ → ℚ)
    (kdh : KRLBatchDistanceHandle) (dis x : CPtr) (dis_size x_size : ℕ)
    (GV : ℕ → ℚ)
    (hdis : dis.isNull = false) (hx : x.isNull = false)
    (hbits : kdh.data_bits = 32)
    (hB : kdh.blocksize = 16 ∨ kdh.blocksize = 32 ∨ kdh.blocksize = 64)
    (hsz1 : kdh.M * kdh.ny ≤ dis_size) (hsz2 : kdh.d * kdh.M ≤ x_size)
    (hrem : kdh.ny % kdh.blocksize ≠ 0)
    (hkern : ∀ m i j, m < kdh.M → i % kdh.blocksize = 0 → j < kdh.blocksize →
      i + j < kdh.ny →
      kselect K16 K32 K64 kdh.blocksize (pshift x.val (m * kdh.d))
        (pshift kdh.transposed_codes (m * (kdh.ceil_ny * kdh.d) + i * kdh.d))
        kdh.d j = GV (m * kdh.ny + i + j)) :
    withHandle K16 K32 K64 false kdh dis x dis_size x_size
      = (SUCCESS, canon GV 0 (kdh.M * kdh.ny)) := by
  unfold withHandle
  rw [if_neg (by simp [hdis, hx]), if_neg (by omega), if_pos hbits]
  rcases hB with h | h | h
  · rw [h] at hrem hkern ⊢
    simp only [kselect, if_pos rfl] at hkern
    rw [if_pos rfl]
    have hand : kdh.ny &&& (16 - 1) = kdh.ny % 16 := by
      norm_num
      exact and_fifteen kdh.ny
    rw [hand, if_pos hrem]
    exact remLoop_canon K16 16 dis.isNull x.val kdh.transposed_codes kdh.d
      kdh.ny kdh.ceil_ny (kdh.ny % 16) dis_size kdh.M GV (by norm_num) hdis rfl
      (Nat.pos_of_ne_zero hrem) hsz1 hkern kdh.M 0 [] (by omega) (by simp)
  · rw [h] at hrem hkern ⊢
    simp only [kselect, if_neg (by norm_num : ¬(32 = 16)), if_pos rfl] at hkern
    rw [if_neg (by norm_num), if_pos rfl]
    have hand : kdh.ny &&& (32 - 1) = kdh.ny % 32 := by
      norm_num
      exact and_thirtyone kdh.ny
    rw [hand, if_pos hrem]
    exact remLoop_canon K32 32 dis.isNull x.val kdh.transposed_codes kdh.d
      kdh.ny kdh.ceil_ny (kdh.ny % 32) dis_size kdh.M GV (by norm_num) hdis rfl
      (Nat.pos_of_ne_zero hrem) hsz1 hkern kdh.M 0 [] (by omega) (by simp)
  · rw [h] at hrem hkern ⊢
    simp only [kselect, if_neg (by norm_num : ¬(64 = 16)),
      if_neg (by norm_num : ¬(64 = 32))] at hkern
    rw [if_neg (by norm_num), if_neg (by norm_num), if_pos rfl]
    have hand : kdh.ny &&& (64 - 1) = kdh.ny % 64 := by
      norm_num
      exact and_sixtythree kdh.ny
    rw [hand, if_pos hrem]
    exact remLoop_canon K64 64 dis.isNull x.val kdh.transposed_codes kdh.d
      kdh.ny kdh.ceil_ny (kdh.ny % 64) dis_size kdh.M GV (by norm_num) hdis rfl
      (Nat.pos_of_ne_zero hrem) hsz1 hkern kdh.M 0 [] (by omega) (by simp)

theorem withHandle_ok (K16 K32 K64 : Ptr → Ptr → ℕ → ℕ → ℚ)
    (kdh : KRLBatchDistanceHandle) (dis x : CPtr) (dis_size x_size : ℕ)
    (hdis : dis.isNull = false) (hx : x.isNull = false)
    (hbits : kdh.data_bits = 32)
    (hB : kdh.blocksize = 16 ∨ kdh.blocksize = 32 ∨ kdh.blocksize = 64)
    (hsz1 : kdh.M * kdh.ny ≤ dis_size) (hsz2 : kdh.d * kdh.M ≤ x_size) :
    (withHandle K16 K32 K64 false kdh dis x dis_size x_size).1 = SUCCESS := by
  unfold withHandle
  rw [if_neg (by simp [hdis, hx]), if_neg (by omega), if_pos hbits]
  rcases hB with h | h | h
  · rw [h]
    rw [if_pos rfl]
    have hand : kdh.ny &&& (16 - 1) = kdh.ny % 16 := by
      norm_num
      exact and_fifteen kdh.ny
    rw [hand]
    by_cases hr : kdh.ny % 16 ≠ 0
    · rw [if_pos hr]
      exact remLoop_ok K16 16 dis.isNull x.val kdh.transposed_codes kdh.d
        kdh.ny kdh.ceil_ny (kdh.ny % 16) dis_size kdh.M (by norm_num) hdis rfl
        hsz1 kdh.M 0 [] (by omega)
    · rw [if_neg hr]
  · rw [h]
    rw [if_neg (by norm_num), if_pos rfl]
    have hand : kdh.ny &&& (32 - 1) = kdh.ny % 32 := by
      norm_num
      exact and_thirtyone kdh.ny
    rw [hand]
    by_cases hr : kdh.ny % 32 ≠ 0
    · rw [if_pos hr]
      exact remLoop_ok K32 32 dis.isNull x.val kdh.transposed_codes kdh.d
        kdh.ny kdh.ceil_ny (kdh.ny % 32) dis_size kdh.M (by norm_num) hdis rfl
        hsz1 kdh.M 0 [] (by omega)
    · rw [if_neg hr]
  · rw [h]
    rw [if_neg (by norm_num), if_neg (by norm_num), if_pos rfl]
    have hand : kdh.ny &&& (64 - 1) = kdh.ny % 64 := by
      norm_num
      exact and_sixtythree kdh.ny
    rw [hand]
    by_cases hr : kdh.ny % 64 ≠ 0
    · rw [if_pos hr]
      exact remLoop_ok K64 64 dis.isNull x.val kdh.transposed_codes kdh.d
        kdh.ny kdh.ceil_ny (kdh.ny % 64) dis_size kdh.M (by norm_num) hdis rfl
        hsz1 kdh.M 0 [] (by omega)
    · rw [if_neg hr]

theorem GV_split (ny m r : ℕ) (hr : r < ny) :
    (m * ny + r) / ny = m ∧ (m * ny + r) % ny = r := by
  constructor
  · rw [Nat.mul_comm m ny, Nat.mul_add_div (by omega), Nat.div_eq_of_lt hr]
    omega
  · rw [Nat.mul_comm m ny, Nat.mul_add_mod, Nat.mod_eq_of_lt hr]

/-- Bridging the block-transposed layout to dense rows, L2 metric: if the
`m`-th segment of the transposed buffer is the `B`-block-transposed layout
of the dense vector set `yd m`, then the kernel call made by the engine at
block-aligned cursor `i` computes, in slot `j`, the L2-squared distance
between query slice `m` and dense vector `i + j`. -/
theorem trans_kern_l2 (B : ℕ) (kern : Ptr → Ptr → ℕ → ℕ → ℚ)
    (x trans : Ptr) (yd : ℕ → Ptr) (dim ny ceil_ny : ℕ)
    (hBpos : 0 < B)
    (kspec : ∀ X Y j, kern X Y dim j
      = ∑ t in Finset.range dim, (Y (B * t + j) - X t) ^ 2)
    (HY : ∀ m j t, j < ny → t < dim →
      trans (m * (ceil_ny * dim) + (j / B) * (B * dim) + (B * t + j % B))
        = yd m (j * dim + t)) :
    ∀ m i j, i % B = 0 → j < B → i + j < ny →
      kern (pshift x (m * dim))
        (pshift trans (m * (ceil_ny * dim) + i * dim)) dim j
        = l2naive (pshift x (m * dim)) (pshift (yd m) ((i + j) * dim)) dim := by
  intro m i j hi hj hij
  rw [kspec]
  unfold l2naive
  apply Finset.sum_congr rfl
  intro t ht
  have htd : t < dim := Finset.mem_range.mp ht
  have harg : m * (ceil_ny * dim) + i * dim + (B * t + j)
      = m * (ceil_ny * dim) + ((i + j) / B) * (B * dim) + (B * t + (i + j) % B) := by
    obtain ⟨k, hk⟩ := Nat.dvd_of_mod_eq_zero hi
    have hdivB : (i + j) / B = k := by
      rw [hk, Nat.mul_add_div hBpos, Nat.div_eq_of_lt hj]
      omega
    have hmodB : (i + j) % B = j := by
      rw [hk, Nat.mul_add_mod, Nat.mod_eq_of_lt hj]
    rw [hdivB, hmodB, hk]
    ring
  simp only [pshift_apply]
  rw [harg, HY m (i + j) t hij htd]
  ring

/-- Bridging the block-transposed layout to dense rows, inner-product
metric. -/
theorem trans_kern_ip (B : ℕ) (kern : Ptr → Ptr → ℕ → ℕ → ℚ)
    (x trans : Ptr) (yd : ℕ → Ptr) (dim ny ceil_ny : ℕ)
    (hBpos : 0 < B)
    (kspec : ∀ X Y j, kern X Y dim j
      = ∑ t in Finset.range dim, Y (B * t + j) * X t)
    (HY : ∀ m j t, j < ny → t < dim →
      trans (m * (ceil_ny * dim) + (j / B) * (B * dim) + (B * t + j % B))
        = yd m (j * dim + t)) :
    ∀ m i j, i % B = 0 → j < B → i + j < ny →
      kern (pshift x (m * dim))
        (pshift trans (m * (ceil_ny * dim) + i * dim)) dim j
        = ipnaive (pshift x (m * dim)) (pshift (yd m) ((i + j) * dim)) dim := by
  intro m i j hi hj hij
  rw [kspec]
  unfold ipnaive
  apply Finset.sum_congr rfl
  intro t ht
  have htd : t < dim := Finset.mem_range.mp ht
  have harg : m * (ceil_ny * dim) + i * dim + (B * t + j)
      = m * (ceil_ny * dim) + ((i + j) / B) * (B * dim) + (B * t + (i + j) % B) := by
    obtain ⟨k, hk⟩ := Nat.dvd_of_mod_eq_zero hi
    have hdivB : (i + j) / B = k := by
      rw [hk, Nat.mul_add_div hBpos, Nat.div_eq_of_lt hj]
      omega
    have hmodB : (i + j) % B = j := by
      rw [hk, Nat.mul_add_mod, Nat.mod_eq_of_lt hj]
    rw [hdivB, hmodB, hk]
    ring
  simp only [pshift_apply]
  rw [harg, HY m (i + j) t hij htd]
  ring

/-- `krl_L2sqr_ny_with_handle` (L2distance_simd.cpp:3056). -/
def krl_L2sqr_ny_with_handle (kdhNull : Bool) (kdh : KRLBatchDistanceHandle)
    (dis x : CPtr) (dis_size x_size : ℕ) : Int × List (ℕ × ℚ) :=
  withHandle krl_L2sqr_continuous_transpose_mini_kernel
    krl_L2sqr_continuous_transpose_medium_kernel
    krl_L2sqr_continuous_transpose_large_kernel
    kdhNull kdh dis x dis_size x_size

/-- `krl_inner_product_ny_with_handle` (IPdistance_simd.cpp:1463). -/
def krl_inner_product_ny_with_handle (kdhNull : Bool)
    (kdh : KRLBatchDistanceHandle) (dis x : CPtr) (dis_size x_size : ℕ) :
    Int × List (ℕ × ℚ) :=
  withHandle krl_inner_product_continuous_transpose_mini_kernel
    krl_inner_product_continuous_transpose_medium_kernel
    krl_inner_product_continuous_transpose_large_kernel
    kdhNull kdh dis x dis_size x_size

/-! ## Claims C1, C3 (batch drivers) -/

/-- C1: for every `d` in `[1, 65535]`, `ny` in `[1, 2^30]`, non-null
pointers and `dis_size >= ny`, the four batch entry points return `SUCCESS`
and their write list is exactly `[(0, v 0), …, (ny-1, v (ny-1))]`: every one
of the `ny` output slots is written exactly once, in order, with no slot
skipped and no slot written twice, and slot `i` receives the distance for
database vector `i` (row `i*d` of `y` for the dense drivers, row `ids[i]*d`
for the by-idx drivers); in particular for `d = 1`, `ny = 3`, `x = [5]`,
`y = [0, 5, 10]`, `krl_L2sqr_ny` produces `[25, 0, 25]`. -/
theorem claim_C1 (dis x y : CPtr) (ids : ℕ → ℕ) (d ny dis_size : ℕ)
    (hd1 : 1 ≤ d) (hd2 : d ≤ 65535) (hny1 : 1 ≤ ny) (hny2 : ny ≤ 2 ^ 30)
    (hx : x.isNull = false) (hy : y.isNull = false) (hdis : dis.isNull = false)
    (hsz : ny ≤ dis_size) :
    krl_L2sqr_ny dis x y ny d dis_size
      = (SUCCESS, (List.range ny).map (fun j =>
          (j, l2naive x.val (pshift y.val (j * d)) d)))
    ∧ krl_inner_product_ny dis x y d ny dis_size
      = (SUCCESS, (List.range ny).map (fun j =>
          (j, ipnaive x.val (pshift y.val (j * d)) d)))
    ∧ krl_L2sqr_by_idx dis x y false ids d ny dis_size
      = (SUCCESS, (List.range ny).map (fun j =>
          (j, l2naive x.val (pshift y.val (ids j * d)) d)))
    ∧ krl_inner_product_by_idx dis x y false ids d ny dis_size
      = (SUCCESS, (List.range ny).map (fun j =>
          (j, ipnaive x.val (pshift y.val (ids j * d)) d)))
    ∧ krl_L2sqr_ny ⟨false, fun _ => 0⟩ ⟨false, fun _ => 5⟩
        ⟨false, fun j => 5 * (j : ℚ)⟩ 3 1 3
      = (SUCCESS, [(0, 25), (1, 0), (2, 25)]) := by
  refine ⟨krl_L2sqr_ny_canon dis x y d ny dis_size hd1 hd2 hny1 hny2 hx hy hdis hsz,
    krl_inner_product_ny_canon dis x y d ny dis_size hd1 hd2 hny1 hny2 hx hy hdis hsz,
    krl_L2sqr_by_idx_canon dis x y ids d ny dis_size hd1 hd2 hny1 hny2 hx hy hdis hsz,
    krl_inner_product_by_idx_canon dis x y ids d ny dis_size hd1 hd2 hny1 hny2 hx hy hdis hsz,
    ?_⟩
  rw [krl_L2sqr_ny_canon ⟨false, fun _ => 0⟩ ⟨false, fun _ => 5⟩
    ⟨false, fun j => 5 * (j : ℚ)⟩ 1 3 3 (by norm_num) (by norm_num)
    (by norm_num) (by norm_num) rfl rfl rfl (by norm_num)]
  norm_num [List.range_succ, l2naive, pshift, Finset.sum_range_succ]

theorem claim_C1_witness :
    ((1 : ℕ) ≤ 1 ∧ (1 : ℕ) ≤ 65535 ∧ (1 : ℕ) ≤ 3 ∧ (3 : ℕ) ≤ 2 ^ 30
      ∧ ((⟨false, fun _ => (0 : ℚ)⟩ : CPtr).isNull = false) ∧ (3 : ℕ) ≤ 3)
    ∧ krl_L2sqr_ny ⟨false, fun _ => 0⟩ ⟨false, fun _ => 5⟩
        ⟨false, fun j => 5 * (j : ℚ)⟩ 3 1 3
      = (SUCCESS, [(0, 25), (1, 0), (2, 25)]) := by
  have h := claim_C1 ⟨false, fun _ => 0⟩ ⟨false, fun _ => 5⟩
    ⟨false, fun j => 5 * (j : ℚ)⟩ (fun i => i) 1 3 3
    (by norm_num) (by norm_num) (by norm_num) (by norm_num) rfl rfl rfl
    (by norm_num)
  exact ⟨⟨by norm_num, by norm_num, by norm_num, by norm_num, rfl, by norm_num⟩,
    h.2.2.2.2⟩

/-- C3: for every valid `d`, `ny` and `dis_size >= ny`, calling
`krl_L2sqr_by_idx` with the identity index array `ids[i] = i` returns exactly
the same result (code and complete write list, hence every slot's value) as
`krl_L2sqr_ny` on the same `x`, `y`, `d`, `ny`. -/
theorem claim_C3 (dis x y : CPtr) (d ny dis_size : ℕ)
    (hd1 : 1 ≤ d) (hd2 : d ≤ 65535) (hny1 : 1 ≤ ny) (hny2 : ny ≤ 2 ^ 30)
    (hx : x.isNull = false) (hy : y.isNull = false) (hdis : dis.isNull = false)
    (hsz : ny ≤ dis_size) :
    krl_L2sqr_by_idx dis x y false (fun i => i) d ny dis_size
      = krl_L2sqr_ny dis x y ny d dis_size := by
  rw [krl_L2sqr_by_idx_canon dis x y (fun i => i) d ny dis_size
      hd1 hd2 hny1 hny2 hx hy hdis hsz,
    krl_L2sqr_ny_canon dis x y d ny dis_size hd1 hd2 hny1 hny2 hx hy hdis hsz]

theorem claim_C3_witness :
    ((1 : ℕ) ≤ 2 ∧ (2 : ℕ) ≤ 65535 ∧ (1 : ℕ) ≤ 5 ∧ (5 : ℕ) ≤ 2 ^ 30
      ∧ (5 : ℕ) ≤ 7)
    ∧ krl_L2sqr_by_idx ⟨false, fun _ => 0⟩ ⟨false, fun j => (j : ℚ)⟩
        ⟨false, fun j => (j : ℚ) + 1⟩ false (fun i => i) 2 5 7
      = krl_L2sqr_ny ⟨false, fun _ => 0⟩ ⟨false, fun j => (j : ℚ)⟩
        ⟨false, fun j => (j : ℚ) + 1⟩ 5 2 7 := by
  exact ⟨⟨by norm_num, by norm_num, by norm_num, by norm_num, by norm_num⟩,
    claim_C3 ⟨false, fun _ => 0⟩ ⟨false, fun j => (j : ℚ)⟩
      ⟨false, fun j => (j : ℚ) + 1⟩ 2 5 7 (by norm_num) (by norm_num)
      (by norm_num) (by norm_num) rfl rfl rfl (by norm_num)⟩

/-! ## Claims C5, C6, C7, C9, C10 (validation and the handle engine) -/

/-- C5: validation short-circuit.  Calling a batch entry point with `d = 0`,
`d = 65536` or `ny = 0`, or a single-pair entry point with `d = 0` or
`d = 65536`, returns `INVALPARAM`; calling any entry point with parameters in
range but a null required pointer returns `INVALPOINTER` — for the by-idx
entry points the required pointers include the index array `ids`, so a null
`ids` alone already yields `INVALPOINTER`; a null handle, output or query
pointer makes the handle entry points return `INVALPOINTER`; in every such
failing call the write list is empty, i.e. the output buffer is untouched. -/
theorem claim_C5 (x y dis : CPtr) (ids : ℕ → ℕ) (idsNull : Bool)
    (d ny dis_size : ℕ) :
    (d = 0 ∨ d = 65536 ∨ ny = 0 →
      krl_L2sqr_ny dis x y ny d dis_size = (INVALPARAM, [])
      ∧ krl_inner_product_ny dis x y d ny dis_size = (INVALPARAM, [])
      ∧ krl_L2sqr_by_idx dis x y idsNull ids d ny dis_size = (INVALPARAM, [])
      ∧ krl_inner_product_by_idx dis x y idsNull ids d ny dis_size
          = (INVALPARAM, []))
    ∧ (d = 0 ∨ d = 65536 →
      krl_L2sqr x y d dis dis_size = (INVALPARAM, [])
      ∧ krl_ipdis x y d dis dis_size = (INVALPARAM, []))
    ∧ (1 ≤ d → d ≤ 65535 → 1 ≤ ny → ny ≤ 2 ^ 30 →
      x.isNull = true ∨ y.isNull = true ∨ dis.isNull = true →
      krl_L2sqr_ny dis x y ny d dis_size = (INVALPOINTER, [])
      ∧ krl_inner_product_ny dis x y d ny dis_size = (INVALPOINTER, [])
      ∧ krl_L2sqr_by_idx dis x y idsNull ids d ny dis_size = (INVALPOINTER, [])
      ∧ krl_inner_product_by_idx dis x y idsNull ids d ny dis_size
          = (INVALPOINTER, [])
      ∧ krl_L2sqr x y d dis dis_size = (INVALPOINTER, [])
      ∧ krl_ipdis x y d dis dis_size = (INVALPOINTER, []))
    ∧ (1 ≤ d → d ≤ 65535 → 1 ≤ ny → ny ≤ 2 ^ 30 →
      x.isNull = true ∨ y.isNull = true ∨ idsNull = true ∨ dis.isNull = true →
      krl_L2sqr_by_idx dis x y idsNull ids d ny dis_size = (INVALPOINTER, [])
      ∧ krl_inner_product_by_idx dis x y idsNull ids d ny dis_size
          = (INVALPOINTER, []))
    ∧ (∀ (kdh : KRLBatchDistanceHandle) (kdhNull : Bool) (x_size : ℕ),
      kdhNull = true ∨ dis.isNull = true ∨ x.isNull = true →
      krl_L2sqr_ny_with_handle kdhNull kdh dis x dis_size x_size
          = (INVALPOINTER, [])
      ∧ krl_inner_product_ny_with_handle kdhNull kdh dis x dis_size x_size
          = (INVALPOINTER, [])) := by
  refine ⟨?_, ?_, ?_, ?_, ?_⟩
  · intro h
    refine ⟨?_, ?_, ?_, ?_⟩ <;>
      · first
        | (unfold krl_L2sqr_ny; rw [if_pos (by omega)])
        | (unfold krl_inner_product_ny; rw [if_pos (by omega)])
        | (unfold krl_L2sqr_by_idx; rw [if_pos (by omega)])
        | (unfold krl_inner_product_by_idx; rw [if_pos (by omega)])
  · intro h
    constructor
    · unfold krl_L2sqr
      rw [if_pos (by omega)]
    · unfold krl_ipdis
      rw [if_pos (by omega)]
  · intro h1 h2 h3 h4 hnull
    refine ⟨?_, ?_, ?_, ?_, ?_, ?_⟩
    · unfold krl_L2sqr_ny
      rw [if_neg (by omega), if_pos (by rcases hnull with h | h | h <;> simp [h])]
    · unfold krl_inner_product_ny
      rw [if_neg (by omega), if_pos (by rcases hnull with h | h | h <;> simp [h])]
    · unfold krl_L2sqr_by_idx
      rw [if_neg (by omega), if_pos (by rcases hnull with h | h | h <;> simp [h])]
    · unfold krl_inner_product_by_idx
      rw [if_neg (by omega), if_pos (by rcases hnull with h | h | h <;> simp [h])]
    · unfold krl_L2sqr
      rw [if_neg (by omega), if_pos (by rcases hnull with h | h | h <;> simp [h])]
    · unfold krl_ipdis
      rw [if_neg (by omega), if_pos (by rcases hnull with h | h | h <;> simp [h])]
  · intro h1 h2 h3 h4 hnull
    constructor
    · unfold krl_L2sqr_by_idx
      rw [if_neg (by omega),
        if_pos (by rcases hnull with h | h | h | h <;> simp [h])]
    · unfold krl_inner_product_by_idx
      rw [if_neg (by omega),
        if_pos (by rcases hnull with h | h | h | h <;> simp [h])]
  · intro kdh kdhNull x_size hnull
    constructor
    · unfold krl_L2sqr_ny_with_handle withHandle
      rw [if_pos (by rcases hnull with h | h | h <;> simp [h])]
    · unfold krl_inner_product_ny_with_handle withHandle
      rw [if_pos (by rcases hnull with h | h | h <;> simp [h])]

theorem claim_C5_witness :
    ((0 : ℕ) = 0 ∨ (0 : ℕ) = 65536 ∨ (3 : ℕ) = 0)
    ∧ krl_L2sqr_ny ⟨false, fun _ => 0⟩ ⟨false, fun _ => 0⟩ ⟨false, fun _ => 0⟩
        3 0 3 = (INVALPARAM, [])
    ∧ ((⟨true, fun _ => 0⟩ : CPtr).isNull = true
        ∨ (⟨false, fun _ => (0 : ℚ)⟩ : CPtr).isNull = true
        ∨ (⟨false, fun _ => (0 : ℚ)⟩ : CPtr).isNull = true)
    ∧ krl_ipdis ⟨true, fun _ => 0⟩ ⟨false, fun _ => 0⟩ 1 ⟨false, fun _ => 0⟩ 1
        = (INVALPOINTER, [])
    ∧ ((⟨false, fun _ => (0 : ℚ)⟩ : CPtr).isNull = true
        ∨ (⟨false, fun _ => (0 : ℚ)⟩ : CPtr).isNull = true
        ∨ (true : Bool) = true
        ∨ (⟨false, fun _ => (0 : ℚ)⟩ : CPtr).isNull = true)
    ∧ krl_L2sqr_by_idx ⟨false, fun _ => 0⟩ ⟨false, fun _ => 0⟩
        ⟨false, fun _ => 0⟩ true (fun i => i) 1 1 1 = (INVALPOINTER, [])
    ∧ krl_inner_product_by_idx ⟨false, fun _ => 0⟩ ⟨false, fun _ => 0⟩
        ⟨false, fun _ => 0⟩ true (fun i => i) 1 1 1 = (INVALPOINTER, []) := by
  have h1 := (claim_C5 ⟨false, fun _ => 0⟩ ⟨false, fun _ => 0⟩
    ⟨false, fun _ => 0⟩ (fun i => i) false 0 3 3).1 (by omega)
  have h2 := (claim_C5 ⟨true, fun _ => 0⟩ ⟨false, fun _ => 0⟩
    ⟨false, fun _ => 0⟩ (fun i => i) false 1 1 1).2.2.1
    (by omega) (by omega) (by omega) (by norm_num) (Or.inl rfl)
  have h3 := (claim_C5 ⟨false, fun _ => 0⟩ ⟨false, fun _ => 0⟩
    ⟨false, fun _ => 0⟩ (fun i => i) true 1 1 1).2.2.2.1
    (by omega) (by omega) (by omega) (by norm_num)
    (Or.inr (Or.inr (Or.inl rfl)))
  exact ⟨Or.inl rfl, h1.1, Or.inl rfl, h2.2.2.2.2.2,
    Or.inr (Or.inr (Or.inl rfl)), h3.1, h3.2⟩

/-- C6: undersized output buffer.  Every dense or by-idx batch call with
`dis_size < ny` returns `INVALPOINTER` or `INVALPARAM` with an empty write
list, and every handle call with `dis_size < M * ny` returns `INVALPOINTER`
or `INVALPARAM` with an empty write list. -/
theorem claim_C6 (x y dis : CPtr) (ids : ℕ → ℕ) (idsNull : Bool)
    (d ny dis_size : ℕ) (hsz : dis_size < ny) :
    (((krl_L2sqr_ny dis x y ny d dis_size).1 = INVALPOINTER
        ∨ (krl_L2sqr_ny dis x y ny d dis_size).1 = INVALPARAM)
      ∧ (krl_L2sqr_ny dis x y ny d dis_size).2 = [])
    ∧ (((krl_inner_product_ny dis x y d ny dis_size).1 = INVALPOINTER
        ∨ (krl_inner_product_ny dis x y d ny dis_size).1 = INVALPARAM)
      ∧ (krl_inner_product_ny dis x y d ny dis_size).2 = [])
    ∧ (((krl_L2sqr_by_idx dis x y idsNull ids d ny dis_size).1 = INVALPOINTER
        ∨ (krl_L2sqr_by_idx dis x y idsNull ids d ny dis_size).1 = INVALPARAM)
      ∧ (krl_L2sqr_by_idx dis x y idsNull ids d ny dis_size).2 = [])
    ∧ (((krl_inner_product_by_idx dis x y idsNull ids d ny dis_size).1
          = INVALPOINTER
        ∨ (krl_inner_product_by_idx dis x y idsNull ids d ny dis_size).1
          = INVALPARAM)
      ∧ (krl_inner_product_by_idx dis x y idsNull ids d ny dis_size).2 = [])
    ∧ (∀ (kdh : KRLBatchDistanceHandle) (kdhNull : Bool) (ds x_size : ℕ),
      ds < kdh.M * kdh.ny →
      (((krl_L2sqr_ny_with_handle kdhNull kdh dis x ds x_size).1 = INVALPOINTER
        ∨ (krl_L2sqr_ny_with_handle kdhNull kdh dis x ds x_size).1 = INVALPARAM)
        ∧ (krl_L2sqr_ny_with_handle kdhNull kdh dis x ds x_size).2 = [])
      ∧ (((krl_inner_product_ny_with_handle kdhNull kdh dis x ds x_size).1
            = INVALPOINTER
        ∨ (krl_inner_product_ny_with_handle kdhNull kdh dis x ds x_size).1
            = INVALPARAM)
        ∧ (krl_inner_product_ny_with_handle kdhNull kdh dis x ds x_size).2
            = [])) := by
  have hbatch : ∀ r : Int × List (ℕ × ℚ),
      (r = (INVALPARAM, []) ∨ r = (INVALPOINTER, [])) →
      (r.1 = INVALPOINTER ∨ r.1 = INVALPARAM) ∧ r.2 = [] := by
    rintro r (rfl | rfl)
    · exact ⟨Or.inr rfl, rfl⟩
    · exact ⟨Or.inl rfl, rfl⟩
  refine ⟨?_, ?_, ?_, ?_, ?_⟩
  · refine hbatch _ ?_
    unfold krl_L2sqr_ny
    by_cases hv : d < 1 ∨ 65535 < d ∨ ny < 1 ∨ 2 ^ 30 < ny
    · rw [if_pos hv]; exact Or.inl rfl
    · rw [if_neg hv, if_pos (Or.inr (Or.inr (Or.inr hsz)))]; exact Or.inr rfl
  · refine hbatch _ ?_
    unfold krl_inner_product_ny
    by_cases hv : d < 1 ∨ 65535 < d ∨ ny < 1 ∨ 2 ^ 30 < ny
    · rw [if_pos hv]; exact Or.inl rfl
    · rw [if_neg hv, if_pos (Or.inr (Or.inr (Or.inr hsz)))]; exact Or.inr rfl
  · refine hbatch _ ?_
    unfold krl_L2sqr_by_idx
    by_cases hv : d < 1 ∨ 65535 < d ∨ ny < 1 ∨ 2 ^ 30 < ny
    · rw [if_pos hv]; exact Or.inl rfl
    · rw [if_neg hv, if_pos (Or.inr (Or.inr (Or.inr (Or.inr hsz))))]; exact Or.inr rfl
  · refine hbatch _ ?_
    unfold krl_inner_product_by_idx
    by_cases hv : d < 1 ∨ 65535 < d ∨ ny < 1 ∨ 2 ^ 30 < ny
    · rw [if_pos hv]; exact Or.inl rfl
    · rw [if_neg hv, if_pos (Or.inr (Or.inr (Or.inr (Or.inr hsz))))]; exact Or.inr rfl
  · intro kdh kdhNull ds x_size hds
    constructor
    · refine hbatch _ ?_
      unfold krl_L2sqr_ny_with_handle withHandle
      by_cases hv : kdhNull = true ∨ dis.isNull = true ∨ x.isNull = true
      · rw [if_pos hv]; exact Or.inr rfl
      · rw [if_neg hv, if_pos (Or.inl hds)]; exact Or.inl rfl
    · refine hbatch _ ?_
      unfold krl_inner_product_ny_with_handle withHandle
      by_cases hv : kdhNull = true ∨ dis.isNull = true ∨ x.isNull = true
      · rw [if_pos hv]; exact Or.inr rfl
      · rw [if_neg hv, if_pos (Or.inl hds)]; exact Or.inl rfl

theorem claim_C6_witness :
    (2 : ℕ) < 3
    ∧ ((krl_L2sqr_ny ⟨false, fun _ => 0⟩ ⟨false, fun _ => 0⟩
        ⟨false, fun _ => 0⟩ 3 1 2).1 = INVALPOINTER
      ∨ (krl_L2sqr_ny ⟨false, fun _ => 0⟩ ⟨false, fun _ => 0⟩
        ⟨false, fun _ => 0⟩ 3 1 2).1 = INVALPARAM)
    ∧ (krl_L2sqr_ny ⟨false, fun _ => 0⟩ ⟨false, fun _ => 0⟩
        ⟨false, fun _ => 0⟩ 3 1 2).2 = [] := by
  have h := claim_C6 ⟨false, fun _ => 0⟩ ⟨false, fun _ => 0⟩
    ⟨false, fun _ => 0⟩ (fun i => i) false 1 3 2 (by omega)
  exact ⟨by omega, h.1.1, h.1.2⟩

/-- C7: for every handle whose `data_bits` is not 32 (in particular 16 or 8),
both handle entry points fail fast with `INVALPARAM` and write nothing. -/
theorem claim_C7 (kdh : KRLBatchDistanceHandle) (dis x : CPtr)
    (dis_size x_size : ℕ)
    (hdis : dis.isNull = false) (hx : x.isNull = false)
    (hsz1 : kdh.M * kdh.ny ≤ dis_size) (hsz2 : kdh.d * kdh.M ≤ x_size)
    (hbits : kdh.data_bits ≠ 32) :
    krl_L2sqr_ny_with_handle false kdh dis x dis_size x_size = (INVALPARAM, [])
    ∧ krl_inner_product_ny_with_handle false kdh dis x dis_size x_size
        = (INVALPARAM, []) := by
  constructor
  · unfold krl_L2sqr_ny_with_handle withHandle
    rw [if_neg (by simp [hdis, hx]), if_neg (by omega), if_neg hbits]
    by_cases h16 : kdh.data_bits = 16
    · rw [if_pos h16]
    · rw [if_neg h16]
  · unfold krl_inner_product_ny_with_handle withHandle
    rw [if_neg (by simp [hdis, hx]), if_neg (by omega), if_neg hbits]
    by_cases h16 : kdh.data_bits = 16
    · rw [if_pos h16]
    · rw [if_neg h16]

theorem claim_C7_witness :
    (16 : ℕ) ≠ 32
    ∧ krl_L2sqr_ny_with_handle false
        ⟨0, 0, 0, 16, 32, 1, 16, 1, 1, 16, 0, 0, fun _ => 0, fun _ => 0⟩
        ⟨false, fun _ => 0⟩ ⟨false, fun _ => 0⟩ 1 1 = (INVALPARAM, [])
    ∧ krl_inner_product_ny_with_handle false
        ⟨0, 0, 0, 16, 32, 1, 16, 1, 1, 16, 0, 0, fun _ => 0, fun _ => 0⟩
        ⟨false, fun _ => 0⟩ ⟨false, fun _ => 0⟩ 1 1 = (INVALPARAM, []) := by
  have h := claim_C7
    ⟨0, 0, 0, 16, 32, 1, 16, 1, 1, 16, 0, 0, fun _ => 0, fun _ => 0⟩
    ⟨false, fun _ => 0⟩ ⟨false, fun _ => 0⟩ 1 1 rfl rfl
    (by norm_num) (by norm_num) (by norm_num)
  exact ⟨by norm_num, h.1, h.2⟩

/-- C4: for every handle with `data_bits = 32`, blocksize `B` in
`{16, 32, 64}` and `ny` not a multiple of `B`, if the handle's transposed
buffer carries, for each query `m`, the `B`-block-transposed layout of a
dense vector set `yd m` (hypothesis `HY`), then both handle entry points
return `SUCCESS` and write, for every query `m` and vector `j`, slot
`m*ny + j` with exactly the value that the corresponding dense driver
(`krl_L2sqr_ny` resp. `krl_inner_product_ny`) writes into slot `j` on the
same untransposed data and query slice — including the remainder tail of
`ny mod B` vectors: the two closed forms below are literally the same
per-vector expression. -/
theorem claim_C4 (kdh : KRLBatchDistanceHandle) (dis x : CPtr) (yd : ℕ → Ptr)
    (dis_size x_size : ℕ)
    (hdis : dis.isNull = false) (hx : x.isNull = false)
    (hbits : kdh.data_bits = 32)
    (hB : kdh.blocksize = 16 ∨ kdh.blocksize = 32 ∨ kdh.blocksize = 64)
    (hrem : kdh.ny % kdh.blocksize ≠ 0)
    (hd1 : 1 ≤ kdh.d) (hd2 : kdh.d ≤ 65535)
    (hny1 : 1 ≤ kdh.ny) (hny2 : kdh.ny ≤ 2 ^ 30)
    (hsz1 : kdh.M * kdh.ny ≤ dis_size) (hsz2 : kdh.d * kdh.M ≤ x_size)
    (HY : ∀ m j t, j < kdh.ny → t < kdh.d →
      kdh.transposed_codes (m * (kdh.ceil_ny * kdh.d)
        + (j / kdh.blocksize) * (kdh.blocksize * kdh.d)
        + (kdh.blocksize * t + j % kdh.blocksize))
        = yd m (j * kdh.d + t)) :
    krl_L2sqr_ny_with_handle false kdh dis x dis_size x_size
      = (SUCCESS, (List.range (kdh.M * kdh.ny)).map (fun s =>
          (s, l2naive (pshift x.val (s / kdh.ny * kdh.d))
            (pshift (yd (s / kdh.ny)) (s % kdh.ny * kdh.d)) kdh.d)))
    ∧ (∀ m, krl_L2sqr_ny dis ⟨false, pshift x.val (m * kdh.d)⟩ ⟨false, yd m⟩
        kdh.ny kdh.d kdh.ny
      = (SUCCESS, (List.range kdh.ny).map (fun j =>
          (j, l2naive (pshift x.val (m * kdh.d)) (pshift (yd m) (j * kdh.d))
            kdh.d))))
    ∧ krl_inner_product_ny_with_handle false kdh dis x dis_size x_size
      = (SUCCESS, (List.range (kdh.M * kdh.ny)).map (fun s =>
          (s, ipnaive (pshift x.val (s / kdh.ny * kdh.d))
            (pshift (yd (s / kdh.ny)) (s % kdh.ny * kdh.d)) kdh.d)))
    ∧ (∀ m, krl_inner_product_ny dis ⟨false, pshift x.val (m * kdh.d)⟩
        ⟨false, yd m⟩ kdh.d kdh.ny kdh.ny
      = (SUCCESS, (List.range kdh.ny).map (fun j =>
          (j, ipnaive (pshift x.val (m * kdh.d)) (pshift (yd m) (j * kdh.d))
            kdh.d)))) := by
  have hGVl2 : ∀ m i j, i + j < kdh.ny →
      l2naive (pshift x.val (m * kdh.d)) (pshift (yd m) ((i + j) * kdh.d)) kdh.d
      = l2naive (pshift x.val ((m * kdh.ny + i + j) / kdh.ny * kdh.d))
          (pshift (yd ((m * kdh.ny + i + j) / kdh.ny))
            ((m * kdh.ny + i + j) % kdh.ny * kdh.d)) kdh.d := by
    intro m i j hij
    obtain ⟨hdv, hmd⟩ := GV_split kdh.ny m (i + j) hij
    rw [show m * kdh.ny + i + j = m * kdh.ny + (i + j) from by omega, hdv, hmd]
  have hGVip : ∀ m i j, i + j < kdh.ny →
      ipnaive (pshift x.val (m * kdh.d)) (pshift (yd m) ((i + j) * kdh.d)) kdh.d
      = ipnaive (pshift x.val ((m * kdh.ny + i + j) / kdh.ny * kdh.d))
          (pshift (yd ((m * kdh.ny + i + j) / kdh.ny))
            ((m * kdh.ny + i + j) % kdh.ny * kdh.d)) kdh.d := by
    intro m i j hij
    obtain ⟨hdv, hmd⟩ := GV_split kdh.ny m (i + j) hij
    rw [show m * kdh.ny + i + j = m * kdh.ny + (i + j) from by omega, hdv, hmd]
  have hkernl2 : ∀ m i j, m < kdh.M → i % kdh.blocksize = 0 →
      j < kdh.blocksize → i + j < kdh.ny →
      kselect krl_L2sqr_continuous_transpose_mini_kernel
        krl_L2sqr_continuous_transpose_medium_kernel
        krl_L2sqr_continuous_transpose_large_kernel kdh.blocksize
        (pshift x.val (m * kdh.d))
        (pshift kdh.transposed_codes (m * (kdh.ceil_ny * kdh.d) + i * kdh.d))
        kdh.d j
      = l2naive (pshift x.val ((m * kdh.ny + i + j) / kdh.ny * kdh.d))
          (pshift (yd ((m * kdh.ny + i + j) / kdh.ny))
            ((m * kdh.ny + i + j) % kdh.ny * kdh.d)) kdh.d := by
    intro m i j hm hi hj hij
    rcases hB with h | h | h
    · rw [h] at hi hj HY ⊢
      rw [kselect16]
      rw [trans_kern_l2 16 krl_L2sqr_continuous_transpose_mini_kernel x.val
        kdh.transposed_codes yd kdh.d kdh.ny kdh.ceil_ny (by norm_num)
        (fun X Y j' => l2trP_spec 16 X Y kdh.d hd1 j') HY m i j hi hj hij]
      exact hGVl2 m i j hij
    · rw [h] at hi hj HY ⊢
      rw [kselect32]
      rw [trans_kern_l2 32 krl_L2sqr_continuous_transpose_medium_kernel x.val
        kdh.transposed_codes yd kdh.d kdh.ny kdh.ceil_ny (by norm_num)
        (fun X Y j' => l2trP_spec 32 X Y kdh.d hd1 j') HY m i j hi hj hij]
      exact hGVl2 m i j hij
    · rw [h] at hi hj HY ⊢
      rw [kselect64]
      rw [trans_kern_l2 64 krl_L2sqr_continuous_transpose_large_kernel x.val
        kdh.transposed_codes yd kdh.d kdh.ny kdh.ceil_ny (by norm_num)
        (fun X Y j' => krl_L2sqr_continuous_transpose_large_kernel_spec X Y
          kdh.d hd1 j') HY m i j hi hj hij]
      exact hGVl2 m i j hij
  have hkernip : ∀ m i j, m < kdh.M → i % kdh.blocksize = 0 →
      j < kdh.blocksize → i + j < kdh.ny →
      kselect krl_inner_product_continuous_transpose_mini_kernel
        krl_inner_product_continuous_transpose_medium_kernel
        krl_inner_product_continuous_transpose_large_kernel kdh.blocksize
        (pshift x.val (m * kdh.d))
        (pshift kdh.transposed_codes (m * (kdh.ceil_ny * kdh.d) + i * kdh.d))
        kdh.d j
      = ipnaive (pshift x.val ((m * kdh.ny + i + j) / kdh.ny * kdh.d))
          (pshift (yd ((m * kdh.ny + i + j) / kdh.ny))
            ((m * kdh.ny + i + j) % kdh.ny * kdh.d)) kdh.d := by
    intro m i j hm hi hj hij
    rcases hB with h | h | h
    · rw [h] at hi hj HY ⊢
      rw [kselect16]
      rw [trans_kern_ip 16 krl_inner_product_continuous_transpose_mini_kernel
        x.val kdh.transposed_codes yd kdh.d kdh.ny kdh.ceil_ny (by norm_num)
        (fun X Y j' => ip_trans_spec 16 X Y kdh.d hd1 j') HY m i j hi hj hij]
      exact hGVip m i j hij
    · rw [h] at hi hj HY ⊢
      rw [kselect32]
      rw [trans_kern_ip 32 krl_inner_product_continuous_transpose_medium_kernel
        x.val kdh.transposed_codes yd kdh.d kdh.ny kdh.ceil_ny (by norm_num)
        (fun X Y j' => ip_trans_spec 32 X Y kdh.d hd1 j') HY m i j hi hj hij]
      exact hGVip m i j hij
    · rw [h] at hi hj HY ⊢
      rw [kselect64]
      rw [trans_kern_ip 64 krl_inner_product_continuous_transpose_large_kernel
        x.val kdh.transposed_codes yd kdh.d kdh.ny kdh.ceil_ny (by norm_num)
        (fun X Y j' => ip_trans_spec 64 X Y kdh.d hd1 j') HY m i j hi hj hij]
      exact hGVip m i j hij
  refine ⟨?_, ?_, ?_, ?_⟩
  · have h1 := withHandle_canon krl_L2sqr_continuous_transpose_mini_kernel
      krl_L2sqr_continuous_transpose_medium_kernel
      krl_L2sqr_continuous_transpose_large_kernel kdh dis x dis_size x_size
      (fun s => l2naive (pshift x.val (s / kdh.ny * kdh.d))
        (pshift (yd (s / kdh.ny)) (s % kdh.ny * kdh.d)) kdh.d)
      hdis hx hbits hB hsz1 hsz2 hrem hkernl2
    unfold krl_L2sqr_ny_with_handle
    rw [h1, canon_range]
  · intro m
    exact krl_L2sqr_ny_canon dis ⟨false, pshift x.val (m * kdh.d)⟩
      ⟨false, yd m⟩ kdh.d kdh.ny kdh.ny hd1 hd2 hny1 hny2 rfl rfl hdis le_rfl
  · have h1 := withHandle_canon
      krl_inner_product_continuous_transpose_mini_kernel
      krl_inner_product_continuous_transpose_medium_kernel
      krl_inner_product_continuous_transpose_large_kernel kdh dis x dis_size
      x_size
      (fun s => ipnaive (pshift x.val (s / kdh.ny * kdh.d))
        (pshift (yd (s / kdh.ny)) (s % kdh.ny * kdh.d)) kdh.d)
      hdis hx hbits hB hsz1 hsz2 hrem hkernip
    unfold krl_inner_product_ny_with_handle
    rw [h1, canon_range]
  · intro m
    exact krl_inner_product_ny_canon dis ⟨false, pshift x.val (m * kdh.d)⟩
      ⟨false, yd m⟩ kdh.d kdh.ny kdh.ny hd1 hd2 hny1 hny2 rfl rfl hdis le_rfl

theorem claim_C4_witness :
    ((⟨0, 0, 0, 32, 32, 1, 16, 1, 1, 16, 0, 0, fun _ => 0, fun _ => 0⟩ :
        KRLBatchDistanceHandle).ny
      % (⟨0, 0, 0, 32, 32, 1, 16, 1, 1, 16, 0, 0, fun _ => 0, fun _ => 0⟩ :
        KRLBatchDistanceHandle).blocksize ≠ 0
      ∧ (∀ m j t, j < (1 : ℕ) → t < (1 : ℕ) →
        (fun _ => (0 : ℚ)) (m * (16 * 1) + j / 16 * (16 * 1) + (16 * t + j % 16))
          = (fun _ _ => (0 : ℚ)) m (j * 1 + t)))
    ∧ krl_L2sqr_ny_with_handle false
        ⟨0, 0, 0, 32, 32, 1, 16, 1, 1, 16, 0, 0, fun _ => 0, fun _ => 0⟩
        ⟨false, fun _ => 0⟩ ⟨false, fun _ => 0⟩ 1 1
      = (SUCCESS, (List.range (1 * 1)).map (fun s =>
          (s, l2naive (pshift (fun _ => 0) (s / 1 * 1))
            (pshift ((fun _ _ => (0 : ℚ)) (s / 1)) (s % 1 * 1)) 1))) := by
  have h := claim_C4
    ⟨0, 0, 0, 32, 32, 1, 16, 1, 1, 16, 0, 0, fun _ => 0, fun _ => 0⟩
    ⟨false, fun _ => 0⟩ ⟨false, fun _ => 0⟩ (fun _ _ => 0) 1 1
    rfl rfl rfl (Or.inl rfl) (by norm_num) (by norm_num) (by norm_num)
    (by norm_num) (by norm_num) (by norm_num) (by norm_num)
    (fun m j t _ _ => rfl)
  exact ⟨⟨by norm_num, fun m j t _ _ => rfl⟩, h.1⟩

/-- C8: one query of the remainder path (`remQuery`, the per-`m` body that
the handle entry points run when `ny mod B` is nonzero) first runs the
full-block loop (`remBlocks`), then computes one extra full-block kernel
call into the scratch buffer and copies only its first `left` elements into
the output tail at the current cursor; if fewer than `left` output slots
remain it returns `UNSAFEMEM` with exactly the full-block writes — the
scratch contents never reach the output buffer and the output tail is
untouched.  (At the entry points `left = ny mod B`, established by
`withHandle_canon`.) -/
theorem claim_C8 (kern : Ptr → Ptr → ℕ → ℕ → ℚ) (B : ℕ) (x y : Ptr)
    (dim ny ceil_ny left dis_size m : ℕ) (w : List (ℕ × ℚ)) :
    (dis_size - (m * ny + (remBlocks kern B x y dim ny ceil_ny m w).1) < left →
      remQuery kern B false x y dim ny ceil_ny left dis_size m w
        = (UNSAFEMEM, (remBlocks kern B x y dim ny ceil_ny m w).2))
    ∧ (left ≤ dis_size - (m * ny + (remBlocks kern B x y dim ny ceil_ny m w).1) →
      remQuery kern B false x y dim ny ceil_ny left dis_size m w
        = (SUCCESS, (remBlocks kern B x y dim ny ceil_ny m w).2
            ++ storeAt (m * ny + (remBlocks kern B x y dim ny ceil_ny m w).1)
              left
              (kern (pshift x (m * dim))
                (pshift y (m * (ceil_ny * dim)
                  + (remBlocks kern B x y dim ny ceil_ny m w).1 * dim))
                dim))) := by
  obtain ⟨p, hp⟩ : ∃ p, remBlocks kern B x y dim ny ceil_ny m w = p := ⟨_, rfl⟩
  rw [hp]
  constructor
  · intro hlt
    unfold remQuery remFin
    rw [hp, if_pos hlt]
  · intro hge
    unfold remQuery remFin
    rw [hp, if_neg (by omega)]
    have hcm : CheckAndMemcpy (m * ny + p.1) (dis_size - (m * ny + p.1)) false
        (kern (pshift x (m * dim))
          (pshift y (m * (ceil_ny * dim) + p.1 * dim)) dim) left false
        = (0, storeAt (m * ny + p.1) left
          (kern (pshift x (m * dim))
            (pshift y (m * (ceil_ny * dim) + p.1 * dim)) dim)) := by
      unfold CheckAndMemcpy
      rw [if_neg (by omega), if_neg (by simp)]
    rw [hcm, if_neg (by simp)]

theorem claim_C8_witness :
    ((0 : ℕ) - (0 * 0 + (remBlocks (fun _ _ _ _ => 0) 1
        (fun _ => 0) (fun _ => 0) 0 0 0 0 []).1) < 1
      ∧ (0 : ℕ) ≤ 5 - (0 * 0 + (remBlocks (fun _ _ _ _ => 0) 1
        (fun _ => 0) (fun _ => 0) 0 0 0 0 []).1))
    ∧ remQuery (fun _ _ _ _ => 0) 1 false (fun _ => 0) (fun _ => 0)
        0 0 0 1 0 0 []
      = (UNSAFEMEM, (remBlocks (fun _ _ _ _ => 0) 1
          (fun _ => 0) (fun _ => 0) 0 0 0 0 []).2)
    ∧ remQuery (fun _ _ _ _ => 0) 1 false (fun _ => 0) (fun _ => 0)
        0 0 0 0 5 0 []
      = (SUCCESS, (remBlocks (fun _ _ _ _ => 0) 1
          (fun _ => 0) (fun _ => 0) 0 0 0 0 []).2
          ++ storeAt (0 * 0 + (remBlocks (fun _ _ _ _ => 0) 1
              (fun _ => 0) (fun _ => 0) 0 0 0 0 []).1) 0
            ((fun _ _ _ _ => (0 : ℚ)) (pshift (fun _ => 0) (0 * 0))
              (pshift (fun _ => 0) (0 * (0 * 0) + (remBlocks (fun _ _ _ _ => 0) 1
                (fun _ => 0) (fun _ => 0) 0 0 0 0 []).1 * 0)) 0)) := by
  have hfin : (remBlocks (fun _ _ _ _ => (0:ℚ)) 1
      (fun _ => 0) (fun _ => 0) 0 0 0 0 ([] : List (ℕ × ℚ))).1 = 0 := by
    unfold remBlocks
    rw [cfor_nop _ (by omega)]
  have h1 := (claim_C8 (fun _ _ _ _ => 0) 1 (fun _ => 0) (fun _ => 0)
    0 0 0 1 0 0 []).1 (by rw [hfin]; norm_num)
  have h2 := (claim_C8 (fun _ _ _ _ => 0) 1 (fun _ => 0) (fun _ => 0)
    0 0 0 0 5 0 []).2 (by rw [hfin]; norm_num)
  exact ⟨⟨by rw [hfin]; norm_num, by rw [hfin]; norm_num⟩, h1, h2⟩

/-- C9: with `data_bits = 32`, a blocksize in `{16, 32, 64}`, non-null
pointers and the entry validation `dis_size >= M * ny` (and
`x_size >= d * M`), the `UNSAFEMEM` branch of the remainder path is
unreachable: both handle entry points always return `SUCCESS`. -/
theorem claim_C9 (kdh : KRLBatchDistanceHandle) (dis x : CPtr)
    (dis_size x_size : ℕ)
    (hdis : dis.isNull = false) (hx : x.isNull = false)
    (hbits : kdh.data_bits = 32)
    (hB : kdh.blocksize = 16 ∨ kdh.blocksize = 32 ∨ kdh.blocksize = 64)
    (hsz1 : kdh.M * kdh.ny ≤ dis_size) (hsz2 : kdh.d * kdh.M ≤ x_size) :
    (krl_L2sqr_ny_with_handle false kdh dis x dis_size x_size).1 = SUCCESS
    ∧ (krl_inner_product_ny_with_handle false kdh dis x dis_size x_size).1
        = SUCCESS := by
  constructor
  · exact withHandle_ok _ _ _ kdh dis x dis_size x_size hdis hx hbits hB hsz1 hsz2
  · exact withHandle_ok _ _ _ kdh dis x dis_size x_size hdis hx hbits hB hsz1 hsz2

theorem claim_C9_witness :
    ((⟨0, 0, 0, 32, 32, 1, 16, 1, 3, 16, 0, 0, fun _ => 0, fun _ => 0⟩ :
        KRLBatchDistanceHandle).data_bits = 32
      ∧ ((⟨0, 0, 0, 32, 32, 1, 16, 1, 3, 16, 0, 0, fun _ => 0, fun _ => 0⟩ :
        KRLBatchDistanceHandle).blocksize = 16
        ∨ (⟨0, 0, 0, 32, 32, 1, 16, 1, 3, 16, 0, 0, fun _ => 0, fun _ => 0⟩ :
        KRLBatchDistanceHandle).blocksize = 32
        ∨ (⟨0, 0, 0, 32, 32, 1, 16, 1, 3, 16, 0, 0, fun _ => 0, fun _ => 0⟩ :
        KRLBatchDistanceHandle).blocksize = 64))
    ∧ (krl_L2sqr_ny_with_handle false
        ⟨0, 0, 0, 32, 32, 1, 16, 1, 3, 16, 0, 0, fun _ => 0, fun _ => 0⟩
        ⟨false, fun _ => 0⟩ ⟨false, fun _ => 0⟩ 3 1).1 = SUCCESS
    ∧ (krl_inner_product_ny_with_handle false
        ⟨0, 0, 0, 32, 32, 1, 16, 1, 3, 16, 0, 0, fun _ => 0, fun _ => 0⟩
        ⟨false, fun _ => 0⟩ ⟨false, fun _ => 0⟩ 3 1).1 = SUCCESS := by
  have h := claim_C9
    ⟨0, 0, 0, 32, 32, 1, 16, 1, 3, 16, 0, 0, fun _ => 0, fun _ => 0⟩
    ⟨false, fun _ => 0⟩ ⟨false, fun _ => 0⟩ 3 1 rfl rfl rfl (Or.inl rfl)
    (by norm_num) (by norm_num)
  exact ⟨⟨rfl, Or.inl rfl⟩, h.1, h.2⟩

/-- C10: for every handle with `data_bits = 32` whose blocksize is not one of
16, 32 or 64, both handle entry points (given non-null pointers and
sufficient buffer sizes) return `SUCCESS` while writing nothing: the
blocksize switch has no default case and control falls through to the
success return. -/
theorem claim_C10 (kdh : KRLBatchDistanceHandle) (dis x : CPtr)
    (dis_size x_size : ℕ)
    (hdis : dis.isNull = false) (hx : x.isNull = false)
    (hbits : kdh.data_bits = 32)
    (hB16 : kdh.blocksize ≠ 16) (hB32 : kdh.blocksize ≠ 32)
    (hB64 : kdh.blocksize ≠ 64)
    (hsz1 : kdh.M * kdh.ny ≤ dis_size) (hsz2 : kdh.d * kdh.M ≤ x_size) :
    krl_L2sqr_ny_with_handle false kdh dis x dis_size x_size = (SUCCESS, [])
    ∧ krl_inner_product_ny_with_handle false kdh dis x dis_size x_size
        = (SUCCESS, []) := by
  constructor
  · unfold krl_L2sqr_ny_with_handle withHandle
    rw [if_neg (by simp [hdis, hx]), if_neg (by omega), if_pos hbits,
      if_neg hB16, if_neg hB32, if_neg hB64]
  · unfold krl_inner_product_ny_with_handle withHandle
    rw [if_neg (by simp [hdis, hx]), if_neg (by omega), if_pos hbits,
      if_neg hB16, if_neg hB32, if_neg hB64]

theorem claim_C10_witness :
    ((⟨0, 0, 0, 32, 32, 1, 8, 1, 3, 8, 0, 0, fun _ => 0, fun _ => 0⟩ :
        KRLBatchDistanceHandle).blocksize ≠ 16
      ∧ (⟨0, 0, 0, 32, 32, 1, 8, 1, 3, 8, 0, 0, fun _ => 0, fun _ => 0⟩ :
        KRLBatchDistanceHandle).blocksize ≠ 32
      ∧ (⟨0, 0, 0, 32, 32, 1, 8, 1, 3, 8, 0, 0, fun _ => 0, fun _ => 0⟩ :
        KRLBatchDistanceHandle).blocksize ≠ 64)
    ∧ krl_L2sqr_ny_with_handle false
        ⟨0, 0, 0, 32, 32, 1, 8, 1, 3, 8, 0, 0, fun _ => 0, fun _ => 0⟩
        ⟨false, fun _ => 0⟩ ⟨false, fun _ => 0⟩ 3 1 = (SUCCESS, [])
    ∧ krl_inner_product_ny_with_handle false
        ⟨0, 0, 0, 32, 32, 1, 8, 1, 3, 8, 0, 0, fun _ => 0, fun _ => 0⟩
        ⟨false, fun _ => 0⟩ ⟨false, fun _ => 0⟩ 3 1 = (SUCCESS, []) := by
  have h := claim_C10
    ⟨0, 0, 0, 32, 32, 1, 8, 1, 3, 8, 0, 0, fun _ => 0, fun _ => 0⟩
    ⟨false, fun _ => 0⟩ ⟨false, fun _ => 0⟩ 3 1 rfl rfl rfl
    (by norm_num) (by norm_num) (by norm_num) (by norm_num) (by norm_num)
  exact ⟨⟨by norm_num, by norm_num, by norm_num⟩, h.1, h.2⟩

end KRL
